import Mathlib

/-!
Verification of the mSheet core engine: a shallow embedding of the
normalization, ID-generation, conditional-logic, validation and
structural-edit code of packages/core, with theorems settling the
specified properties.

Conventions of the embedding:
* JavaScript objects with string keys are modelled as insertion-ordered
  association lists (`Obj`); assignment replaces in place, deletion filters.
* JavaScript numbers are modelled as rationals (`Rat`); machine-float
  rounding is outside the model.  `Number.EPSILON` is the rational `2 ^ (-52)`.
* `Set<string>` values are modelled as `List String` with membership.
* Optional properties are `Option`; an absent property is `none`.
-/

namespace MSheet

/-! ## JavaScript object model -/

/-- An insertion-ordered string-keyed object, as JavaScript objects behave
for non-numeric keys. -/
abbrev Obj (α : Type) : Type := List (String × α)

namespace Obj

/-- Property read `o[k]` - the value at the first (only) occurrence of `k`. -/
def get {α} (o : Obj α) (k : String) : Option α :=
  match List.find? (fun e => e.1 == k) o with
  | some e => some e.2
  | none => none

/-- Property write `o[k] = v` - replaces in place when the key exists,
otherwise appends (JavaScript insertion order). -/
def set {α} (o : Obj α) (k : String) (v : α) : Obj α :=
  match o with
  | [] => [(k, v)]
  | e :: rest => if e.1 = k then (k, v) :: rest else e :: set rest k v

/-- Property deletion (the rest-destructuring idiom `{ [k]: _, ...rest }`). -/
def del {α} (o : Obj α) (k : String) : Obj α :=
  o.filter (fun e => e.1 ≠ k)

/-- `Object.keys(o)` in insertion order. -/
def keys {α} (o : Obj α) : List String :=
  o.map Prod.fst

/-- Key membership `k in o`. -/
def hasKey {α} (o : Obj α) (k : String) : Bool :=
  (o.get k).isSome

end Obj

/-! ## Decimal digits

Helpers shared by the ID generator model: rendering a natural number in
decimal (JavaScript template interpolation of an integer) and reading a
digit string back (`parseInt(ds, 10)` on an all-digit string). -/

/-- The character for the decimal digit `d` (meaningful when `d < 10`). -/
def digitChar (d : Nat) : Char := Char.ofNat (48 + d)

/-- Value of an all-digit character list, most significant first - exactly
what `parseInt(s, 10)` returns on a string of digits. -/
def digitsVal (l : List Char) : Nat :=
  l.foldl (fun a c => 10 * a + (c.toNat - 48)) 0

/-- Fuel-indexed decimal rendering; `fuel` bounds the number of digits,
and any `fuel > n` is enough. -/
def natDigitsAux : Nat → Nat → List Char
  | 0, _ => []
  | f + 1, n =>
      if n < 10 then [digitChar n]
      else natDigitsAux f (n / 10) ++ [digitChar (n % 10)]

/-- Decimal rendering of a natural number, as JavaScript renders an
integer-valued number into a template string. -/
def natDigits (n : Nat) : List Char := natDigitsAux (n + 1) n

/-! ## ID generation (functions/ids.ts) -/

/-- Strip an expected leading character list; `some rest` exactly when the
input is the expected list followed by `rest`. -/
def stripLead : List Char → List Char → Option (List Char)
  | [], rest => some rest
  | _ :: _, [] => none
  | p :: ps, c :: cs => if c = p then stripLead ps cs else none

/-- The numeric suffix of `id` with respect to prefix string `pfx`: `some n`
exactly when `id` matches the regular expression `^pfx-(\d+)$` (with `pfx`
escaped to a literal), where `n` is the parsed decimal value of the digits. -/
def suffixNum (pfx id : String) : Option Nat :=
  match stripLead (pfx.data ++ ['-']) id.data with
  | some rest =>
      if rest ≠ [] ∧ rest.all Char.isDigit then some (digitsVal rest) else none
  | none => none

/-- The running-maximum loop of `generateId`: the largest numeric suffix
among `existing`, zero when none matches. -/
def maxSuffix (pfx : String) (existing : List String) : Nat :=
  existing.foldl
    (fun m id => match suffixNum pfx id with
      | some n => if m < n then n else m
      | none => m) 0

/-- Translation of `generateId` (functions/ids.ts): return the prefix
unchanged when unused, else append one more than the largest numeric
suffix found among the existing IDs. -/
def generateId (pfx : String) (existing : List String) : String :=
  if pfx ∈ existing then
    pfx ++ "-" ++ String.mk (natDigits (maxSuffix pfx existing + 1))
  else pfx

/-- JS truthiness of a nullable string id: `null`/`undefined` and the
empty string are falsy. `truthyId` keeps an id only when it is truthy,
modelling guards of the form `if (parentId)`. -/
def truthyId : Option String → Option String
  | none => none
  | some s => if s = "" then none else some s

/-- Translation of `generateFieldId`: the prefix is `parentId-fieldType`
when the parent id is truthy (`parentId ? ... : ...`), else the field
type, else the literal `field` (`fieldType || 'field'`). -/
def generateFieldId (fieldType : String) (existing : List String)
    (parentId : Option String) : String :=
  let pfx := match truthyId parentId with
    | some p => p ++ "-" ++ fieldType
    | none => if fieldType = "" then "field" else fieldType
  generateId pfx existing

/-- Translation of `generateOptionId`. -/
def generateOptionId (existing : List String) (fieldId : Option String) : String :=
  generateId (match fieldId with | some f => f ++ "-option" | none => "option") existing

/-- Translation of `generateRowId`. -/
def generateRowId (existing : List String) (fieldId : Option String) : String :=
  generateId (match fieldId with | some f => f ++ "-row" | none => "row") existing

/-- Translation of `generateColumnId`. -/
def generateColumnId (existing : List String) (fieldId : Option String) : String :=
  generateId (match fieldId with | some f => f ++ "-col" | none => "col") existing

example : generateId "field" ["field", "field-2", "field-extra"] = "field-3" := by decide
example : generateId "field" ["other"] = "field" := by decide
example : generateId "p" ["p", "p-007"] = "p-8" := by decide

/-! ## Lemmas about digits and the ID generator -/

theorem digitChar_toNat {d : Nat} (h : d < 10) : (digitChar d).toNat = 48 + d := by
  interval_cases d <;> decide

theorem digitChar_isDigit {d : Nat} (h : d < 10) : (digitChar d).isDigit = true := by
  interval_cases d <;> decide

theorem digitsVal_append_singleton (l : List Char) (c : Char) :
    digitsVal (l ++ [c]) = 10 * digitsVal l + (c.toNat - 48) := by
  simp [digitsVal, List.foldl_append]

theorem natDigitsAux_spec {f n : Nat} (h : n < f) :
    natDigitsAux f n ≠ [] ∧ (natDigitsAux f n).all Char.isDigit = true ∧
      digitsVal (natDigitsAux f n) = n := by
  induction f generalizing n with
  | zero => omega
  | succ f ih =>
      by_cases h10 : n < 10
      · refine ⟨by simp [natDigitsAux, h10], ?_, ?_⟩
        · simp [natDigitsAux, h10, digitChar_isDigit h10]
        · simp [natDigitsAux, h10, digitsVal, digitChar_toNat h10]
      · have hdiv : n / 10 < f := by
          have h1 : n / 10 < n := Nat.div_lt_self (by omega) (by omega)
          omega
        obtain ⟨h1, h2, h3⟩ := ih hdiv
        refine ⟨by simp [natDigitsAux, h10], ?_, ?_⟩
        · simp only [natDigitsAux, if_neg h10, List.all_append, Bool.and_eq_true]
          exact ⟨h2, by simp [digitChar_isDigit (Nat.mod_lt n (by omega))]⟩
        · simp only [natDigitsAux, if_neg h10, digitsVal_append_singleton, h3,
            digitChar_toNat (Nat.mod_lt n (by omega))]
          omega

theorem digitsVal_natDigits (n : Nat) : digitsVal (natDigits n) = n :=
  (natDigitsAux_spec (Nat.lt_succ_self n)).2.2

theorem stripLead_eq_some_iff :
    ∀ (p l r : List Char), stripLead p l = some r ↔ l = p ++ r := by
  intro p
  induction p with
  | nil => intro l r; simp [stripLead]
  | cons a as ih =>
      intro l r
      cases l with
      | nil => simp [stripLead]
      | cons c cs =>
          by_cases hc : c = a
          · subst hc; simp [stripLead, ih]
          · simp [stripLead, hc]

/-- The property of matching `^p-(\d+)$` with parsed value `n`, written as
the specification states it: the ID is the prefix, a hyphen, and a
non-empty run of decimal digits whose `parseInt` value is `n`. -/
def HasNumericSuffix (p id : String) (n : Nat) : Prop :=
  ∃ ds : List Char, id.data = p.data ++ '-' :: ds ∧ ds ≠ [] ∧
    ds.all Char.isDigit = true ∧ digitsVal ds = n

theorem suffixNum_eq_some_iff {pfx id : String} {n : Nat} :
    suffixNum pfx id = some n ↔ HasNumericSuffix pfx id n := by
  unfold suffixNum
  cases h : stripLead (pfx.data ++ ['-']) id.data with
  | none =>
      simp only [HasNumericSuffix]
      constructor
      · intro hc; exact absurd hc (by simp)
      · rintro ⟨ds, hds, -, -, -⟩
        have : stripLead (pfx.data ++ ['-']) id.data = some ds :=
          (stripLead_eq_some_iff _ _ _).mpr (by simpa using hds)
        simp [h] at this
  | some rest =>
      rw [stripLead_eq_some_iff] at h
      have hid : id.data = pfx.data ++ '-' :: rest := by simpa using h
      simp only [HasNumericSuffix]
      constructor
      · intro hc
        split_ifs at hc with hr
        exact ⟨rest, hid, hr.1, hr.2, by injection hc⟩
      · rintro ⟨ds, hds, h1, h2, h3⟩
        have heq : rest = ds := by
          have h4 : pfx.data ++ '-' :: rest = pfx.data ++ '-' :: ds :=
            hid.symm.trans hds
          have h5 := List.append_cancel_left h4
          injection h5
        subst heq
        simp [h1, h2, h3]

theorem le_maxSuffix {pfx : String} {existing : List String} {id : String} {n : Nat}
    (hmem : id ∈ existing) (hsuf : suffixNum pfx id = some n) :
    n ≤ maxSuffix pfx existing := by
  unfold maxSuffix
  suffices h : ∀ (l : List String) (a : Nat),
      (id ∈ l → n ≤ l.foldl (fun m i => match suffixNum pfx i with
        | some k => if m < k then k else m | none => m) a) ∧
      a ≤ l.foldl (fun m i => match suffixNum pfx i with
        | some k => if m < k then k else m | none => m) a from
    (h existing 0).1 hmem
  intro l
  induction l with
  | nil => intro a; simp
  | cons x xs ih =>
      intro a
      constructor
      · intro hx
        rcases List.mem_cons.mp hx with rfl | hx'
        · simp only [List.foldl_cons, hsuf]
          exact le_trans (by split <;> omega : n ≤ if a < n then n else a) (ih _).2
        · exact (ih _).1 hx'
      · simp only [List.foldl_cons]
        cases hs : suffixNum pfx x with
        | some k => exact le_trans (by split <;> omega : a ≤ if a < k then k else a) (ih _).2
        | none => exact (ih _).2

theorem maxSuffix_attained (pfx : String) (existing : List String) :
    maxSuffix pfx existing = 0 ∨
      ∃ id ∈ existing, suffixNum pfx id = some (maxSuffix pfx existing) := by
  unfold maxSuffix
  suffices h : ∀ (l : List String) (a : Nat),
      l.foldl (fun m i => match suffixNum pfx i with
        | some k => if m < k then k else m | none => m) a = a ∨
      ∃ id ∈ l, suffixNum pfx id = some (l.foldl (fun m i => match suffixNum pfx i with
        | some k => if m < k then k else m | none => m) a) by
    rcases h existing 0 with h0 | h0
    · exact Or.inl h0
    · exact Or.inr h0
  intro l
  induction l with
  | nil => intro a; simp
  | cons x xs ih =>
      intro a
      simp only [List.foldl_cons]
      cases hs : suffixNum pfx x with
      | none =>
          rcases ih a with h0 | ⟨id, hid, hval⟩
          · exact Or.inl h0
          · exact Or.inr ⟨id, List.mem_cons_of_mem _ hid, hval⟩
      | some k =>
          rcases ih (if a < k then k else a) with h0 | ⟨id, hid, hval⟩
          · by_cases hm : a < k
            · refine Or.inr ⟨x, List.mem_cons_self _ _, ?_⟩
              rw [h0, if_pos hm, hs]
            · refine Or.inl ?_
              rw [h0, if_neg hm]
          · exact Or.inr ⟨id, List.mem_cons_of_mem _ hid, hval⟩

theorem generateId_not_mem (pfx : String) (existing : List String) :
    generateId pfx existing ∉ existing := by
  unfold generateId
  by_cases hmem : pfx ∈ existing
  · simp only [if_pos hmem]
    intro hcon
    have hsuf : suffixNum pfx (pfx ++ "-" ++ String.mk (natDigits (maxSuffix pfx existing + 1)))
        = some (maxSuffix pfx existing + 1) := by
      rw [suffixNum_eq_some_iff]
      refine ⟨natDigits (maxSuffix pfx existing + 1), ?_, ?_, ?_, ?_⟩
      · simp [String.data_append, String.mk]
      · exact (natDigitsAux_spec (Nat.lt_succ_self _)).1
      · exact (natDigitsAux_spec (Nat.lt_succ_self _)).2.1
      · exact digitsVal_natDigits _
    have := le_maxSuffix hcon hsuf
    omega
  · simp only [if_neg hmem]
    exact hmem

/-- C2: for every prefix `p` and existing-ID list `S`, `generateId p S`
returns `p` itself when `p` is not in `S`; otherwise it returns `p-N`
where every numeric suffix among members of `S` matching `^p-(\d+)$` is
below `N` and `N - 1` is either zero (no match) or attained by a member
(so `N` is one greater than the maximum; non-numeric suffixes never
count); the result is never a member of `S`; and the function is
deterministic (definitional for a pure function, stated for record). -/
theorem generateId_contract (p : String) (S : List String) :
    (p ∉ S → generateId p S = p) ∧
    (p ∈ S →
      ∃ N : Nat,
        generateId p S = p ++ "-" ++ String.mk (natDigits N) ∧
        HasNumericSuffix p (generateId p S) N ∧
        (∀ id ∈ S, ∀ n, HasNumericSuffix p id n → n < N) ∧
        (N = 1 ∨ ∃ id ∈ S, HasNumericSuffix p id (N - 1))) ∧
    generateId p S ∉ S ∧
    generateId p S = generateId p S := by
  refine ⟨?_, ?_, generateId_not_mem p S, rfl⟩
  · intro hmem; simp [generateId, hmem]
  · intro hmem
    refine ⟨maxSuffix p S + 1, by simp [generateId, hmem], ?_, ?_, ?_⟩
    · simp only [generateId, if_pos hmem]
      exact ⟨natDigits (maxSuffix p S + 1),
        by simp [String.data_append, String.mk],
        (natDigitsAux_spec (Nat.lt_succ_self _)).1,
        (natDigitsAux_spec (Nat.lt_succ_self _)).2.1,
        digitsVal_natDigits _⟩
    · intro id hid n hn
      have := le_maxSuffix hid (suffixNum_eq_some_iff.mpr hn)
      omega
    · rcases maxSuffix_attained p S with h0 | ⟨id, hid, hval⟩
      · exact Or.inl (by omega)
      · exact Or.inr ⟨id, hid, by
          simpa using suffixNum_eq_some_iff.mp hval⟩

/-- Witness for C2 at a concrete input: with `S = [p, p-2, p-extra]` the
collision branch applies and produces an ID outside `S`. -/
theorem generateId_contract_witness :
    ∃ N : Nat,
      generateId "field" ["field", "field-2", "field-extra"] =
        "field" ++ "-" ++ String.mk (natDigits N) ∧
      HasNumericSuffix "field" (generateId "field" ["field", "field-2", "field-extra"]) N ∧
      (∀ id ∈ ["field", "field-2", "field-extra"], ∀ n,
        HasNumericSuffix "field" id n → n < N) ∧
      (N = 1 ∨ ∃ id ∈ ["field", "field-2", "field-extra"],
        HasNumericSuffix "field" id (N - 1)) :=
  (generateId_contract "field" ["field", "field-2", "field-extra"]).2.1 (by decide)

/-! ## Data model (types.ts)

Field types, display formats and operator names are closed TypeScript
string unions; operators, logic modes and effects are modelled as
inductives, field types and formats stay strings (the registry admits
custom keys).  The adapter passthrough attributes `_sourceData` and
`_conversionWarnings` carry opaque payloads and are outside the model. -/

/-- A selected option in a response (`SelectedOption`). -/
structure SelectedOption where
  id : String
  value : String
deriving DecidableEq

/-- One matrix-cell selection: a single option or a list of options. -/
inductive MatrixCell where
  | one (o : SelectedOption)
  | many (os : List SelectedOption)
deriving DecidableEq

/-- Runtime value of `response.answer`.  The declared type is `string`,
but the emptiness check explicitly handles boolean and numeric answers,
so the model carries all three. -/
inductive AnswerVal where
  | str (s : String)
  | num (q : Rat)
  | bool (b : Bool)
deriving DecidableEq

/-- Runtime value of `response.selected`: a single option, an option
array, or a matrix record keyed by row ID. -/
inductive SelectedVal where
  | single (o : SelectedOption)
  | multi (os : List SelectedOption)
  | matrix (m : List (String × MatrixCell))
deriving DecidableEq

/-- Translation of `FieldResponse`. -/
structure FieldResponse where
  answer : Option AnswerVal := none
  selected : Option SelectedVal := none
  multitextAnswers : Option (List (String × String)) := none
  signatureData : Option String := none
  signatureImage : Option String := none
  markupData : Option String := none
  markupImage : Option String := none
deriving DecidableEq

/-- Translation of `ConditionOperator`. -/
inductive CondOperator where
  | equals | notEquals | contains | includes | empty | notEmpty
  | greaterThan | greaterThanOrEqual | lessThan | lessThanOrEqual
deriving DecidableEq

/-- Translation of `LogicMode` (`AND` / `OR`). -/
inductive LogicMode where
  | and | or
deriving DecidableEq

/-- Translation of `ConditionalEffect`. -/
inductive CondEffect where
  | visible | enable | required
deriving DecidableEq

/-- Translation of `Condition`. -/
structure Condition where
  targetId : String
  operator : CondOperator
  expected : String
  propertyAccessor : Option String := none
deriving DecidableEq

/-- Translation of `ConditionalRule`. -/
structure ConditionalRule where
  effect : CondEffect
  logic : LogicMode
  conditions : List Condition
deriving DecidableEq

/-- Translation of `FieldOption`. -/
structure FieldOption where
  id : String
  value : String
  text : Option String := none
deriving DecidableEq

/-- Translation of `MatrixRow`. -/
structure MatrixRow where
  id : String
  value : String
deriving DecidableEq

/-- Translation of `MatrixColumn`. -/
structure MatrixColumn where
  id : String
  value : String
deriving DecidableEq

/-- A field definition without the nested `fields` attribute - the shape
stored in the normalized index (`Omit<FieldDefinition, 'fields'>`). -/
structure FieldDefCore where
  id : String
  fieldType : String
  question : Option String := none
  required : Option Bool := none
  rules : Option (List ConditionalRule) := none
  inputType : Option String := none
  unit : Option String := none
  options : Option (List FieldOption) := none
  rows : Option (List MatrixRow) := none
  columns : Option (List MatrixColumn) := none
  htmlContent : Option String := none
  imageUri : Option String := none
  expression : Option String := none
  displayFormat : Option String := none
  decimalPlaces : Option Rat := none
  title : Option String := none
deriving DecidableEq

/-- Translation of `FieldDefinition`: the core attributes plus the
optional nested `fields` array (present only on authored trees). -/
inductive FieldDef where
  | mk (core : FieldDefCore) (fields : Option (List FieldDef))

/-- The core attributes of a field definition tree node. -/
def FieldDef.core : FieldDef → FieldDefCore
  | .mk c _ => c

/-- The nested `fields` attribute of a tree node. -/
def FieldDef.children : FieldDef → Option (List FieldDef)
  | .mk _ f => f

/-- The ID of a tree node. -/
def FieldDef.defId (t : FieldDef) : String := t.core.id

/-- A response map (`FormResponse`), keyed by field ID. -/
abbrev FormResponse : Type := Obj FieldResponse

/-! ## Normalization (functions/normalize.ts) -/

/-- Translation of `FieldNode`. -/
structure FieldNode where
  definition : FieldDefCore
  parentId : Option String
  childIds : List String
  index : Nat
deriving DecidableEq

/-- Translation of `NormalizedDefinition`. -/
structure NormalizedDefinition where
  byId : Obj FieldNode
  rootIds : List String
deriving DecidableEq

mutual

/-- The per-node body of the `walk` loop in `normalizeDefinition`:
children are flattened into the accumulator first (only when the node
is a section with a present `fields` array), then the node itself is
recorded with its parent and sibling position. -/
def normTree : Obj FieldNode → FieldDef → Option String → Nat → Obj FieldNode
  | byId, .mk core fs, parentId, i =>
      let stepChildren : Obj FieldNode × List String :=
        if core.fieldType = "section" then
          match fs with
          | some cs => normWalkF byId cs (some core.id) 0
          | none => (byId, [])
        else (byId, [])
      stepChildren.1.set core.id ⟨core, parentId, stepChildren.2, i⟩

/-- The `walk` loop of `normalizeDefinition` over a sibling array:
threads the accumulator through each element in order and returns the
IDs recorded at this level. -/
def normWalkF :
    Obj FieldNode → List FieldDef → Option String → Nat → Obj FieldNode × List String
  | byId, [], _, _ => (byId, [])
  | byId, t :: rest, parentId, i =>
      let byId2 := normTree byId t parentId i
      let stepRest := normWalkF byId2 rest parentId (i + 1)
      (stepRest.1, t.defId :: stepRest.2)

end

/-- Translation of `normalizeDefinition`. -/
def normalizeDefinition (fields : List FieldDef) : NormalizedDefinition :=
  let step := normWalkF [] fields none 0
  ⟨step.1, step.2⟩

/-- The recursive `build` of `hydrateDefinition`, with explicit fuel (the
source recursion is bounded by tree depth; any fuel above the node count
of a well-formed index is enough).  A dangling ID degrades to a minimal
text leaf. -/
def buildFuel : Nat → Obj FieldNode → List String → List FieldDef
  | 0, _, _ => []
  | f + 1, byId, ids =>
      ids.map fun id =>
        match byId.get id with
        | none => FieldDef.mk { id := id, fieldType := "text" } none
        | some node =>
            if node.childIds.length > 0 then
              FieldDef.mk node.definition (some (buildFuel f byId node.childIds))
            else
              FieldDef.mk node.definition none

/-- Translation of `hydrateDefinition`. -/
def hydrateDefinition (nd : NormalizedDefinition) : List FieldDef :=
  buildFuel (nd.byId.length + 1) nd.byId nd.rootIds

/-! ## Tree-level companions of the walk (for the round-trip proof)

These recompute, by structural recursion on the authored tree, exactly
what the accumulator-passing walk produces: the IDs visited, the number
of entries written, and the entry list itself.  They follow the same
guard as the walk (children are visited only under a section node with a
present `fields` array). -/

mutual

/-- The IDs the walk records for one tree, children first. -/
def treeIds : FieldDef → List String
  | .mk core fs =>
      (if core.fieldType = "section" then
        match fs with
        | some cs => treeIdsF cs
        | none => []
      else []) ++ [core.id]

/-- The IDs the walk records for a forest. -/
def treeIdsF : List FieldDef → List String
  | [] => []
  | t :: ts => treeIds t ++ treeIdsF ts

end

mutual

/-- Number of index entries contributed by one tree. -/
def nodeCount : FieldDef → Nat
  | .mk core fs =>
      1 + (if core.fieldType = "section" then
        match fs with
        | some cs => nodeCountF cs
        | none => 0
      else 0)

/-- Number of index entries contributed by a forest. -/
def nodeCountF : List FieldDef → Nat
  | [] => 0
  | t :: ts => nodeCount t + nodeCountF ts

end

mutual

/-- The index entries the walk writes for one tree (children first,
then the node itself), given the parent ID and sibling position. -/
def entriesOf : FieldDef → Option String → Nat → Obj FieldNode
  | .mk core fs, parentId, i =>
      (if core.fieldType = "section" then
        match fs with
        | some cs => entriesOfF cs (some core.id) 0
        | none => []
      else []) ++
      [(core.id,
        ⟨core, parentId,
          (if core.fieldType = "section" then
            match fs with
            | some cs => cs.map FieldDef.defId
            | none => []
          else []), i⟩)]

/-- The index entries the walk writes for a forest. -/
def entriesOfF : List FieldDef → Option String → Nat → Obj FieldNode
  | [], _, _ => []
  | t :: ts, parentId, i => entriesOf t parentId i ++ entriesOfF ts parentId (i + 1)

end

mutual

/-- Executable well-formedness of one authored tree node: a non-section
node carries no `fields` attribute, and a section node either omits
`fields` or carries a non-empty list of well-formed children. -/
def wfTree : FieldDef → Bool
  | .mk core fs =>
      if core.fieldType = "section" then
        match fs with
        | some cs => !cs.isEmpty && wfForest cs
        | none => true
      else fs.isNone

/-- Executable well-formedness of a forest of authored trees. -/
def wfForest : List FieldDef → Bool
  | [] => true
  | t :: ts => wfTree t && wfForest ts

end

/-- A well-formed Field Definition tree: every node satisfies the
container/leaf discipline and field IDs are globally unique. -/
def WellFormed (fields : List FieldDef) : Prop :=
  wfForest fields = true ∧ (treeIdsF fields).Nodup

/-! ## Association-list lemmas -/

theorem Obj.mem_keys_of_mem {α} {o : Obj α} {k : String} {v : α}
    (h : (k, v) ∈ o) : k ∈ Obj.keys o :=
  List.mem_map.mpr ⟨(k, v), h, rfl⟩

theorem Obj.keys_append {α} (o1 o2 : Obj α) :
    Obj.keys (o1 ++ o2) = Obj.keys o1 ++ Obj.keys o2 :=
  List.map_append _ _ _

theorem Obj.get_append {α} (o1 o2 : Obj α) (k : String) :
    Obj.get (o1 ++ o2) k =
      match Obj.get o1 k with
      | some v => some v
      | none => Obj.get o2 k := by
  induction o1 with
  | nil => simp [Obj.get]
  | cons e rest ih =>
      by_cases he : e.1 = k
      · simp [Obj.get, List.find?, he]
      · simp only [List.cons_append]
        simp only [Obj.get, List.find?] at ih ⊢
        have : (e.1 == k) = false := by simp [he]
        rw [this]
        simpa using ih

theorem Obj.get_eq_none_of_not_mem {α} {o : Obj α} {k : String}
    (h : k ∉ Obj.keys o) : Obj.get o k = none := by
  induction o with
  | nil => rfl
  | cons e rest ih =>
      simp only [Obj.keys, List.map_cons, List.mem_cons, not_or] at h
      simp only [Obj.get, List.find?]
      have : (e.1 == k) = false := by simp; exact fun hc => h.1 hc.symm
      rw [this]
      exact ih (by simpa [Obj.keys] using h.2)

theorem Obj.set_eq_append {α} (o : Obj α) (k : String) (v : α)
    (h : k ∉ Obj.keys o) : Obj.set o k v = o ++ [(k, v)] := by
  induction o with
  | nil => rfl
  | cons e rest ih =>
      simp only [Obj.keys, List.map_cons, List.mem_cons, not_or] at h
      simp only [Obj.set]
      rw [if_neg (fun hc => h.1 hc.symm)]
      simp only [List.cons_append, List.cons.injEq, true_and]
      exact ih (by simpa [Obj.keys] using h.2)

theorem Obj.get_of_mem_nodup {α} {o : Obj α} {k : String} {v : α}
    (hnd : (Obj.keys o).Nodup) (hm : (k, v) ∈ o) : Obj.get o k = some v := by
  induction o with
  | nil => simp at hm
  | cons e rest ih =>
      simp only [Obj.keys, List.map_cons, List.nodup_cons] at hnd
      rcases List.mem_cons.mp hm with rfl | hm'
      · simp [Obj.get, List.find?]
      · have hne : e.1 ≠ k := fun hc => by
          subst hc
          exact hnd.1 (Obj.mem_keys_of_mem hm')
        simp only [Obj.get, List.find?]
        have : (e.1 == k) = false := by simp [hne]
        rw [this]
        exact ih hnd.2 hm'

/-! ## Walk and entries correspondence -/

theorem nodeCount_mk (core : FieldDefCore) (fs : Option (List FieldDef)) :
    nodeCount (.mk core fs) =
      1 + (if core.fieldType = "section" then
        match fs with
        | some cs => nodeCountF cs
        | none => 0
      else 0) := by
  rw [nodeCount.eq_def]

theorem nodeCountF_nil : nodeCountF [] = 0 := by
  rw [nodeCountF.eq_def]

theorem nodeCountF_cons (t : FieldDef) (ts : List FieldDef) :
    nodeCountF (t :: ts) = nodeCount t + nodeCountF ts := by
  rw [nodeCountF.eq_def]

theorem treeIds_mk (core : FieldDefCore) (fs : Option (List FieldDef)) :
    treeIds (.mk core fs) =
      (if core.fieldType = "section" then
        match fs with
        | some cs => treeIdsF cs
        | none => []
      else []) ++ [core.id] := by
  rw [treeIds.eq_def]

theorem treeIdsF_nil : treeIdsF [] = [] := by
  rw [treeIdsF.eq_def]

theorem treeIdsF_cons (t : FieldDef) (ts : List FieldDef) :
    treeIdsF (t :: ts) = treeIds t ++ treeIdsF ts := by
  rw [treeIdsF.eq_def]

theorem entriesOf_mk (core : FieldDefCore) (fs : Option (List FieldDef))
    (parentId : Option String) (i : Nat) :
    entriesOf (.mk core fs) parentId i =
      (if core.fieldType = "section" then
        match fs with
        | some cs => entriesOfF cs (some core.id) 0
        | none => []
      else []) ++
      [(core.id,
        ⟨core, parentId,
          (if core.fieldType = "section" then
            match fs with
            | some cs => cs.map FieldDef.defId
            | none => []
          else []), i⟩)] := by
  rw [entriesOf.eq_def]

theorem entriesOfF_nil (parentId : Option String) (i : Nat) :
    entriesOfF [] parentId i = [] := by
  rw [entriesOfF.eq_def]

theorem entriesOfF_cons (t : FieldDef) (ts : List FieldDef)
    (parentId : Option String) (i : Nat) :
    entriesOfF (t :: ts) parentId i =
      entriesOf t parentId i ++ entriesOfF ts parentId (i + 1) := by
  rw [entriesOfF.eq_def]

theorem wfTree_mk (core : FieldDefCore) (fs : Option (List FieldDef)) :
    wfTree (.mk core fs) =
      (if core.fieldType = "section" then
        match fs with
        | some cs => !cs.isEmpty && wfForest cs
        | none => true
      else fs.isNone) := by
  rw [wfTree.eq_def]

theorem wfForest_nil : wfForest [] = true := by
  rw [wfForest.eq_def]

theorem wfForest_cons (t : FieldDef) (ts : List FieldDef) :
    wfForest (t :: ts) = (wfTree t && wfForest ts) := by
  rw [wfForest.eq_def]

theorem nodeCount_pos (t : FieldDef) : 1 ≤ nodeCount t := by
  cases t with
  | mk core fs =>
      rw [nodeCount_mk]
      exact Nat.le_add_right 1 _

theorem keys_entriesOfF (n : Nat) :
    ∀ (l : List FieldDef), nodeCountF l ≤ n → ∀ (p : Option String) (i : Nat),
      Obj.keys (entriesOfF l p i) = treeIdsF l := by
  induction n with
  | zero =>
      intro l hc p i
      cases l with
      | nil => rw [entriesOfF_nil, treeIdsF_nil]; rfl
      | cons t ts =>
          exfalso
          have h1 := nodeCount_pos t
          have h2 := nodeCountF_cons t ts
          omega
  | succ n ih =>
      intro l hc p i
      cases l with
      | nil => rw [entriesOfF_nil, treeIdsF_nil]; rfl
      | cons t ts =>
          cases t with
          | mk core fs =>
              have hcount := nodeCountF_cons (FieldDef.mk core fs) ts
              rw [nodeCount_mk] at hcount
              rw [entriesOfF_cons, entriesOf_mk, treeIdsF_cons, treeIds_mk,
                Obj.keys_append, Obj.keys_append]
              by_cases hsec : core.fieldType = "section"
              · cases fs with
                | some cs =>
                    simp only [if_pos hsec] at hcount ⊢
                    have h1 : nodeCountF cs ≤ n := by omega
                    have h2 : nodeCountF ts ≤ n := by omega
                    rw [ih cs h1, ih ts h2]
                    rfl
                | none =>
                    simp only [if_pos hsec] at hcount ⊢
                    have h2 : nodeCountF ts ≤ n := by omega
                    rw [ih ts h2]
                    rfl
              · simp only [if_neg hsec] at hcount ⊢
                have h2 : nodeCountF ts ≤ n := by omega
                rw [ih ts h2]
                rfl

theorem normTree_mk (byId : Obj FieldNode) (core : FieldDefCore)
    (fs : Option (List FieldDef)) (parentId : Option String) (i : Nat) :
    normTree byId (.mk core fs) parentId i =
      (if core.fieldType = "section" then
        match fs with
        | some cs => normWalkF byId cs (some core.id) 0
        | none => (byId, [])
      else (byId, [])).1.set core.id
        ⟨core, parentId,
          (if core.fieldType = "section" then
            match fs with
            | some cs => normWalkF byId cs (some core.id) 0
            | none => (byId, [])
          else (byId, [])).2, i⟩ := by
  rw [normTree.eq_def]

theorem normWalkF_nil (byId : Obj FieldNode) (parentId : Option String) (i : Nat) :
    normWalkF byId [] parentId i = (byId, []) := by
  rw [normWalkF.eq_def]

theorem normWalkF_cons (byId : Obj FieldNode) (t : FieldDef) (rest : List FieldDef)
    (parentId : Option String) (i : Nat) :
    normWalkF byId (t :: rest) parentId i =
      ((normWalkF (normTree byId t parentId i) rest parentId (i + 1)).1,
        t.defId :: (normWalkF (normTree byId t parentId i) rest parentId (i + 1)).2) := by
  rw [normWalkF.eq_def]

theorem keys_entriesOfF_any (l : List FieldDef) (p : Option String) (i : Nat) :
    Obj.keys (entriesOfF l p i) = treeIdsF l :=
  keys_entriesOfF (nodeCountF l) l le_rfl p i

theorem keys_entriesOf_any (t : FieldDef) (p : Option String) (i : Nat) :
    Obj.keys (entriesOf t p i) = treeIds t := by
  have h := keys_entriesOfF_any [t] p i
  rw [entriesOfF_cons, entriesOfF_nil, treeIdsF_cons, treeIdsF_nil,
    List.append_nil, List.append_nil] at h
  exact h

/-- The accumulator walk writes exactly the structurally computed
entries, in order, and returns the IDs of the level, provided the IDs of
the subtree are fresh for the accumulator and globally distinct. -/
theorem normWalk_eq (n : Nat) :
    (∀ (t : FieldDef), nodeCount t ≤ n → ∀ (byId : Obj FieldNode) (parent : Option String) (i : Nat),
      (∀ k ∈ treeIds t, k ∉ Obj.keys byId) → (treeIds t).Nodup →
      normTree byId t parent i = byId ++ entriesOf t parent i) ∧
    (∀ (l : List FieldDef), nodeCountF l ≤ n → ∀ (byId : Obj FieldNode) (parent : Option String) (i : Nat),
      (∀ k ∈ treeIdsF l, k ∉ Obj.keys byId) → (treeIdsF l).Nodup →
      normWalkF byId l parent i = (byId ++ entriesOfF l parent i, l.map FieldDef.defId)) := by
  induction n with
  | zero =>
      constructor
      · intro t hc
        exfalso
        have := nodeCount_pos t
        omega
      · intro l hc byId parent i _ _
        cases l with
        | nil => rw [normWalkF_nil, entriesOfF_nil, List.append_nil]; rfl
        | cons t ts =>
            exfalso
            have h1 := nodeCount_pos t
            have h2 := nodeCountF_cons t ts
            omega
  | succ n ih =>
      have hA : ∀ (t : FieldDef), nodeCount t ≤ n + 1 →
          ∀ (byId : Obj FieldNode) (parent : Option String) (i : Nat),
          (∀ k ∈ treeIds t, k ∉ Obj.keys byId) → (treeIds t).Nodup →
          normTree byId t parent i = byId ++ entriesOf t parent i := by
        intro t hc byId parent i hdisj hnd
        cases t with
        | mk core fs =>
            rw [nodeCount_mk] at hc
            rw [normTree_mk, entriesOf_mk]
            rw [treeIds_mk] at hdisj hnd
            by_cases hsec : core.fieldType = "section"
            · cases fs with
              | some cs =>
                  simp only [if_pos hsec] at hc hdisj hnd ⊢
                  have hcs : nodeCountF cs ≤ n := by omega
                  have hstep := ih.2 cs hcs byId (some core.id) 0
                    (fun k hk => hdisj k (List.mem_append_left _ hk))
                    (List.Nodup.of_append_left hnd)
                  rw [hstep]
                  have hfresh : core.id ∉ Obj.keys (byId ++ entriesOfF cs (some core.id) 0) := by
                    rw [Obj.keys_append, keys_entriesOfF_any]
                    intro hmem
                    rcases List.mem_append.mp hmem with hm | hm
                    · exact hdisj core.id (List.mem_append_right _ (List.mem_singleton_self _)) hm
                    · have := (List.nodup_append.mp hnd).2.2
                      exact this hm (List.mem_singleton_self _)
                  rw [Obj.set_eq_append _ _ _ hfresh, List.append_assoc]
              | none =>
                  simp only [if_pos hsec] at hc hdisj hnd ⊢
                  have hfresh : core.id ∉ Obj.keys byId := by
                    apply hdisj
                    simp
                  rw [Obj.set_eq_append _ _ _ hfresh]
                  simp
            · simp only [if_neg hsec] at hc hdisj hnd ⊢
              have hfresh : core.id ∉ Obj.keys byId := by
                apply hdisj
                simp
              rw [Obj.set_eq_append _ _ _ hfresh]
              simp
      refine ⟨hA, ?_⟩
      intro l hc byId parent i hdisj hnd
      cases l with
      | nil => rw [normWalkF_nil, entriesOfF_nil, List.append_nil]; rfl
      | cons t ts =>
          rw [nodeCountF_cons] at hc
          rw [treeIdsF_cons] at hdisj hnd
          have hct : nodeCount t ≤ n + 1 := by
            have := nodeCount_pos t
            omega
          have hcts : nodeCountF ts ≤ n := by
            have := nodeCount_pos t
            omega
          have hhead := hA t hct byId parent i
            (fun k hk => hdisj k (List.mem_append_left _ hk))
            (List.Nodup.of_append_left hnd)
          have htail := ih.2 ts hcts (byId ++ entriesOf t parent i) parent (i + 1)
            (by
              intro k hk
              rw [Obj.keys_append, keys_entriesOf_any]
              intro hmem
              rcases List.mem_append.mp hmem with hm | hm
              · exact hdisj k (List.mem_append_right _ hk) hm
              · exact (List.nodup_append.mp hnd).2.2 hm hk)
            (List.Nodup.of_append_right hnd)
          rw [normWalkF_cons, hhead, htail, entriesOfF_cons]
          simp [List.append_assoc]

mutual

/-- The index facts hydration needs about one authored tree: its node is
found under its ID with the original core attributes and the child IDs
the walk records, and recursively so for guarded children. -/
def LookupsOK (byId : Obj FieldNode) : FieldDef → Prop
  | .mk core fs =>
      (∃ node : FieldNode, Obj.get byId core.id = some node ∧
        node.definition = core ∧
        node.childIds = (if core.fieldType = "section" then
          match fs with
          | some cs => cs.map FieldDef.defId
          | none => []
        else [])) ∧
      (if core.fieldType = "section" then
        match fs with
        | some cs => LookupsOKF byId cs
        | none => True
      else True)

/-- Index facts for a forest of authored trees. -/
def LookupsOKF (byId : Obj FieldNode) : List FieldDef → Prop
  | [] => True
  | t :: ts => LookupsOK byId t ∧ LookupsOKF byId ts

end

theorem LookupsOK_mk (byId : Obj FieldNode) (core : FieldDefCore)
    (fs : Option (List FieldDef)) :
    LookupsOK byId (.mk core fs) =
      ((∃ node : FieldNode, Obj.get byId core.id = some node ∧
        node.definition = core ∧
        node.childIds = (if core.fieldType = "section" then
          match fs with
          | some cs => cs.map FieldDef.defId
          | none => []
        else [])) ∧
      (if core.fieldType = "section" then
        match fs with
        | some cs => LookupsOKF byId cs
        | none => True
      else True)) := by
  rw [LookupsOK.eq_def]

theorem LookupsOKF_nil (byId : Obj FieldNode) : LookupsOKF byId [] = True := by
  rw [LookupsOKF.eq_def]

theorem LookupsOKF_cons (byId : Obj FieldNode) (t : FieldDef) (ts : List FieldDef) :
    LookupsOKF byId (t :: ts) = (LookupsOK byId t ∧ LookupsOKF byId ts) := by
  rw [LookupsOKF.eq_def]

/-- Any index in which every structurally computed entry can be looked
up verbatim satisfies the lookup facts for the forest. -/
theorem lookups_of_entries (n : Nat) :
    (∀ (t : FieldDef), nodeCount t ≤ n → ∀ (byId : Obj FieldNode) (p : Option String) (i : Nat),
      (∀ k v, (k, v) ∈ entriesOf t p i → Obj.get byId k = some v) →
      LookupsOK byId t) ∧
    (∀ (l : List FieldDef), nodeCountF l ≤ n → ∀ (byId : Obj FieldNode) (p : Option String) (i : Nat),
      (∀ k v, (k, v) ∈ entriesOfF l p i → Obj.get byId k = some v) →
      LookupsOKF byId l) := by
  induction n with
  | zero =>
      constructor
      · intro t hc
        exfalso
        have := nodeCount_pos t
        omega
      · intro l hc byId p i _
        cases l with
        | nil => rw [LookupsOKF_nil]; trivial
        | cons t ts =>
            exfalso
            have h1 := nodeCount_pos t
            have h2 := nodeCountF_cons t ts
            omega
  | succ n ih =>
      have hA : ∀ (t : FieldDef), nodeCount t ≤ n + 1 →
          ∀ (byId : Obj FieldNode) (p : Option String) (i : Nat),
          (∀ k v, (k, v) ∈ entriesOf t p i → Obj.get byId k = some v) →
          LookupsOK byId t := by
        intro t hc byId p i hget
        cases t with
        | mk core fs =>
            rw [nodeCount_mk] at hc
            rw [LookupsOK_mk]
            by_cases hsec : core.fieldType = "section"
            · cases fs with
              | some cs =>
                  simp only [if_pos hsec] at hc ⊢
                  constructor
                  · refine ⟨⟨core, p, cs.map FieldDef.defId, i⟩, ?_, rfl, rfl⟩
                    apply hget
                    rw [entriesOf_mk]
                    simp only [if_pos hsec]
                    exact List.mem_append_right _ (List.mem_singleton_self _)
                  · refine ih.2 cs (by omega) byId (some core.id) 0 ?_
                    intro k v hkv
                    apply hget
                    rw [entriesOf_mk]
                    apply List.mem_append_left
                    simp only [if_pos hsec]
                    exact hkv
              | none =>
                  simp only [if_pos hsec] at hc ⊢
                  refine ⟨⟨⟨core, p, [], i⟩, ?_, rfl, rfl⟩, trivial⟩
                  apply hget
                  rw [entriesOf_mk]
                  simp only [if_pos hsec]
                  exact List.mem_append_right _ (List.mem_singleton_self _)
            · simp only [if_neg hsec] at hc ⊢
              refine ⟨⟨⟨core, p, [], i⟩, ?_, rfl, rfl⟩, trivial⟩
              apply hget
              rw [entriesOf_mk]
              simp only [if_neg hsec]
              exact List.mem_append_right _ (List.mem_singleton_self _)
      refine ⟨hA, ?_⟩
      intro l hc byId p i hget
      cases l with
      | nil => rw [LookupsOKF_nil]; trivial
      | cons t ts =>
          rw [nodeCountF_cons] at hc
          rw [LookupsOKF_cons]
          have hpos := nodeCount_pos t
          constructor
          · refine hA t (by omega) byId p i ?_
            intro k v hkv
            apply hget
            rw [entriesOfF_cons]
            exact List.mem_append_left _ hkv
          · refine ih.2 ts (by omega) byId p (i + 1) ?_
            intro k v hkv
            apply hget
            rw [entriesOfF_cons]
            exact List.mem_append_right _ hkv

/-- Hydration rebuilds a well-formed forest exactly, given enough fuel
and an index satisfying the lookup facts. -/
theorem buildFuel_cons (f : Nat) (byId : Obj FieldNode) (id : String) (ids : List String) :
    buildFuel (f + 1) byId (id :: ids) =
      (match byId.get id with
       | none => FieldDef.mk { id := id, fieldType := "text" } none
       | some node =>
           if node.childIds.length > 0 then
             FieldDef.mk node.definition (some (buildFuel f byId node.childIds))
           else FieldDef.mk node.definition none) :: buildFuel (f + 1) byId ids := by
  simp [buildFuel]

theorem build_eq (n : Nat) :
    ∀ (l : List FieldDef), nodeCountF l ≤ n →
      ∀ (byId : Obj FieldNode) (f : Nat), nodeCountF l < f →
        wfForest l = true → LookupsOKF byId l →
        buildFuel f byId (l.map FieldDef.defId) = l := by
  induction n with
  | zero =>
      intro l hc byId f hf hwf hlk
      cases l with
      | nil => cases f <;> simp [buildFuel]
      | cons t ts =>
          exfalso
          have h1 := nodeCount_pos t
          have h2 := nodeCountF_cons t ts
          omega
  | succ n ih =>
      intro l hc byId f hf hwf hlk
      cases l with
      | nil => cases f <;> simp [buildFuel]
      | cons t ts =>
          rw [nodeCountF_cons] at hc hf
          rw [wfForest_cons, Bool.and_eq_true] at hwf
          rw [LookupsOKF_cons] at hlk
          have hpos := nodeCount_pos t
          cases f with
          | zero => omega
          | succ f =>
              cases t with
              | mk core fs =>
                  rw [nodeCount_mk] at hc hf hpos
                  rw [LookupsOK_mk] at hlk
                  obtain ⟨⟨node, hget, hdef, hchild⟩, hlkch⟩ := hlk.1
                  have htail : buildFuel (f + 1) byId (ts.map FieldDef.defId) = ts :=
                    ih ts (by omega) byId (f + 1) (by omega) hwf.2 hlk.2
                  simp only [List.map_cons]
                  rw [buildFuel_cons, htail,
                    show (FieldDef.mk core fs).defId = core.id from rfl, hget]
                  simp only [List.cons.injEq, and_true]
                  have hwft := hwf.1
                  rw [wfTree_mk] at hwft
                  by_cases hsec : core.fieldType = "section"
                  · cases fs with
                    | some cs =>
                        simp only [if_pos hsec] at hchild hlkch hwft hc hf
                        rw [Bool.and_eq_true] at hwft
                        have hcsne : cs ≠ [] := by
                          intro hnil
                          rw [hnil] at hwft
                          simp at hwft
                        have hlen : node.childIds.length > 0 := by
                          rw [hchild]
                          simp only [List.length_map]
                          exact List.length_pos.mpr hcsne
                        rw [if_pos hlen, hchild, hdef]
                        have := ih cs (by omega) byId f (by omega) hwft.2 hlkch
                        rw [this]
                    | none =>
                        simp only [if_pos hsec] at hchild
                        rw [hchild]
                        simp only [List.length_nil, gt_iff_lt, lt_self_iff_false, if_false]
                        rw [hdef]
                  · simp only [if_neg hsec] at hchild hwft
                    have hfs : fs = none := Option.isNone_iff_eq_none.mp hwft
                    rw [hchild]
                    simp only [List.length_nil, gt_iff_lt, lt_self_iff_false, if_false]
                    rw [hdef, hfs]

/-- The walk records exactly one ID per counted node. -/
theorem length_treeIds_joint (n : Nat) :
    (∀ (t : FieldDef), nodeCount t ≤ n → (treeIds t).length = nodeCount t) ∧
    (∀ (l : List FieldDef), nodeCountF l ≤ n → (treeIdsF l).length = nodeCountF l) := by
  induction n with
  | zero =>
      constructor
      · intro t hc
        exfalso
        have := nodeCount_pos t
        omega
      · intro l hc
        cases l with
        | nil => rw [treeIdsF_nil, nodeCountF_nil]; rfl
        | cons t ts =>
            exfalso
            have h1 := nodeCount_pos t
            have h2 := nodeCountF_cons t ts
            omega
  | succ n ih =>
      have hA : ∀ (t : FieldDef), nodeCount t ≤ n + 1 → (treeIds t).length = nodeCount t := by
        intro t hc
        cases t with
        | mk core fs =>
            rw [nodeCount_mk] at hc ⊢
            rw [treeIds_mk, List.length_append]
            by_cases hsec : core.fieldType = "section"
            · cases fs with
              | some cs =>
                  simp only [if_pos hsec] at hc ⊢
                  rw [ih.2 cs (by omega)]
                  simp [Nat.add_comm]
              | none =>
                  simp only [if_pos hsec]
                  rfl
            · simp only [if_neg hsec]
              rfl
      refine ⟨hA, ?_⟩
      intro l hc
      cases l with
      | nil => rw [treeIdsF_nil, nodeCountF_nil]; rfl
      | cons t ts =>
          rw [nodeCountF_cons] at hc ⊢
          have hpos := nodeCount_pos t
          rw [treeIdsF_cons, List.length_append, hA t (by omega), ih.2 ts (by omega)]

/-- C1: hydrating the normalization of any well-formed Field Definition
tree yields the tree back - node IDs, attributes and child order
(including nested sections) are all preserved. -/
theorem hydrate_normalize_roundtrip (t : List FieldDef) (h : WellFormed t) :
    hydrateDefinition (normalizeDefinition t) = t := by
  obtain ⟨hwf, hnd⟩ := h
  have hwalk := (normWalk_eq (nodeCountF t)).2 t le_rfl [] none 0
    (by intro k _ hk; simp [Obj.keys] at hk) hnd
  have hbyId : (normalizeDefinition t).byId = entriesOfF t none 0 := by
    simp [normalizeDefinition, hwalk]
  have hroot : (normalizeDefinition t).rootIds = t.map FieldDef.defId := by
    simp [normalizeDefinition, hwalk]
  have hkeys : Obj.keys (entriesOfF t none 0) = treeIdsF t := keys_entriesOfF_any t none 0
  have hlk : LookupsOKF (entriesOfF t none 0) t := by
    refine (lookups_of_entries (nodeCountF t)).2 t le_rfl (entriesOfF t none 0) none 0 ?_
    intro k v hkv
    exact Obj.get_of_mem_nodup (by rw [hkeys]; exact hnd) hkv
  have hlen : (entriesOfF t none 0).length = nodeCountF t := by
    have h1 : (Obj.keys (entriesOfF t none 0)).length = (entriesOfF t none 0).length :=
      List.length_map _ _
    rw [hkeys, (length_treeIds_joint (nodeCountF t)).2 t le_rfl] at h1
    exact h1.symm
  show buildFuel ((normalizeDefinition t).byId.length + 1)
    (normalizeDefinition t).byId (normalizeDefinition t).rootIds = t
  rw [hbyId, hroot, hlen]
  exact build_eq (nodeCountF t) t le_rfl _ (nodeCountF t + 1) (by omega) hwf hlk

/-- Witness for C1: a concrete two-level tree (a text question followed
by a section holding two children) is well-formed and round-trips. -/
theorem hydrate_normalize_roundtrip_witness :
    hydrateDefinition (normalizeDefinition
      [FieldDef.mk { id := "q0", fieldType := "text" } none,
       FieldDef.mk { id := "s1", fieldType := "section" }
         (some [FieldDef.mk { id := "q1", fieldType := "text" } none,
                FieldDef.mk { id := "q2", fieldType := "radio" } none])]) =
      [FieldDef.mk { id := "q0", fieldType := "text" } none,
       FieldDef.mk { id := "s1", fieldType := "section" }
         (some [FieldDef.mk { id := "q1", fieldType := "text" } none,
                FieldDef.mk { id := "q2", fieldType := "radio" } none])] :=
  hydrate_normalize_roundtrip _ ⟨rfl, by
    rw [show treeIdsF
      [FieldDef.mk { id := "q0", fieldType := "text" } none,
       FieldDef.mk { id := "s1", fieldType := "section" }
         (some [FieldDef.mk { id := "q1", fieldType := "text" } none,
                FieldDef.mk { id := "q2", fieldType := "radio" } none])]
      = ["q0", "q1", "q2", "s1"] from rfl]
    decide⟩

/-! ## JavaScript number and string primitives used by the evaluator

`parseFloat` is modelled as a partial function into `Rat`: `none` stands
for `NaN`.  The model covers optional sign, decimal digits with an
optional fraction, and an optional exponent, parsed from the longest
valid prefix after leading whitespace - the `Infinity` literal and
non-decimal notations are outside the model. -/

/-- Whitespace accepted ahead of a number (and by `trim`). -/
def isWsChar (c : Char) : Bool :=
  c = ' ' ∨ c = '\t' ∨ c = '\n' ∨ c = '\r'

/-- Leading decimal digits of a character list. -/
def spanDigits (l : List Char) : List Char × List Char :=
  (l.takeWhile Char.isDigit, l.dropWhile Char.isDigit)

/-- Value of a digit run as a fraction in `[0, 1)` (the part after the
decimal point). -/
def fracVal (l : List Char) : Rat :=
  (digitsVal l : Rat) / (10 : Rat) ^ l.length

/-- Parse the exponent clause (an `e`, an optional sign, digits); gives the signed exponent
and the rest, or leaves the input untouched when no digits follow the
`e` (as `parseFloat` does). -/
def parseExponent (l : List Char) : Int :=
  match l with
  | 'e' :: r | 'E' :: r =>
      let signNeg := match r with | '-' :: _ => true | _ => false
      let r2 := match r with | '+' :: r3 => r3 | '-' :: r3 => r3 | _ => r
      let ds := (spanDigits r2).1
      if ds = [] then 0
      else if signNeg then -(digitsVal ds : Int) else (digitsVal ds : Int)
  | _ => 0

/-- Scale by a signed power of ten. -/
def scalePow10 (q : Rat) (e : Int) : Rat :=
  if e ≥ 0 then q * (10 : Rat) ^ e.toNat else q / (10 : Rat) ^ (-e).toNat

/-- Model of `parseFloat`: `some q` when a number can be read off the
front of the string, `none` for `NaN`. -/
def parseFloatQ (s : String) : Option Rat :=
  let l := s.data.dropWhile isWsChar
  let signNeg := match l with | '-' :: _ => true | _ => false
  let l1 := match l with | '+' :: r => r | '-' :: r => r | _ => l
  let (ip, r1) := spanDigits l1
  let (fp, r2) :=
    match r1 with
    | '.' :: rf => spanDigits rf
    | _ => ([], r1)
  if ip = [] ∧ fp = [] then none
  else
    let mantissa : Rat := (digitsVal ip : Rat) + fracVal fp
    let e := parseExponent r2
    let v := scalePow10 mantissa e
    some (if signNeg then -v else v)

/-- Decimal rendering of an integer, as inside a template string. -/
def intToString (n : Int) : String :=
  if n < 0 then "-" ++ String.mk (natDigits (-n).toNat)
  else String.mk (natDigits n.toNat)

example : parseFloatQ "abc" = none := by decide
example : parseFloatQ "" = none := by decide
example : (parseFloatQ "3.5").isSome = true := by decide
example : (parseFloatQ " -12abc").isSome = true := by decide

/-! ## Runtime value model for condition evaluation -/

/-- The runtime value flowing through `evaluateCondition` (the `actual`
local): a string, number, boolean, array of strings, plain object, or
`null`. -/
inductive JsVal where
  | str (s : String)
  | num (q : Rat)
  | bool (b : Bool)
  | arr (elems : List String)
  | obj (m : List (String × MatrixCell))
  | nullv
deriving DecidableEq

/-- Conversion `String(v)` for the values the evaluator stringifies.  A
number only reaches this conversion on the numeric path where it is used
as-is, so the rendering of non-integral numbers is inert; integers render
in decimal. -/
def jsToString : JsVal → String
  | .str s => s
  | .num q => if q.den = 1 then intToString q.num
      else intToString q.num ++ "/" ++ intToString (q.den : Int)
  | .bool b => if b then "true" else "false"
  | .arr l => String.intercalate "," l
  | .obj _ => "[object Object]"
  | .nullv => "null"

/-- The `actual ?? ''` null-coalescing step. -/
def orEmpty (v : JsVal) : JsVal :=
  match v with
  | .nullv => .str ""
  | v => v

/-! ## Diacritic folding for the `contains` operator

`normalizeForContains` performs `NFD` decomposition, strips the
combining marks `U+0300..U+036F`, lowercases, collapses every run of
characters outside `[a-z0-9]` to one space, and trims.  The `NFD` table
covers the precomposed Latin-1 letters; characters without a canonical
decomposition stay themselves (as under real `NFD`) and fall to the
space-collapsing step when outside `[a-z0-9]`.  Lowercasing is ASCII:
after mark stripping, claim-relevant letters are ASCII, and remaining
non-ASCII letters are collapsed to spaces either way. -/

/-- Canonical decomposition of one character (Latin-1 coverage). -/
def nfdChar (c : Char) : List Char :=
  let n := c.toNat
  let grave : Char := Char.ofNat 0x300
  let acute : Char := Char.ofNat 0x301
  let circ : Char := Char.ofNat 0x302
  let tilde : Char := Char.ofNat 0x303
  let diaer : Char := Char.ofNat 0x308
  let ring : Char := Char.ofNat 0x30A
  let cedil : Char := Char.ofNat 0x327
  if n = 0xC0 then ['A', grave] else if n = 0xC1 then ['A', acute]
  else if n = 0xC2 then ['A', circ] else if n = 0xC3 then ['A', tilde]
  else if n = 0xC4 then ['A', diaer] else if n = 0xC5 then ['A', ring]
  else if n = 0xC7 then ['C', cedil]
  else if n = 0xC8 then ['E', grave] else if n = 0xC9 then ['E', acute]
  else if n = 0xCA then ['E', circ] else if n = 0xCB then ['E', diaer]
  else if n = 0xCC then ['I', grave] else if n = 0xCD then ['I', acute]
  else if n = 0xCE then ['I', circ] else if n = 0xCF then ['I', diaer]
  else if n = 0xD1 then ['N', tilde]
  else if n = 0xD2 then ['O', grave] else if n = 0xD3 then ['O', acute]
  else if n = 0xD4 then ['O', circ] else if n = 0xD5 then ['O', tilde]
  else if n = 0xD6 then ['O', diaer]
  else if n = 0xD9 then ['U', grave] else if n = 0xDA then ['U', acute]
  else if n = 0xDB then ['U', circ] else if n = 0xDC then ['U', diaer]
  else if n = 0xDD then ['Y', acute]
  else if n = 0xE0 then ['a', grave] else if n = 0xE1 then ['a', acute]
  else if n = 0xE2 then ['a', circ] else if n = 0xE3 then ['a', tilde]
  else if n = 0xE4 then ['a', diaer] else if n = 0xE5 then ['a', ring]
  else if n = 0xE7 then ['c', cedil]
  else if n = 0xE8 then ['e', grave] else if n = 0xE9 then ['e', acute]
  else if n = 0xEA then ['e', circ] else if n = 0xEB then ['e', diaer]
  else if n = 0xEC then ['i', grave] else if n = 0xED then ['i', acute]
  else if n = 0xEE then ['i', circ] else if n = 0xEF then ['i', diaer]
  else if n = 0xF1 then ['n', tilde]
  else if n = 0xF2 then ['o', grave] else if n = 0xF3 then ['o', acute]
  else if n = 0xF4 then ['o', circ] else if n = 0xF5 then ['o', tilde]
  else if n = 0xF6 then ['o', diaer]
  else if n = 0xF9 then ['u', grave] else if n = 0xFA then ['u', acute]
  else if n = 0xFB then ['u', circ] else if n = 0xFC then ['u', diaer]
  else if n = 0xFD then ['y', acute] else if n = 0xFF then ['y', diaer]
  else [c]

/-- Is this a combining mark in `U+0300..U+036F`. -/
def isCombiningMark (c : Char) : Bool :=
  0x300 ≤ c.toNat ∧ c.toNat ≤ 0x36F

/-- The character class `[a-z0-9]` kept by the final replacement. -/
def isAlnumLower (c : Char) : Bool :=
  ('a' ≤ c ∧ c ≤ 'z') ∨ ('0' ≤ c ∧ c ≤ '9')

/-- State machine for the run-collapsing replacement; the flag records
whether the previous character belonged to a run being replaced. -/
def collapseAux : Bool → List Char → List Char
  | _, [] => []
  | inRun, c :: rest =>
      if isAlnumLower c then c :: collapseAux false rest
      else if inRun then collapseAux true rest
      else ' ' :: collapseAux true rest

/-- Collapse: map every run of characters outside `[a-z0-9]` to one
space (the `replace(/[^a-z0-9]+/g, ' ')` step). -/
def collapseRuns (l : List Char) : List Char :=
  collapseAux false l

/-- Trim spaces at both ends. -/
def trimSpaces (l : List Char) : List Char :=
  ((l.dropWhile (· = ' ')).reverse.dropWhile (· = ' ')).reverse

/-- Translation of `normalizeForContains`. -/
def normalizeForContains (s : String) : String :=
  String.mk (trimSpaces (collapseRuns
    (((s.data.map nfdChar).flatten.filter (fun c => !isCombiningMark c)).map Char.toLower)))

/-- The word list of a normalized string (split on spaces, dropping
empty segments - a normalized string has none inside). -/
def wordsOf (s : String) : List String :=
  ((s.data.splitOn ' ').filter (fun w => w ≠ [])).map String.mk

example : normalizeForContains "Café  Latte!" = "cafe latte" := by decide
example : wordsOf "cafe latte" = ["cafe", "latte"] := by decide

/-! ## Condition evaluation (logic/conditions.ts) -/

/-- Translation of `getActualValue`: extract the runtime value of the
target field from its response, according to the target field type.

Out-of-model corners (malformed response shapes for the field type, not
reachable from well-typed answer writes): a matrix record stored under a
single-select field and a single option stored under a matrix field
follow the null / empty-object arms here, whereas the source would only
reach the same arms when the record lacks an `id` key. -/
def getActualValue (definition : FieldDefCore) (response : Option FieldResponse) : JsVal :=
  match response with
  | none => .nullv
  | some r =>
      if definition.fieldType = "text" ∨ definition.fieldType = "longtext" ∨
          definition.fieldType = "expression" then
        match r.answer with
        | some (.str s) => .str s
        | some (.num q) => .num q
        | some (.bool b) => .bool b
        | none => .str ""
      else if definition.fieldType = "multitext" then
        match r.multitextAnswers with
        | some m => .arr (m.map Prod.snd)
        | none => .arr []
      else if definition.fieldType = "radio" ∨ definition.fieldType = "dropdown" ∨
          definition.fieldType = "boolean" ∨ definition.fieldType = "slider" ∨
          definition.fieldType = "rating" then
        match r.selected with
        | some (.single o) => .str o.id
        | _ => .nullv
      else if definition.fieldType = "check" ∨
          definition.fieldType = "multiselectdropdown" ∨
          definition.fieldType = "ranking" then
        match r.selected with
        | some (.multi os) => .arr (os.map SelectedOption.id)
        | _ => .arr []
      else if definition.fieldType = "singlematrix" ∨
          definition.fieldType = "multimatrix" then
        match r.selected with
        | some (.matrix m) => .obj m
        | _ => .obj []
      else .nullv

/-- Translation of `applyPropertyAccessor`: the `length` / `count` of the
value; zero for any other accessor name or unsized value. -/
def applyPropertyAccessor (value : JsVal) (accessor : String) : Nat :=
  let prop := accessor.toLower
  if prop ≠ "length" ∧ prop ≠ "count" then 0
  else match value with
    | .arr l => l.length
    | .str s => s.length
    | .obj m => m.length
    | _ => 0

/-- The trim used by emptiness checks (`String.prototype.trim`). -/
def jsTrim (s : String) : String :=
  String.mk (s.data.dropWhile isWsChar |>.reverse.dropWhile isWsChar |>.reverse)

/-- Translation of the private `isEmpty`: null, an empty array, an
object with no keys, or a blank string; numbers and booleans stringify
to non-blank text and are never empty. -/
def isEmptyVal : JsVal → Bool
  | .nullv => true
  | .arr l => l.isEmpty
  | .obj m => m.isEmpty
  | .str s => jsTrim s = ""
  | .num _ => false
  | .bool _ => false

/-- The four magnitude comparison operators (`NUMERIC_OPERATORS`). -/
def isMagnitudeOp : CondOperator → Bool
  | .greaterThan | .greaterThanOrEqual | .lessThan | .lessThanOrEqual => true
  | _ => false

/-- `Number.EPSILON`, the rational `2 ^ (-52)`. -/
def jsEpsilon : Rat := 1 / 2 ^ 52

/-- Translation of `evaluateNumeric`: magnitude comparisons are exact;
equality and inequality use the `10 * Number.EPSILON` tolerance; any
other operator yields false. -/
def evaluateNumeric (actual expected : Rat) : CondOperator → Bool
  | .equals => |actual - expected| < jsEpsilon * 10
  | .notEquals => |actual - expected| ≥ jsEpsilon * 10
  | .greaterThan => actual > expected
  | .greaterThanOrEqual => actual ≥ expected
  | .lessThan => actual < expected
  | .lessThanOrEqual => actual ≤ expected
  | _ => false

/-- The anchored word-sequence pattern of the `contains` branch: on
normalized strings (lower-case alphanumeric words separated by single
spaces) the regular expression built from `parts` - each word bounded by
start, end or whitespace, and consecutive words separated by a
whitespace run - matches the haystack exactly when `parts` occurs as a
contiguous run of its words. -/
def containsPattern (hay : String) (parts : List String) : Bool :=
  decide (parts <:+: wordsOf hay)

/-- Translation of `NUMERIC_EXPRESSION_FORMATS`. -/
def NUMERIC_EXPRESSION_FORMATS : List String := ["number", "currency", "percentage"]

/-- The extracted actual value after the truthy property-accessor step
(the `actual` local ahead of the empty / notEmpty short-circuit). -/
def condActualRaw (condition : Condition) (definition : FieldDefCore)
    (response : Option FieldResponse) : JsVal :=
  let actual0 := getActualValue definition response
  match condition.propertyAccessor with
  | some acc => if acc = "" then actual0 else .num (applyPropertyAccessor actual0 acc)
  | none => actual0

/-- The actual value after the option-ID resolution step: for a
magnitude operator, a string that does not parse as a number is looked
up among the target options and replaced by the numeric value of the
option when that parses. -/
def condActual (condition : Condition) (definition : FieldDefCore)
    (response : Option FieldResponse) : JsVal :=
  match condActualRaw condition definition response with
  | .str s =>
      if isMagnitudeOp condition.operator ∧ (parseFloatQ s).isNone then
        match definition.options with
        | some opts =>
            match opts.find? (fun o => o.id = s) with
            | some opt =>
                match parseFloatQ opt.value with
                | some q => .num q
                | none => JsVal.str s
            | none => JsVal.str s
        | none => JsVal.str s
      else JsVal.str s
  | v => v

/-- The `isNumericExpr` local: an expression field with a numeric
display format. -/
def isNumericExprDef (definition : FieldDefCore) : Bool :=
  definition.fieldType == "expression" &&
    (match definition.displayFormat with
    | some fmt => NUMERIC_EXPRESSION_FORMATS.contains fmt
    | none => false)

/-- The `isNumericText` local: a text field with the numeric input
sub-kind. -/
def isNumericTextDef (definition : FieldDefCore) : Bool :=
  definition.fieldType == "text" && definition.inputType == some "number"

/-- The `isNumeric` local - whether the numeric path is taken. -/
def numericDecision (condition : Condition) (definition : FieldDefCore)
    (v : JsVal) : Bool :=
  isMagnitudeOp condition.operator ||
    (match v with | .num _ => true | _ => false) ||
    isNumericExprDef definition || isNumericTextDef definition

/-- Translation of `evaluateCondition`, step by step in source order:
value extraction, truthy property accessor, empty / notEmpty
short-circuit, option-ID resolution for magnitude operators, the numeric
path decision, then the numeric or string / array comparison. -/
def evaluateCondition (condition : Condition) (definition : FieldDefCore)
    (response : Option FieldResponse) : Bool :=
  if condition.operator = .empty then
    isEmptyVal (condActualRaw condition definition response)
  else if condition.operator = .notEmpty then
    !isEmptyVal (condActualRaw condition definition response)
  else
    let actual2 := condActual condition definition response
    if numericDecision condition definition actual2 then
      let actualNum :=
        match actual2 with
        | .num q => some q
        | v => parseFloatQ (jsToString v)
      match actualNum, parseFloatQ condition.expected with
      | some a, some b => evaluateNumeric a b condition.operator
      | _, _ => false
    else
      match condition.operator with
      | .equals =>
          match actual2 with
          | .arr _ => false
          | v => jsToString (orEmpty v) = condition.expected
      | .notEquals =>
          match actual2 with
          | .arr _ => true
          | v => jsToString (orEmpty v) ≠ condition.expected
      | .contains =>
          let hay := normalizeForContains (jsToString (orEmpty actual2))
          let needle := normalizeForContains condition.expected
          if needle = "" then false
          else containsPattern hay (wordsOf needle)
      | .includes =>
          match actual2 with
          | .arr l => condition.expected ∈ l
          | _ => false
      | _ => false

/-- Translation of `evaluateRule`: vacuous truth on an empty condition
list, a missing target makes its condition false, and the results
combine with OR (`some`) or AND (`every`). -/
def evaluateRule (rule : ConditionalRule) (normalized : NormalizedDefinition)
    (responses : FormResponse) : Bool :=
  if rule.conditions = [] then true
  else
    let results := rule.conditions.map fun cond =>
      match normalized.byId.get cond.targetId with
      | none => false
      | some node => evaluateCondition cond node.definition (responses.get cond.targetId)
    match rule.logic with
    | .or => results.any id
    | .and => results.all id

/-! ## Effect resolution (logic/resolve.ts) -/

/-- Translation of `resolveEffect`: filter the rules to the requested
effect; with no matching rule return the static default (`required ??
false` for required, true for visible / enable); otherwise OR the rule
results. -/
def resolveEffect (effect : CondEffect) (field : FieldDefCore)
    (normalized : NormalizedDefinition) (responses : FormResponse) : Bool :=
  let rules := (field.rules.getD []).filter (fun r => r.effect = effect)
  if rules.isEmpty then
    match effect with
    | .required => field.required.getD false
    | .visible => true
    | .enable => true
  else rules.any fun r => evaluateRule r normalized responses

/-! ## Validation (logic/validate.ts) -/

/-- Translation of `ValidationError`. -/
structure ValidationError where
  fieldId : String
  rule : String
  message : String
deriving DecidableEq

/-- Translation of `NON_INPUT_TYPES`. -/
def NON_INPUT_TYPES : List String := ["section", "expression", "html", "image"]

/-- Translation of the private `isResponseEmpty`: a response is empty
when none of its shape-specific properties carries meaningful data; a
non-string `answer` (boolean or number, including `false` and `0`) is
always meaningful, strings must be non-blank after trimming. -/
def isResponseEmpty (response : Option FieldResponse) : Bool :=
  match response with
  | none => true
  | some r =>
      let answerFilled :=
        match r.answer with
        | some (.str s) => jsTrim s != ""
        | some (.num _) => true
        | some (.bool _) => true
        | none => false
      if answerFilled then false
      else
        let selectedFilled :=
          match r.selected with
          | some (.multi os) => decide (os.length > 0)
          | some (.single _) => true
          | some (.matrix m) => if Obj.hasKey m "id" then true else decide (m.length > 0)
          | none => false
        if selectedFilled then false
        else
          let multitextFilled :=
            match r.multitextAnswers with
            | some m => m.any fun e => jsTrim e.2 != ""
            | none => false
          if multitextFilled then false
          else
            let sigFilled :=
              match r.signatureData with
              | some s => s != "" && jsTrim s != ""
              | none => false
            if sigFilled then false
            else
              let markFilled :=
                match r.markupData with
                | some s => s != "" && jsTrim s != ""
                | none => false
              if markFilled then false else true

/-- Translation of `validateField`: no errors for an unknown ID, a
non-input field type, or an invisible field; otherwise one `required`
error exactly when the resolved required effect holds and the response
is empty. -/
def validateField (fieldId : String) (normalized : NormalizedDefinition)
    (responses : FormResponse) : List ValidationError :=
  match normalized.byId.get fieldId with
  | none => []
  | some node =>
      if node.definition.fieldType ∈ NON_INPUT_TYPES then []
      else if ¬ resolveEffect .visible node.definition normalized responses then []
      else if resolveEffect .required node.definition normalized responses ∧
          isResponseEmpty (responses.get fieldId) then
        [⟨fieldId, "required", "This field is required"⟩]
      else []

/-- Translation of `validateForm`: concatenate the per-field errors over
every key of the index. -/
def validateForm (normalized : NormalizedDefinition)
    (responses : FormResponse) : List ValidationError :=
  (Obj.keys normalized.byId).flatMap fun fieldId =>
    validateField fieldId normalized responses

/-! ## Rule and effect semantics (claims C3 and following) -/

/-- Specification-side truth of one condition: the target must be
present in the index and the condition must evaluate true against the
target definition and response. -/
def CondHolds (cond : Condition) (normalized : NormalizedDefinition)
    (responses : FormResponse) : Prop :=
  ∃ node, normalized.byId.get cond.targetId = some node ∧
    evaluateCondition cond node.definition (responses.get cond.targetId) = true

/-- Specification-side truth of a rule: vacuous on an empty condition
list, all conditions under AND, at least one under OR. -/
def RuleHolds (rule : ConditionalRule) (normalized : NormalizedDefinition)
    (responses : FormResponse) : Prop :=
  rule.conditions = [] ∨
    match rule.logic with
    | .and => ∀ cond ∈ rule.conditions, CondHolds cond normalized responses
    | .or => ∃ cond ∈ rule.conditions, CondHolds cond normalized responses

theorem list_any_map_id {α} (l : List α) (f : α → Bool) : (l.map f).any id = l.any f := by
  induction l with
  | nil => rfl
  | cons x xs ih => simp [List.any_cons, ih]

theorem list_all_map_id {α} (l : List α) (f : α → Bool) : (l.map f).all id = l.all f := by
  induction l with
  | nil => rfl
  | cons x xs ih => simp [List.all_cons, ih]

theorem evaluateRule_iff (rule : ConditionalRule) (normalized : NormalizedDefinition)
    (responses : FormResponse) :
    evaluateRule rule normalized responses = true ↔ RuleHolds rule normalized responses := by
  unfold evaluateRule RuleHolds
  by_cases hnil : rule.conditions = []
  · simp [hnil]
  · rw [if_neg hnil]
    have hcond : ∀ cond : Condition,
        (match normalized.byId.get cond.targetId with
          | none => false
          | some node =>
              evaluateCondition cond node.definition (responses.get cond.targetId)) = true ↔
        CondHolds cond normalized responses := by
      intro cond
      unfold CondHolds
      cases hg : normalized.byId.get cond.targetId with
      | none => simp
      | some node => simp
    cases hlogic : rule.logic with
    | or =>
        dsimp only
        rw [list_any_map_id, List.any_eq_true]
        simp only [hnil, false_or]
        constructor
        · rintro ⟨c, hc, hval⟩
          exact ⟨c, hc, (hcond c).mp hval⟩
        · rintro ⟨c, hc, hval⟩
          exact ⟨c, hc, (hcond c).mpr hval⟩
    | and =>
        dsimp only
        rw [list_all_map_id, List.all_eq_true]
        simp only [hnil, false_or]
        constructor
        · intro hall c hc
          exact (hcond c).mp (hall c hc)
        · intro hall c hc
          exact (hcond c).mpr (hall c hc)

/-- C3: with no rule matching the requested effect, `resolveEffect`
returns the static default (the `required` flag, default false, for
required; true for visible and enable); with matching rules it returns
true exactly when at least one matching rule holds, where a rule with
AND logic requires all conditions, OR at least one, an empty condition
list is vacuously true, and a condition with an unknown target is
false (all folded into `RuleHolds` via `evaluateRule_iff`). -/
theorem resolveEffect_contract (effect : CondEffect) (field : FieldDefCore)
    (normalized : NormalizedDefinition) (responses : FormResponse) :
    ((field.rules.getD []).filter (fun r => r.effect = effect) = [] →
      resolveEffect effect field normalized responses =
        match effect with
        | .required => field.required.getD false
        | .visible => true
        | .enable => true) ∧
    (∀ r0, r0 ∈ (field.rules.getD []).filter (fun r => r.effect = effect) →
      (resolveEffect effect field normalized responses = true ↔
        ∃ r ∈ (field.rules.getD []).filter (fun r => r.effect = effect),
          RuleHolds r normalized responses)) := by
  constructor
  · intro hempty
    unfold resolveEffect
    rw [hempty]
    simp
  · intro r0 hr0
    unfold resolveEffect
    dsimp only
    have hne : ((field.rules.getD []).filter (fun r => r.effect = effect)).isEmpty = false := by
      cases hx : ((field.rules.getD []).filter (fun r => r.effect = effect)).isEmpty
      · rfl
      · rw [List.isEmpty_iff] at hx
        rw [hx] at hr0
        simp at hr0
    simp only [hne, Bool.false_eq_true, if_false, List.any_eq_true]
    constructor
    · rintro ⟨r, hr, hval⟩
      exact ⟨r, hr, (evaluateRule_iff r normalized responses).mp hval⟩
    · rintro ⟨r, hr, hval⟩
      exact ⟨r, hr, (evaluateRule_iff r normalized responses).mpr hval⟩

/-- Concrete rule for the C3 witness: visible when target `t` equals `show`. -/
def w3rule : ConditionalRule :=
  { effect := .visible, logic := .and,
    conditions := [{ targetId := "t", operator := .equals, expected := "show" }] }

/-- Concrete field for the C3 witness. -/
def w3field : FieldDefCore :=
  { id := "q1", fieldType := "text", rules := some [w3rule] }

/-- Concrete index for the C3 witness. -/
def w3norm : NormalizedDefinition :=
  normalizeDefinition [FieldDef.mk { id := "t", fieldType := "text" } none]

/-- Concrete responses for the C3 witness. -/
def w3resp : FormResponse := [("t", { answer := some (.str "show") })]

/-- Witness for C3 at concrete inputs: a field without rules resolves
required to its static flag, and a field with one passing visible rule
resolves visible to true. -/
theorem resolveEffect_contract_witness :
    (resolveEffect .required { id := "q1", fieldType := "text", required := some true }
      w3norm [] = true) ∧
    (resolveEffect .visible w3field w3norm w3resp = true) := by
  constructor
  · exact (resolveEffect_contract .required
      { id := "q1", fieldType := "text", required := some true } w3norm []).1 (by decide)
  · refine ((resolveEffect_contract .visible w3field w3norm w3resp).2
      w3rule (by decide)).mpr ?_
    refine ⟨w3rule, by decide, Or.inr ?_⟩
    intro cond hc
    have hc2 : cond = { targetId := "t", operator := .equals, expected := "show" } := by
      simpa [w3rule] using hc
    subst hc2
    exact ⟨⟨{ id := "t", fieldType := "text" }, none, [], 0⟩, by decide, by decide⟩

/-- C5: for the `contains` operator on a plain text target, evaluation
succeeds exactly when the normalized expected string is non-empty and
its word list occurs contiguously among the words of the normalized
actual text (case-insensitive, diacritic-insensitive, whole words); in
particular `cafe` matches `Café Latte` and `hell` does not match
`hello world`. -/
theorem contains_contract :
    (∀ (cond : Condition) (d : FieldDefCore) (r : FieldResponse) (s : String),
      cond.operator = .contains →
      cond.propertyAccessor = none →
      d.fieldType = "text" →
      d.inputType ≠ some "number" →
      r.answer = some (.str s) →
      (evaluateCondition cond d (some r) = true ↔
        (normalizeForContains cond.expected ≠ "" ∧
          wordsOf (normalizeForContains cond.expected) <:+:
            wordsOf (normalizeForContains s)))) ∧
    evaluateCondition { targetId := "t", operator := .contains, expected := "cafe" }
      { id := "t", fieldType := "text" } (some { answer := some (.str "Café Latte") }) = true ∧
    evaluateCondition { targetId := "t", operator := .contains, expected := "hell" }
      { id := "t", fieldType := "text" } (some { answer := some (.str "hello world") }) = false := by
  refine ⟨?_, by decide, by decide⟩
  intro cond d r s hop hacc hft hit hans
  have hraw : condActualRaw cond d (some r) = .str s := by
    simp [condActualRaw, hacc, getActualValue, hft, hans]
  have hact : condActual cond d (some r) = .str s := by
    simp only [condActual, hraw]
    rw [if_neg]
    rw [hop]
    simp [isMagnitudeOp]
  have hdec : numericDecision cond d (.str s) = false := by
    simp only [numericDecision, isNumericExprDef, isNumericTextDef, hop, hft]
    simp [isMagnitudeOp, hit]
  rw [evaluateCondition]
  rw [hop]
  simp only [reduceCtorEq, if_false, hact, hdec, Bool.false_eq_true]
  by_cases hne : normalizeForContains cond.expected = ""
  · simp [hne]
  · simp [hne, containsPattern, orEmpty, jsToString]

/-- Witness for C5: the general contains characterization applied at a
concrete multi-word condition and answer. -/
theorem contains_contract_witness :
    evaluateCondition { targetId := "t", operator := .contains, expected := "world hello" }
      { id := "t", fieldType := "text" } (some { answer := some (.str "say hello world") }) = true ↔
      (normalizeForContains "world hello" ≠ "" ∧
        wordsOf (normalizeForContains "world hello") <:+:
          wordsOf (normalizeForContains "say hello world")) :=
  contains_contract.1 { targetId := "t", operator := .contains, expected := "world hello" }
    { id := "t", fieldType := "text" } { answer := some (.str "say hello world") }
    "say hello world" rfl rfl rfl (by decide) rfl

/-- C6: `validateField` returns no errors for an unknown ID, a
non-input field type (the skip list: section, expression, html, image -
so container and display fields never error even when required and
unanswered), or an invisible field; otherwise it emits exactly one
`required` error precisely when the resolved required effect holds and
the response is empty, where boolean and numeric answers (including
`false` and `0`) are never empty. -/
theorem validateField_contract (fieldId : String) (nd : NormalizedDefinition)
    (resp : FormResponse) :
    (nd.byId.get fieldId = none → validateField fieldId nd resp = []) ∧
    (∀ node, nd.byId.get fieldId = some node →
      ((node.definition.fieldType ∈ NON_INPUT_TYPES ∨
          resolveEffect .visible node.definition nd resp = false) →
        validateField fieldId nd resp = []) ∧
      (node.definition.fieldType ∉ NON_INPUT_TYPES →
        resolveEffect .visible node.definition nd resp = true →
        validateField fieldId nd resp =
          (if resolveEffect .required node.definition nd resp = true ∧
              isResponseEmpty (resp.get fieldId) = true then
            [⟨fieldId, "required", "This field is required"⟩]
          else []))) ∧
    (∀ r : FieldResponse,
      ((∃ b, r.answer = some (.bool b)) ∨ (∃ q, r.answer = some (.num q))) →
      isResponseEmpty (some r) = false) := by
  refine ⟨?_, ?_, ?_⟩
  · intro hnone
    simp [validateField, hnone]
  · intro node hsome
    constructor
    · rintro (hskip | hinvis)
      · simp [validateField, hsome, hskip]
      · by_cases hskip : node.definition.fieldType ∈ NON_INPUT_TYPES
        · simp [validateField, hsome, hskip]
        · simp [validateField, hsome, hskip, hinvis]
    · intro hskip hvis
      simp only [validateField, hsome]
      rw [if_neg (by simpa using hskip)]
      simp only [hvis, not_true_eq_false, Bool.false_eq_true, if_false]
  · rintro r (⟨b, hb⟩ | ⟨q, hq⟩)
    · simp [isResponseEmpty, hb]
    · simp [isResponseEmpty, hq]

/-- Witness for C6: a required, unanswered section produces no errors,
and a required, visible, unanswered text field produces exactly the one
`required` error. -/
theorem validateField_contract_witness :
    validateField "s" (normalizeDefinition
      [FieldDef.mk { id := "s", fieldType := "section", required := some true } none]) [] = [] ∧
    validateField "q" (normalizeDefinition
      [FieldDef.mk { id := "q", fieldType := "text", required := some true } none]) [] =
      [⟨"q", "required", "This field is required"⟩] := by
  constructor
  · exact (((validateField_contract "s"
      (normalizeDefinition
        [FieldDef.mk { id := "s", fieldType := "section", required := some true } none]) []).2.1
      ⟨{ id := "s", fieldType := "section", required := some true }, none, [], 0⟩
      (by decide)).1 (Or.inl (by decide)))
  · rw [(((validateField_contract "q"
      (normalizeDefinition
        [FieldDef.mk { id := "q", fieldType := "text", required := some true } none]) []).2.1
      ⟨{ id := "q", fieldType := "text", required := some true }, none, [], 0⟩
      (by decide)).2 (by decide) (by decide))]
    rw [if_pos ⟨by decide, by decide⟩]

/-- C4: the numeric path is taken exactly when the operator is a
magnitude comparison, the extracted actual value is already a number,
the target is an expression field with a numeric display format, or a
text field with the numeric input sub-kind; on that path both sides are
parsed as floating point and a parse failure on either side makes the
condition false, while a double parse feeds `evaluateNumeric`, whose
equality and inequality use the `10 * Number.EPSILON` tolerance rather
than exact equality (witnessed by two distinct rationals comparing
equal). -/
theorem numeric_path_contract :
    (∀ (cond : Condition) (d : FieldDefCore) (resp : Option FieldResponse),
      cond.operator ≠ .empty → cond.operator ≠ .notEmpty →
      (numericDecision cond d (condActual cond d resp) = true ↔
        (isMagnitudeOp cond.operator = true ∨
         (∃ q, condActual cond d resp = .num q) ∨
         (d.fieldType = "expression" ∧ ∃ fmt, d.displayFormat = some fmt ∧
            fmt ∈ NUMERIC_EXPRESSION_FORMATS) ∨
         (d.fieldType = "text" ∧ d.inputType = some "number")))) ∧
    (∀ (cond : Condition) (d : FieldDefCore) (resp : Option FieldResponse),
      cond.operator ≠ .empty → cond.operator ≠ .notEmpty →
      numericDecision cond d (condActual cond d resp) = true →
      ((match condActual cond d resp with
        | .num q => some q
        | v => parseFloatQ (jsToString v)) = none ∨
        parseFloatQ cond.expected = none) →
      evaluateCondition cond d resp = false) ∧
    (∀ (cond : Condition) (d : FieldDefCore) (resp : Option FieldResponse) (a b : Rat),
      cond.operator ≠ .empty → cond.operator ≠ .notEmpty →
      numericDecision cond d (condActual cond d resp) = true →
      (match condActual cond d resp with
        | .num q => some q
        | v => parseFloatQ (jsToString v)) = some a →
      parseFloatQ cond.expected = some b →
      evaluateCondition cond d resp = evaluateNumeric a b cond.operator) ∧
    (∀ a b : Rat,
      (evaluateNumeric a b .equals = true ↔ |a - b| < jsEpsilon * 10) ∧
      (evaluateNumeric a b .notEquals = true ↔ ¬ |a - b| < jsEpsilon * 10)) ∧
    (∃ a b : Rat, a ≠ b ∧ evaluateNumeric a b .equals = true) := by
  refine ⟨?_, ?_, ?_, ?_, ?_⟩
  · intro cond d resp hne hnn
    unfold numericDecision
    simp only [Bool.or_eq_true]
    constructor
    · rintro (((hmag | hnum) | hexpr) | htext)
      · exact Or.inl hmag
      · refine Or.inr (Or.inl ?_)
        cases hact : condActual cond d resp <;> rw [hact] at hnum <;> simp_all
      · refine Or.inr (Or.inr (Or.inl ?_))
        unfold isNumericExprDef at hexpr
        rw [Bool.and_eq_true, beq_iff_eq] at hexpr
        refine ⟨hexpr.1, ?_⟩
        cases hdf : d.displayFormat with
        | none => rw [hdf] at hexpr; simp at hexpr
        | some fmt =>
            rw [hdf] at hexpr
            exact ⟨fmt, rfl, by simpa using hexpr.2⟩
      · refine Or.inr (Or.inr (Or.inr ?_))
        unfold isNumericTextDef at htext
        rw [Bool.and_eq_true, beq_iff_eq, beq_iff_eq] at htext
        exact htext
    · rintro (hmag | ⟨q, hq⟩ | ⟨hft, fmt, hdf, hmem⟩ | ⟨hft, hit⟩)
      · exact Or.inl (Or.inl (Or.inl hmag))
      · refine Or.inl (Or.inl (Or.inr ?_))
        rw [hq]
      · refine Or.inl (Or.inr ?_)
        unfold isNumericExprDef
        rw [Bool.and_eq_true, beq_iff_eq, hdf]
        exact ⟨hft, by simpa using hmem⟩
      · refine Or.inr ?_
        unfold isNumericTextDef
        rw [Bool.and_eq_true, beq_iff_eq, beq_iff_eq]
        exact ⟨hft, hit⟩
  · intro cond d resp hne hnn hdec hfail
    rw [evaluateCondition, if_neg (by simpa using hne), if_neg (by simpa using hnn)]
    dsimp only
    rw [if_pos hdec]
    rcases hfail with hfa | hfe
    · rw [hfa]
    · rw [hfe]
      cases hma : (match condActual cond d resp with
        | .num q => some q
        | v => parseFloatQ (jsToString v)) <;> rfl
  · intro cond d resp a b hne hnn hdec hpa hpe
    rw [evaluateCondition, if_neg (by simpa using hne), if_neg (by simpa using hnn)]
    dsimp only
    rw [if_pos hdec, hpa, hpe]
  · intro a b
    constructor
    · unfold evaluateNumeric
      simp
    · unfold evaluateNumeric
      simp
  · refine ⟨0, jsEpsilon, by rw [jsEpsilon]; norm_num, ?_⟩
    unfold evaluateNumeric
    rw [decide_eq_true_iff]
    have h : |(0 : Rat) - jsEpsilon| = jsEpsilon := by
      rw [zero_sub, abs_neg, abs_of_pos]
      rw [jsEpsilon]
      norm_num
    rw [h, jsEpsilon]
    norm_num

/-- Witness for C4: at a magnitude comparison against a non-numeric
expected string the parse fails and the condition is false; the path
characterization also applies at this input. -/
theorem numeric_path_contract_witness :
    evaluateCondition { targetId := "t", operator := .greaterThan, expected := "abc" }
      { id := "t", fieldType := "text" } (some { answer := some (.str "5") }) = false ∧
    (numericDecision { targetId := "t", operator := .greaterThan, expected := "abc" }
      { id := "t", fieldType := "text" }
      (condActual { targetId := "t", operator := .greaterThan, expected := "abc" }
        { id := "t", fieldType := "text" } (some { answer := some (.str "5") })) = true ↔
      (isMagnitudeOp CondOperator.greaterThan = true ∨
       (∃ q, condActual { targetId := "t", operator := .greaterThan, expected := "abc" }
          { id := "t", fieldType := "text" } (some { answer := some (.str "5") }) = .num q) ∨
       (("text" : String) = "expression" ∧ ∃ fmt, (none : Option String) = some fmt ∧
          fmt ∈ NUMERIC_EXPRESSION_FORMATS) ∨
       (("text" : String) = "text" ∧ (none : Option String) = some "number"))) :=
  ⟨numeric_path_contract.2.1
      { targetId := "t", operator := .greaterThan, expected := "abc" }
      { id := "t", fieldType := "text" } (some { answer := some (.str "5") })
      (by decide) (by decide) (by decide) (Or.inr (by decide)),
    numeric_path_contract.1
      { targetId := "t", operator := .greaterThan, expected := "abc" }
      { id := "t", fieldType := "text" } (some { answer := some (.str "5") })
      (by decide) (by decide)⟩

/-! ## Field type registry (registry.ts, built-in seed)

The module-level registry is modelled in its seeded state: the
19 built-in field types.  `defaultProps` is the patch applied when a new
field is created; the `fields: []` entry of the section type is stripped
by `addField` before use and is omitted here. -/

/-- A patch (`Partial<FieldDefinition>` without nested `fields`): a
present attribute overrides the target attribute. -/
structure FieldPatch where
  id : Option String := none
  fieldType : Option String := none
  question : Option String := none
  required : Option Bool := none
  rules : Option (List ConditionalRule) := none
  inputType : Option String := none
  unit : Option String := none
  options : Option (List FieldOption) := none
  rows : Option (List MatrixRow) := none
  columns : Option (List MatrixColumn) := none
  htmlContent : Option String := none
  imageUri : Option String := none
  expression : Option String := none
  displayFormat : Option String := none
  decimalPlaces : Option Rat := none
  title : Option String := none
deriving DecidableEq

/-- The second operand wins when present (object spread per key). -/
def pickOpt {α} (p d : Option α) : Option α :=
  match p with
  | some v => some v
  | none => d

/-- Object spread `{...d, ...p}` over definition attributes. -/
def applyPatch (d : FieldDefCore) (p : FieldPatch) : FieldDefCore :=
  { id := p.id.getD d.id,
    fieldType := p.fieldType.getD d.fieldType,
    question := pickOpt p.question d.question,
    required := pickOpt p.required d.required,
    rules := pickOpt p.rules d.rules,
    inputType := pickOpt p.inputType d.inputType,
    unit := pickOpt p.unit d.unit,
    options := pickOpt p.options d.options,
    rows := pickOpt p.rows d.rows,
    columns := pickOpt p.columns d.columns,
    htmlContent := pickOpt p.htmlContent d.htmlContent,
    imageUri := pickOpt p.imageUri d.imageUri,
    expression := pickOpt p.expression d.expression,
    displayFormat := pickOpt p.displayFormat d.displayFormat,
    decimalPlaces := pickOpt p.decimalPlaces d.decimalPlaces,
    title := pickOpt p.title d.title }

/-- Metadata for one field type (`FieldTypeMeta`), restricted to the
attributes the engine consumes. -/
structure FieldTypeMeta where
  answerType : String
  hasOptions : Bool
  hasMatrix : Bool
  defaultProps : FieldPatch := {}
  defaultOptionCount : Option Nat := none
deriving DecidableEq

/-- Translation of the seeded registry lookup `getFieldTypeMeta`. -/
def getFieldTypeMeta (key : String) : Option FieldTypeMeta :=
  if key = "text" then
    some { answerType := "text", hasOptions := false, hasMatrix := false,
           defaultProps := { inputType := some "string" } }
  else if key = "longtext" then some { answerType := "text", hasOptions := false, hasMatrix := false }
  else if key = "multitext" then
    some { answerType := "multitext", hasOptions := true, hasMatrix := false,
           defaultOptionCount := some 3 }
  else if key = "radio" then
    some { answerType := "selection", hasOptions := true, hasMatrix := false,
           defaultOptionCount := some 3 }
  else if key = "check" then
    some { answerType := "multiselection", hasOptions := true, hasMatrix := false,
           defaultOptionCount := some 3 }
  else if key = "boolean" then
    some { answerType := "selection", hasOptions := true, hasMatrix := false }
  else if key = "dropdown" then
    some { answerType := "selection", hasOptions := true, hasMatrix := false,
           defaultOptionCount := some 3 }
  else if key = "multiselectdropdown" then
    some { answerType := "multiselection", hasOptions := true, hasMatrix := false,
           defaultOptionCount := some 3 }
  else if key = "rating" then
    some { answerType := "selection", hasOptions := true, hasMatrix := false,
           defaultOptionCount := some 5 }
  else if key = "ranking" then
    some { answerType := "multiselection", hasOptions := true, hasMatrix := false,
           defaultOptionCount := some 3 }
  else if key = "slider" then
    some { answerType := "selection", hasOptions := true, hasMatrix := false,
           defaultOptionCount := some 3 }
  else if key = "singlematrix" then
    some { answerType := "matrix", hasOptions := false, hasMatrix := true,
           defaultOptionCount := some 3 }
  else if key = "multimatrix" then
    some { answerType := "matrix", hasOptions := false, hasMatrix := true,
           defaultOptionCount := some 3 }
  else if key = "image" then some { answerType := "display", hasOptions := false, hasMatrix := false }
  else if key = "html" then some { answerType := "display", hasOptions := false, hasMatrix := false }
  else if key = "signature" then some { answerType := "media", hasOptions := false, hasMatrix := false }
  else if key = "diagram" then some { answerType := "media", hasOptions := false, hasMatrix := false }
  else if key = "expression" then
    some { answerType := "text", hasOptions := false, hasMatrix := false,
           defaultProps := { displayFormat := some "number", decimalPlaces := some 2 } }
  else if key = "section" then
    some { answerType := "container", hasOptions := false, hasMatrix := false }
  else none

/-! ## Engine store (engine/store.ts) -/

/-- The store state: the normalized index and the response map. -/
structure EngineState where
  normalized : NormalizedDefinition
  responses : FormResponse
deriving DecidableEq

/-- Translation of `loadDefinition` (also the constructor path): replace
the index wholesale and clear responses. -/
def loadDefinition (fields : List FieldDef) : EngineState :=
  ⟨normalizeDefinition fields, []⟩

/-- Translation of the `insertAt` helper: append when the index is
omitted or beyond the end, prepend when at most zero, else splice. -/
def insertAt {α} (arr : List α) (item : α) (index : Option Int) : List α :=
  match index with
  | none => arr ++ [item]
  | some i =>
      if i ≥ (arr.length : Int) then arr ++ [item]
      else if i ≤ 0 then item :: arr
      else arr.take i.toNat ++ item :: arr.drop i.toNat

/-- Translation of the `patchField` helper: surgically replace one
definition when the field exists and the updater yields one. -/
def patchFieldFn (normalized : NormalizedDefinition) (fieldId : String)
    (updater : FieldDefCore → Option FieldDefCore) : Option NormalizedDefinition :=
  match normalized.byId.get fieldId with
  | none => none
  | some node =>
      match updater node.definition with
      | none => none
      | some newDef =>
          some { normalized with
            byId := normalized.byId.set fieldId { node with definition := newDef } }

/-- The loop of `reindexChildren`, threading the mutated map: a node
whose stored index already matches its position is left untouched. -/
def reindexFrom (byId : Obj FieldNode) : List String → Nat → Obj FieldNode
  | [], _ => byId
  | id :: rest, i =>
      let byId2 :=
        match byId.get id with
        | some node => if node.index ≠ i then byId.set id { node with index := i } else byId
        | none => byId
      reindexFrom byId2 rest (i + 1)

/-- Translation of `reindexChildren`. -/
def reindexChildren (byId : Obj FieldNode) (ids : List String) : Obj FieldNode :=
  reindexFrom byId ids 0

/-- The recursion of `collectDescendants` with explicit fuel; the source
recursion is bounded by the acyclicity of the index, and any fuel above
the entry count is enough on an acyclic index. -/
def collectDescendantsFuel : Nat → Obj FieldNode → String → List String
  | 0, _, _ => []
  | f + 1, byId, fieldId =>
      match byId.get fieldId with
      | none => []
      | some node =>
          (node.childIds.map fun c => c :: collectDescendantsFuel f byId c).flatten

/-- Translation of `collectDescendants`. -/
def collectDescendants (byId : Obj FieldNode) (fieldId : String) : List String :=
  collectDescendantsFuel (byId.length + 1) byId fieldId

/-- The generated-starter-ID loop of `addField`: `count` fresh IDs from
the given generator, each added to the in-scope set before the next. -/
def genItems (gen : List String → Option String → String) (fieldId : String) :
    Nat → List String → List String
  | 0, _ => []
  | n + 1, acc =>
      let oid := gen acc (some fieldId)
      oid :: genItems gen fieldId n (acc ++ [oid])

/-- Translation of `addField`.  Returns the generated ID (or `none` for
an unknown type or missing parent) and the next state.  The guards
`if (parentId && !byId[parentId])` and `if (parentId)` test JS
truthiness, so an empty-string parent id falls to the root branch
unchecked - modelled by `truthyId`. -/
def addField (s : EngineState) (fieldType : String) (parentId : Option String)
    (index : Option Int) (patch : FieldPatch) : Option String × EngineState :=
  match getFieldTypeMeta fieldType with
  | none => (none, s)
  | some meta =>
      let normalized := s.normalized
      if (match truthyId parentId with
          | some p => (normalized.byId.get p).isNone
          | none => false) then (none, s)
      else
        let existingIds := Obj.keys normalized.byId
        let id := generateFieldId fieldType existingIds parentId
        let d0 := applyPatch (applyPatch { id := "", fieldType := "" } meta.defaultProps) patch
        let d1 := { d0 with id := id, fieldType := fieldType }
        let count := meta.defaultOptionCount.getD
          (if meta.hasOptions || meta.hasMatrix then 3 else 0)
        let d2 :=
          if meta.hasOptions ∧ count > 0 ∧ (d1.options.getD []).isEmpty then
            { d1 with options := some ((genItems generateOptionId id count []).map
                fun oid => { id := oid, value := "" }) }
          else d1
        let d3 :=
          if meta.hasMatrix ∧ count > 0 then
            let dr := if (d2.rows.getD []).isEmpty then
                { d2 with rows := some ((genItems generateRowId id count []).map
                    fun rid => ({ id := rid, value := "" } : MatrixRow)) }
              else d2
            if (dr.columns.getD []).isEmpty then
              { dr with columns := some ((genItems generateColumnId id count []).map
                  fun cid => ({ id := cid, value := "" } : MatrixColumn)) }
            else dr
          else d2
        match truthyId parentId with
        | some p =>
            match normalized.byId.get p with
            | some parent =>
                let childIds := insertAt parent.childIds id index
                let byId1 := normalized.byId.set p { parent with childIds := childIds }
                let byId2 := byId1.set id ⟨d3, some p, [], 0⟩
                let byId3 := reindexChildren byId2 childIds
                (some id, { s with normalized := ⟨byId3, normalized.rootIds⟩ })
            | none => (none, s)
        | none =>
            let rootIds := insertAt normalized.rootIds id index
            let byId2 := normalized.byId.set id ⟨d3, none, [], 0⟩
            let byId3 := reindexChildren byId2 rootIds
            (some id, { s with normalized := ⟨byId3, rootIds⟩ })

/-- Translation of `updateField`: a patch that changes `id` is a rename
(rejected on collision; re-keys the entry, rewrites the reference in the
parent child list or root list and the `parentId` of every direct
child); otherwise the patch is merged in place.  The rename branch's
`if (node.parentId)` tests JS truthiness (`truthyId`): an empty-string
parent id takes the root-list branch. -/
def updateField (s : EngineState) (fieldId : String) (patch : FieldPatch) :
    Bool × EngineState :=
  match s.normalized.byId.get fieldId with
  | none => (false, s)
  | some node =>
      let isRename := match patch.id with
        | some newId => newId != fieldId
        | none => false
      if isRename then
        let newId := patch.id.getD fieldId
        if (s.normalized.byId.get newId).isSome then (false, s)
        else
          let newDef := applyPatch node.definition patch
          let byId1 := (s.normalized.byId.del fieldId).set newId { node with definition := newDef }
          let step2 : Obj FieldNode × List String :=
            match truthyId node.parentId with
            | some p =>
                match Obj.get byId1 p with
                | some parent =>
                    (Obj.set byId1 p
                      { parent with childIds := parent.childIds.map (fun c => if c = fieldId then newId else c) },
                      s.normalized.rootIds)
                | none => (byId1, s.normalized.rootIds)
            | none =>
                (byId1, s.normalized.rootIds.map (fun r => if r = fieldId then newId else r))
          let byId3 := node.childIds.foldl
            (fun acc childId =>
              match Obj.get acc childId with
              | some child => acc.set childId { child with parentId := some newId }
              | none => acc)
            step2.1
          (true, { s with normalized := ⟨byId3, step2.2⟩ })
      else
        match patchFieldFn s.normalized fieldId (fun d => some (applyPatch d patch)) with
        | some nd => (true, { s with normalized := nd })
        | none => (false, s)

/-- Translation of `removeField`: drop the field and its descendants,
detach it from its parent child list or the root list, and reindex the
shortened sibling list.  `if (node.parentId && byId[node.parentId])`
tests JS truthiness (`truthyId`): an empty-string parent id takes the
root branch, leaving that parent's child list untouched. -/
def removeField (s : EngineState) (fieldId : String) : Bool × EngineState :=
  match s.normalized.byId.get fieldId with
  | none => (false, s)
  | some node =>
      let toRemove := fieldId :: collectDescendants s.normalized.byId fieldId
      let byId1 := s.normalized.byId.filter (fun e => e.1 ∉ toRemove)
      match truthyId node.parentId with
      | some p =>
          match Obj.get byId1 p with
          | some parent =>
              let childIds := parent.childIds.filter (fun c => c ≠ fieldId)
              let byId2 := Obj.set byId1 p { parent with childIds := childIds }
              let byId3 := reindexChildren byId2 childIds
              (true, { s with normalized := ⟨byId3, s.normalized.rootIds⟩ })
          | none =>
              let rootIds := s.normalized.rootIds.filter (fun r => r ≠ fieldId)
              let byId3 := reindexChildren byId1 rootIds
              (true, { s with normalized := ⟨byId3, rootIds⟩ })
      | none =>
          let rootIds := s.normalized.rootIds.filter (fun r => r ≠ fieldId)
          let byId3 := reindexChildren byId1 rootIds
          (true, { s with normalized := ⟨byId3, rootIds⟩ })

/-- Translation of `moveField`.  `toParentId` distinguishes omitted
(keep the current parent) from explicit null (move to root).  The
`targetParentId === fieldId` check is a plain equality, but every other
guard on the target and on the source parent (`if (targetParentId)`,
`if (fromParentId && ...)`) tests JS truthiness, so an empty-string id
means root level - modelled by `truthyId`.  The inner `none` fallbacks
for the target parent after detachment are unreachable: detachment
never changes the key set. -/
def moveField (s : EngineState) (fieldId : String) (toIndex : Int)
    (toParentId : Option (Option String)) : Bool × EngineState :=
  match s.normalized.byId.get fieldId with
  | none => (false, s)
  | some node =>
      let fromParentId := node.parentId
      let targetParentId := match toParentId with
        | none => fromParentId
        | some t => t
      if targetParentId = some fieldId then (false, s)
      else if match truthyId targetParentId with
        | some p => (s.normalized.byId.get p).isNone
        | none => false then (false, s)
      else if (match truthyId targetParentId with
        | some p => decide (p ∈ collectDescendants s.normalized.byId fieldId)
        | none => false) then (false, s)
      else
        let detach : Obj FieldNode × List String :=
          match truthyId fromParentId with
          | some fp =>
              match s.normalized.byId.get fp with
              | some parent =>
                  let childIds := parent.childIds.filter (fun c => c ≠ fieldId)
                  (reindexChildren (Obj.set s.normalized.byId fp { parent with childIds := childIds })
                    childIds, s.normalized.rootIds)
              | none =>
                  let rootIds := s.normalized.rootIds.filter (fun r => r ≠ fieldId)
                  (reindexChildren s.normalized.byId rootIds, rootIds)
          | none =>
              let rootIds := s.normalized.rootIds.filter (fun r => r ≠ fieldId)
              (reindexChildren s.normalized.byId rootIds, rootIds)
        match truthyId targetParentId with
        | some p =>
            match Obj.get detach.1 p with
            | some parent =>
                let childIds := insertAt parent.childIds fieldId (some toIndex)
                let byId2 := Obj.set (Obj.set detach.1 p { parent with childIds := childIds }) fieldId
                  { node with parentId := some p }
                let byId3 := reindexChildren byId2 childIds
                (true, { s with normalized := ⟨byId3, detach.2⟩ })
            | none => (true, { s with normalized := ⟨detach.1, detach.2⟩ })
        | none =>
            let rootIds := insertAt detach.2 fieldId (some toIndex)
            let byId2 := Obj.set detach.1 fieldId { node with parentId := none }
            let byId3 := reindexChildren byId2 rootIds
            (true, { s with normalized := ⟨byId3, rootIds⟩ })

/-- Translation of `updateOption`: replace the matching option value;
`false` when the field is missing, the option list is missing, or no
option actually changes. -/
def updateOption (s : EngineState) (fieldId optionId value : String) :
    Bool × EngineState :=
  let result := patchFieldFn s.normalized fieldId fun d =>
    match d.options with
    | none => none
    | some opts =>
        let next := opts.map (fun o =>
          if o.id = optionId then (if o.value = value then o else { o with value := value })
          else o)
        if opts.any (fun o => o.id == optionId && o.value != value) then
          some { d with options := some next }
        else none
  match result with
  | some nd => (true, { s with normalized := nd })
  | none => (false, s)

/-- Translation of `updateRow`. -/
def updateRow (s : EngineState) (fieldId rowId value : String) :
    Bool × EngineState :=
  let result := patchFieldFn s.normalized fieldId fun d =>
    match d.rows with
    | none => none
    | some rows =>
        let next := rows.map (fun r =>
          if r.id = rowId then (if r.value = value then r else { r with value := value })
          else r)
        if rows.any (fun r => r.id == rowId && r.value != value) then
          some { d with rows := some next }
        else none
  match result with
  | some nd => (true, { s with normalized := nd })
  | none => (false, s)

/-- Translation of `updateColumn`. -/
def updateColumn (s : EngineState) (fieldId columnId value : String) :
    Bool × EngineState :=
  let result := patchFieldFn s.normalized fieldId fun d =>
    match d.columns with
    | none => none
    | some cols =>
        let next := cols.map (fun c =>
          if c.id = columnId then (if c.value = value then c else { c with value := value })
          else c)
        if cols.any (fun c => c.id == columnId && c.value != value) then
          some { d with columns := some next }
        else none
  match result with
  | some nd => (true, { s with normalized := nd })
  | none => (false, s)

/-- The four structural edit operations of the claims. -/
inductive EditOp where
  | add (fieldType : String) (parentId : Option String) (index : Option Int) (patch : FieldPatch)
  | update (fieldId : String) (patch : FieldPatch)
  | remove (fieldId : String)
  | move (fieldId : String) (toIndex : Int) (toParentId : Option (Option String))
deriving DecidableEq

/-- Apply one structural edit, keeping the next state. -/
def applyEdit (s : EngineState) : EditOp → EngineState
  | .add fieldType parentId index patch => (addField s fieldType parentId index patch).2
  | .update fieldId patch => (updateField s fieldId patch).2
  | .remove fieldId => (removeField s fieldId).2
  | .move fieldId toIndex toParentId => (moveField s fieldId toIndex toParentId).2

/-- Apply a sequence of structural edits. -/
def applyEdits (s : EngineState) (ops : List EditOp) : EngineState :=
  ops.foldl applyEdit s

/-- C10: every structural edit - add, update (including rename), remove
and move - leaves the response map unchanged: removing a field or a
whole section does not delete the responses of the removed fields, and
renaming a field does not re-key its response. -/
theorem edits_preserve_responses (s : EngineState) (op : EditOp) :
    (applyEdit s op).responses = s.responses := by
  cases op with
  | add fieldType parentId index patch =>
      show (addField s fieldType parentId index patch).2.responses = s.responses
      unfold addField
      cases hm : getFieldTypeMeta fieldType with
      | none => rfl
      | some meta =>
          dsimp only
          repeat' first
            | rfl
            | split
  | update fieldId patch =>
      show (updateField s fieldId patch).2.responses = s.responses
      unfold updateField
      cases hg : Obj.get s.normalized.byId fieldId with
      | none => rfl
      | some node =>
          dsimp only
          repeat' first
            | rfl
            | split
  | remove fieldId =>
      show (removeField s fieldId).2.responses = s.responses
      unfold removeField
      cases hg : Obj.get s.normalized.byId fieldId with
      | none => rfl
      | some node =>
          dsimp only
          repeat' first
            | rfl
            | split
  | move fieldId toIndex toParentId =>
      show (moveField s fieldId toIndex toParentId).2.responses = s.responses
      unfold moveField
      cases hg : Obj.get s.normalized.byId fieldId with
      | none => rfl
      | some node =>
          dsimp only
          repeat' first
            | rfl
            | split

/-- The per-item replacement of the update loop: the matching item gets
the new value (identity when unchanged), others pass through. -/
def setItemValue (itemId value : String) (o : FieldOption) : FieldOption :=
  if o.id = itemId then (if o.value = value then o else { o with value := value }) else o

/-- A field node with its option list replaced. -/
def nodeWithOptions (node : FieldNode) (opts : List FieldOption) : FieldNode :=
  { node with definition := { node.definition with options := some opts } }

/-- Success effect of `updateOption`: the stored node gets the mapped
option list, and the root list and responses are untouched. -/
theorem updateOption_effect (s : EngineState) (fieldId itemId value : String)
    (node : FieldNode) (opts : List FieldOption)
    (hnode : s.normalized.byId.get fieldId = some node)
    (hopts : node.definition.options = some opts)
    (hex : ∃ o ∈ opts, o.id = itemId ∧ o.value ≠ value) :
    (updateOption s fieldId itemId value).2.normalized.byId =
      Obj.set s.normalized.byId fieldId
        (nodeWithOptions node (opts.map (setItemValue itemId value))) ∧
    (updateOption s fieldId itemId value).2.normalized.rootIds = s.normalized.rootIds ∧
    (updateOption s fieldId itemId value).2.responses = s.responses := by
  unfold updateOption patchFieldFn
  rw [hnode]
  dsimp only
  rw [hopts]
  dsimp only
  rw [if_pos]
  · exact ⟨rfl, rfl, rfl⟩
  · rw [List.any_eq_true]
    obtain ⟨o, ho, hid, hval⟩ := hex
    refine ⟨o, ho, ?_⟩
    rw [Bool.and_eq_true, beq_iff_eq, bne_iff_ne]
    exact ⟨hid, hval⟩

/-- Behavior of `updateOption`: success condition and failure frame. -/
theorem updateOption_spec (s : EngineState) (fieldId itemId value : String) :
    ((updateOption s fieldId itemId value).1 = true ↔
      (∃ node items, s.normalized.byId.get fieldId = some node ∧
        node.definition.options = some items ∧
        ∃ o ∈ items, o.id = itemId ∧ o.value ≠ value)) ∧
    ((updateOption s fieldId itemId value).1 = false →
      (updateOption s fieldId itemId value).2 = s) := by
  unfold updateOption patchFieldFn
  cases hg : Obj.get s.normalized.byId fieldId with
  | none =>
      refine ⟨?_, fun _ => rfl⟩
      simp only [Bool.false_eq_true, false_iff]
      rintro ⟨node, items, hnode, -⟩
      simp [hg] at hnode
  | some node =>
      dsimp only
      cases hitems : node.definition.options with
      | none =>
          refine ⟨?_, fun _ => rfl⟩
          simp only [Bool.false_eq_true, false_iff]
          rintro ⟨node2, items, hnode, hop, -⟩
          simp only [Option.some.injEq] at hnode
          subst hnode
          simp [hitems] at hop
      | some items =>
          dsimp only
          by_cases hany : items.any (fun o => o.id == itemId && o.value != value) = true
          · rw [if_pos hany]
            refine ⟨?_, ?_⟩
            · simp only [true_iff]
              refine ⟨node, items, rfl, hitems, ?_⟩
              rw [List.any_eq_true] at hany
              obtain ⟨o, ho, hcond⟩ := hany
              rw [Bool.and_eq_true, beq_iff_eq, bne_iff_ne] at hcond
              exact ⟨o, ho, hcond.1, hcond.2⟩
            · intro hc
              simp at hc
          · rw [if_neg hany]
            refine ⟨?_, fun _ => rfl⟩
            simp only [Bool.false_eq_true, false_iff]
            rintro ⟨node2, items2, hnode, hop, o, ho, hid, hval⟩
            simp only [Option.some.injEq] at hnode
            subst hnode
            rw [hitems] at hop
            injection hop with hop
            subst hop
            apply hany
            rw [List.any_eq_true]
            refine ⟨o, ho, ?_⟩
            rw [Bool.and_eq_true, beq_iff_eq, bne_iff_ne]
            exact ⟨hid, hval⟩

/-- The per-row replacement of the update loop. -/
def setRowValue (itemId value : String) (r : MatrixRow) : MatrixRow :=
  if r.id = itemId then (if r.value = value then r else { r with value := value }) else r

/-- A field node with its row list replaced. -/
def nodeWithRows (node : FieldNode) (rows : List MatrixRow) : FieldNode :=
  { node with definition := { node.definition with rows := some rows } }

/-- Success effect of `updateRow`: the stored node gets the mapped row
list, and the root list and responses are untouched. -/
theorem updateRow_effect (s : EngineState) (fieldId itemId value : String)
    (node : FieldNode) (rows : List MatrixRow)
    (hnode : s.normalized.byId.get fieldId = some node)
    (hrows : node.definition.rows = some rows)
    (hex : ∃ r ∈ rows, r.id = itemId ∧ r.value ≠ value) :
    (updateRow s fieldId itemId value).2.normalized.byId =
      Obj.set s.normalized.byId fieldId
        (nodeWithRows node (rows.map (setRowValue itemId value))) ∧
    (updateRow s fieldId itemId value).2.normalized.rootIds = s.normalized.rootIds ∧
    (updateRow s fieldId itemId value).2.responses = s.responses := by
  unfold updateRow patchFieldFn
  rw [hnode]
  dsimp only
  rw [hrows]
  dsimp only
  rw [if_pos]
  · exact ⟨rfl, rfl, rfl⟩
  · rw [List.any_eq_true]
    obtain ⟨o, ho, hid, hval⟩ := hex
    refine ⟨o, ho, ?_⟩
    rw [Bool.and_eq_true, beq_iff_eq, bne_iff_ne]
    exact ⟨hid, hval⟩

/-- The per-column replacement of the update loop. -/
def setColValue (itemId value : String) (c : MatrixColumn) : MatrixColumn :=
  if c.id = itemId then (if c.value = value then c else { c with value := value }) else c

/-- A field node with its column list replaced. -/
def nodeWithColumns (node : FieldNode) (cols : List MatrixColumn) : FieldNode :=
  { node with definition := { node.definition with columns := some cols } }

/-- Success effect of `updateColumn`: the stored node gets the mapped
column list, and the root list and responses are untouched. -/
theorem updateColumn_effect (s : EngineState) (fieldId itemId value : String)
    (node : FieldNode) (cols : List MatrixColumn)
    (hnode : s.normalized.byId.get fieldId = some node)
    (hcols : node.definition.columns = some cols)
    (hex : ∃ c ∈ cols, c.id = itemId ∧ c.value ≠ value) :
    (updateColumn s fieldId itemId value).2.normalized.byId =
      Obj.set s.normalized.byId fieldId
        (nodeWithColumns node (cols.map (setColValue itemId value))) ∧
    (updateColumn s fieldId itemId value).2.normalized.rootIds = s.normalized.rootIds ∧
    (updateColumn s fieldId itemId value).2.responses = s.responses := by
  unfold updateColumn patchFieldFn
  rw [hnode]
  dsimp only
  rw [hcols]
  dsimp only
  rw [if_pos]
  · exact ⟨rfl, rfl, rfl⟩
  · rw [List.any_eq_true]
    obtain ⟨o, ho, hid, hval⟩ := hex
    refine ⟨o, ho, ?_⟩
    rw [Bool.and_eq_true, beq_iff_eq, bne_iff_ne]
    exact ⟨hid, hval⟩

/-- Behavior of `updateRow`: success condition and failure frame. -/
theorem updateRow_spec (s : EngineState) (fieldId itemId value : String) :
    ((updateRow s fieldId itemId value).1 = true ↔
      (∃ node items, s.normalized.byId.get fieldId = some node ∧
        node.definition.rows = some items ∧
        ∃ o ∈ items, o.id = itemId ∧ o.value ≠ value)) ∧
    ((updateRow s fieldId itemId value).1 = false →
      (updateRow s fieldId itemId value).2 = s) := by
  unfold updateRow patchFieldFn
  cases hg : Obj.get s.normalized.byId fieldId with
  | none =>
      refine ⟨?_, fun _ => rfl⟩
      simp only [Bool.false_eq_true, false_iff]
      rintro ⟨node, items, hnode, -⟩
      simp [hg] at hnode
  | some node =>
      dsimp only
      cases hitems : node.definition.rows with
      | none =>
          refine ⟨?_, fun _ => rfl⟩
          simp only [Bool.false_eq_true, false_iff]
          rintro ⟨node2, items, hnode, hop, -⟩
          simp only [Option.some.injEq] at hnode
          subst hnode
          simp [hitems] at hop
      | some items =>
          dsimp only
          by_cases hany : items.any (fun o => o.id == itemId && o.value != value) = true
          · rw [if_pos hany]
            refine ⟨?_, ?_⟩
            · simp only [true_iff]
              refine ⟨node, items, rfl, hitems, ?_⟩
              rw [List.any_eq_true] at hany
              obtain ⟨o, ho, hcond⟩ := hany
              rw [Bool.and_eq_true, beq_iff_eq, bne_iff_ne] at hcond
              exact ⟨o, ho, hcond.1, hcond.2⟩
            · intro hc
              simp at hc
          · rw [if_neg hany]
            refine ⟨?_, fun _ => rfl⟩
            simp only [Bool.false_eq_true, false_iff]
            rintro ⟨node2, items2, hnode, hop, o, ho, hid, hval⟩
            simp only [Option.some.injEq] at hnode
            subst hnode
            rw [hitems] at hop
            injection hop with hop
            subst hop
            apply hany
            rw [List.any_eq_true]
            refine ⟨o, ho, ?_⟩
            rw [Bool.and_eq_true, beq_iff_eq, bne_iff_ne]
            exact ⟨hid, hval⟩

/-- Behavior of `updateColumn`: success condition and failure frame. -/
theorem updateColumn_spec (s : EngineState) (fieldId itemId value : String) :
    ((updateColumn s fieldId itemId value).1 = true ↔
      (∃ node items, s.normalized.byId.get fieldId = some node ∧
        node.definition.columns = some items ∧
        ∃ o ∈ items, o.id = itemId ∧ o.value ≠ value)) ∧
    ((updateColumn s fieldId itemId value).1 = false →
      (updateColumn s fieldId itemId value).2 = s) := by
  unfold updateColumn patchFieldFn
  cases hg : Obj.get s.normalized.byId fieldId with
  | none =>
      refine ⟨?_, fun _ => rfl⟩
      simp only [Bool.false_eq_true, false_iff]
      rintro ⟨node, items, hnode, -⟩
      simp [hg] at hnode
  | some node =>
      dsimp only
      cases hitems : node.definition.columns with
      | none =>
          refine ⟨?_, fun _ => rfl⟩
          simp only [Bool.false_eq_true, false_iff]
          rintro ⟨node2, items, hnode, hop, -⟩
          simp only [Option.some.injEq] at hnode
          subst hnode
          simp [hitems] at hop
      | some items =>
          dsimp only
          by_cases hany : items.any (fun o => o.id == itemId && o.value != value) = true
          · rw [if_pos hany]
            refine ⟨?_, ?_⟩
            · simp only [true_iff]
              refine ⟨node, items, rfl, hitems, ?_⟩
              rw [List.any_eq_true] at hany
              obtain ⟨o, ho, hcond⟩ := hany
              rw [Bool.and_eq_true, beq_iff_eq, bne_iff_ne] at hcond
              exact ⟨o, ho, hcond.1, hcond.2⟩
            · intro hc
              simp at hc
          · rw [if_neg hany]
            refine ⟨?_, fun _ => rfl⟩
            simp only [Bool.false_eq_true, false_iff]
            rintro ⟨node2, items2, hnode, hop, o, ho, hid, hval⟩
            simp only [Option.some.injEq] at hnode
            subst hnode
            rw [hitems] at hop
            injection hop with hop
            subst hop
            apply hany
            rw [List.any_eq_true]
            refine ⟨o, ho, ?_⟩
            rw [Bool.and_eq_true, beq_iff_eq, bne_iff_ne]
            exact ⟨hid, hval⟩

/-! ## Claim C9: update of options, rows and columns -/

/-- The concrete state for the C9 counterexample: one radio field `f`
with a single option `o1` of value `x`. -/
def w9opt : FieldOption := { id := "o1", value := "x" }

/-- The definition core of the single field in the C9 state. -/
def w9core : FieldDefCore := { id := "f", fieldType := "radio", options := some [w9opt] }

/-- The stored node for that field after loading. -/
def w9node : FieldNode := { definition := w9core, parentId := none, childIds := [], index := 0 }

def w9state : EngineState := loadDefinition [FieldDef.mk w9core none]

/-- Counterexample to C9 as stated: `updateOption` returns `false` on a
call whose field and option list both exist, because the new value
equals the current one (the same happens when the item ID is absent).
The claim said false is returned exactly when the field or its item
list is missing. -/
theorem updateOption_claim_counterexample :
    (updateOption w9state "f" "o1" "x").1 = false ∧
    (∃ node, w9state.normalized.byId.get "f" = some node ∧
      node.definition.options = some [w9opt]) := by
  constructor
  · decide
  · exact ⟨w9node, by decide, rfl⟩

/-- Amended C9: each of `updateOption` / `updateRow` / `updateColumn`
returns true exactly when the field exists, its item list exists, and
some listed item carries the requested ID with a different value - in
which case the matching item values are replaced and nothing else in
the state changes; in every other case (missing field, missing list,
unknown item ID, or unchanged value - a structural no-op) it returns
false and the state is unchanged. -/
theorem update_items_contract (s : EngineState) (fieldId itemId value : String) :
    ((updateOption s fieldId itemId value).1 = true ↔
      (∃ node opts, s.normalized.byId.get fieldId = some node ∧
        node.definition.options = some opts ∧
        ∃ o ∈ opts, o.id = itemId ∧ o.value ≠ value)) ∧
    ((updateOption s fieldId itemId value).1 = false →
      (updateOption s fieldId itemId value).2 = s) ∧
    (∀ node opts, s.normalized.byId.get fieldId = some node →
      node.definition.options = some opts →
      (∃ o ∈ opts, o.id = itemId ∧ o.value ≠ value) →
      (updateOption s fieldId itemId value).2.normalized.byId =
        Obj.set s.normalized.byId fieldId
          (nodeWithOptions node (opts.map (setItemValue itemId value))) ∧
      (updateOption s fieldId itemId value).2.normalized.rootIds = s.normalized.rootIds ∧
      (updateOption s fieldId itemId value).2.responses = s.responses) ∧
    ((updateRow s fieldId itemId value).1 = true ↔
      (∃ node rows, s.normalized.byId.get fieldId = some node ∧
        node.definition.rows = some rows ∧
        ∃ r ∈ rows, r.id = itemId ∧ r.value ≠ value)) ∧
    ((updateRow s fieldId itemId value).1 = false →
      (updateRow s fieldId itemId value).2 = s) ∧
    (∀ node rows, s.normalized.byId.get fieldId = some node →
      node.definition.rows = some rows →
      (∃ r ∈ rows, r.id = itemId ∧ r.value ≠ value) →
      (updateRow s fieldId itemId value).2.normalized.byId =
        Obj.set s.normalized.byId fieldId
          (nodeWithRows node (rows.map (setRowValue itemId value))) ∧
      (updateRow s fieldId itemId value).2.normalized.rootIds = s.normalized.rootIds ∧
      (updateRow s fieldId itemId value).2.responses = s.responses) ∧
    ((updateColumn s fieldId itemId value).1 = true ↔
      (∃ node cols, s.normalized.byId.get fieldId = some node ∧
        node.definition.columns = some cols ∧
        ∃ c ∈ cols, c.id = itemId ∧ c.value ≠ value)) ∧
    ((updateColumn s fieldId itemId value).1 = false →
      (updateColumn s fieldId itemId value).2 = s) ∧
    (∀ node cols, s.normalized.byId.get fieldId = some node →
      node.definition.columns = some cols →
      (∃ c ∈ cols, c.id = itemId ∧ c.value ≠ value) →
      (updateColumn s fieldId itemId value).2.normalized.byId =
        Obj.set s.normalized.byId fieldId
          (nodeWithColumns node (cols.map (setColValue itemId value))) ∧
      (updateColumn s fieldId itemId value).2.normalized.rootIds = s.normalized.rootIds ∧
      (updateColumn s fieldId itemId value).2.responses = s.responses) := by
  have hopt := updateOption_spec s fieldId itemId value
  have hrow := updateRow_spec s fieldId itemId value
  have hcol := updateColumn_spec s fieldId itemId value
  exact ⟨hopt.1, hopt.2,
    fun node opts h1 h2 h3 => updateOption_effect s fieldId itemId value node opts h1 h2 h3,
    hrow.1, hrow.2,
    fun node rows h1 h2 h3 => updateRow_effect s fieldId itemId value node rows h1 h2 h3,
    hcol.1, hcol.2,
    fun node cols h1 h2 h3 => updateColumn_effect s fieldId itemId value node cols h1 h2 h3⟩

/-- Witness for amended C9 at a concrete state: changing the value of
an existing option succeeds and replaces it. -/
theorem update_items_contract_witness :
    (updateOption w9state "f" "o1" "y").1 = true ∧
    ((updateOption w9state "f" "o1" "y").1 = false → (updateOption w9state "f" "o1" "y").2 = w9state) := by
  have h := update_items_contract w9state "f" "o1" "y"
  refine ⟨h.1.mpr ?_, h.2.1⟩
  exact ⟨w9node, [w9opt], by decide, rfl, w9opt, by decide, rfl, by decide⟩

/-! ## Association-list lemmas for the structural-edit proofs -/

theorem Obj.get_nil {α} (k : String) : Obj.get ([] : Obj α) k = none := rfl

theorem Obj.get_cons {α} (e : String × α) (rest : Obj α) (k : String) :
    Obj.get (e :: rest) k = if e.1 = k then some e.2 else Obj.get rest k := by
  by_cases h : e.1 = k
  · simp [Obj.get, List.find?, h]
  · have hb : (e.1 == k) = false := by simp [h]
    simp [Obj.get, List.find?, hb, h]

theorem Obj.get_set {α} (o : Obj α) (k : String) (v : α) (k' : String) :
    Obj.get (Obj.set o k v) k' = if k' = k then some v else Obj.get o k' := by
  induction o with
  | nil =>
      show Obj.get [(k, v)] k' = _
      rw [Obj.get_cons]
      by_cases h : k' = k
      · rw [if_pos h.symm, if_pos h]
      · rw [if_neg (fun hc : k = k' => h hc.symm), if_neg h]
  | cons e rest ih =>
      simp only [Obj.set]
      by_cases he : e.1 = k
      · rw [if_pos he, Obj.get_cons, Obj.get_cons]
        by_cases h : k' = k
        · rw [if_pos h, if_pos h.symm]
        · rw [if_neg h, if_neg (fun hc : k = k' => h hc.symm),
            if_neg (fun hc : e.1 = k' => h (hc ▸ he ▸ rfl))]
      · rw [if_neg he, Obj.get_cons, Obj.get_cons, ih]
        by_cases h : k' = k
        · rw [if_pos h, if_pos h, if_neg (fun hc : e.1 = k' => he (hc.trans h))]
        · rw [if_neg h, if_neg h]

theorem Obj.keys_cons {α} (e : String × α) (rest : Obj α) :
    Obj.keys (e :: rest) = e.1 :: Obj.keys rest := rfl

theorem Obj.keys_set {α} (o : Obj α) (k : String) (v : α) :
    Obj.keys (Obj.set o k v) =
      if k ∈ Obj.keys o then Obj.keys o else Obj.keys o ++ [k] := by
  induction o with
  | nil => simp [Obj.set, Obj.keys]
  | cons e rest ih =>
      simp only [Obj.set]
      by_cases he : e.1 = k
      · rw [if_pos he, Obj.keys_cons, Obj.keys_cons,
          if_pos (by rw [he]; exact List.mem_cons_self _ _)]
        rw [he]
      · rw [if_neg he, Obj.keys_cons, Obj.keys_cons, ih]
        by_cases hm : k ∈ Obj.keys rest
        · rw [if_pos hm, if_pos (List.mem_cons_of_mem _ hm)]
        · rw [if_neg hm, if_neg (by
            intro hc
            rcases List.mem_cons.mp hc with hc | hc
            · exact he hc.symm
            · exact hm hc)]
          rfl

theorem Obj.keys_set_of_mem {α} {o : Obj α} {k : String} (v : α)
    (h : k ∈ Obj.keys o) : Obj.keys (Obj.set o k v) = Obj.keys o := by
  rw [Obj.keys_set, if_pos h]

theorem Obj.mem_of_get_eq_some {α} {o : Obj α} {k : String} {v : α}
    (h : Obj.get o k = some v) : (k, v) ∈ o := by
  unfold Obj.get at h
  cases hf : List.find? (fun e => e.1 == k) o with
  | none => rw [hf] at h; exact absurd h (by simp)
  | some e =>
      rw [hf] at h
      have hm := List.mem_of_find?_eq_some hf
      have hp := List.find?_some hf
      have hk : e.1 = k := by simpa using hp
      have hv : e.2 = v := by simpa using h
      have : e = (k, v) := Prod.ext hk hv
      rw [this] at hm
      exact hm

theorem Obj.mem_keys_of_get_eq_some {α} {o : Obj α} {k : String} {v : α}
    (h : Obj.get o k = some v) : k ∈ Obj.keys o :=
  Obj.mem_keys_of_mem (Obj.mem_of_get_eq_some h)

theorem Obj.get_isSome_of_mem_keys {α} {o : Obj α} {k : String}
    (h : k ∈ Obj.keys o) : (Obj.get o k).isSome := by
  rcases List.mem_map.mp h with ⟨e, he, hk⟩
  unfold Obj.get
  cases hf : List.find? (fun x => x.1 == k) o with
  | none =>
      exfalso
      have := List.find?_eq_none.mp hf e he
      simp [hk] at this
  | some x => simp

theorem Obj.get_del {α} (o : Obj α) (k k' : String) :
    Obj.get (Obj.del o k) k' = if k' = k then none else Obj.get o k' := by
  induction o with
  | nil => simp [Obj.del, Obj.get_nil]
  | cons e rest ih =>
      by_cases he : e.1 = k
      · have h1 : Obj.del (e :: rest) k = Obj.del rest k := by
          simp [Obj.del, List.filter_cons, he]
        rw [h1, ih, Obj.get_cons]
        by_cases h : k' = k
        · rw [if_pos h, if_pos h]
        · rw [if_neg h, if_neg h, if_neg (fun hc : e.1 = k' => h (hc ▸ he ▸ rfl))]
      · have h1 : Obj.del (e :: rest) k = e :: Obj.del rest k := by
          simp [Obj.del, List.filter_cons, he]
        rw [h1, Obj.get_cons, Obj.get_cons, ih]
        by_cases h : k' = k
        · rw [if_pos h, if_pos h, if_neg (fun hc : e.1 = k' => he (hc.trans h))]
        · rw [if_neg h, if_neg h]

theorem Obj.keys_del {α} (o : Obj α) (k : String) :
    Obj.keys (Obj.del o k) = (Obj.keys o).filter (fun x => x ≠ k) := by
  induction o with
  | nil => rfl
  | cons e rest ih =>
      by_cases he : e.1 = k
      · have h1 : Obj.del (e :: rest) k = Obj.del rest k := by
          simp [Obj.del, List.filter_cons, he]
        rw [h1, ih, Obj.keys_cons, List.filter_cons]
        simp [he]
      · have h1 : Obj.del (e :: rest) k = e :: Obj.del rest k := by
          simp [Obj.del, List.filter_cons, he]
        rw [h1, Obj.keys_cons, Obj.keys_cons, ih, List.filter_cons]
        simp [he]

/-- In-order position of the first occurrence of a key in a list. -/
def posIn : List String → String → Nat
  | [], _ => 0
  | x :: xs, k => if x = k then 0 else posIn xs k + 1

theorem posIn_lt_length {l : List String} {k : String} (h : k ∈ l) :
    posIn l k < l.length := by
  induction l with
  | nil => simp at h
  | cons x xs ih =>
      simp only [posIn]
      by_cases hx : x = k
      · simp [hx]
      · rw [if_neg hx]
        have : k ∈ xs := by
          rcases List.mem_cons.mp h with hc | hc
          · exact absurd hc.symm hx
          · exact hc
        simpa [Nat.succ_lt_succ_iff] using ih this

theorem posIn_append_left {l1 : List String} (l2 : List String) {k : String}
    (h : k ∈ l1) : posIn (l1 ++ l2) k = posIn l1 k := by
  induction l1 with
  | nil => simp at h
  | cons x xs ih =>
      simp only [List.cons_append, posIn]
      by_cases hx : x = k
      · rw [if_pos hx, if_pos hx]
      · rw [if_neg hx, if_neg hx]
        have hm : k ∈ xs := by
          rcases List.mem_cons.mp h with hc | hc
          · exact absurd hc.symm hx
          · exact hc
        show posIn (xs ++ l2) k + 1 = posIn xs k + 1
        rw [ih hm]

theorem posIn_append_right {l1 : List String} (l2 : List String) {k : String}
    (h : k ∉ l1) : posIn (l1 ++ l2) k = l1.length + posIn l2 k := by
  induction l1 with
  | nil => simp
  | cons x xs ih =>
      simp only [List.cons_append, posIn, List.length_cons]
      have hx : ¬ x = k := fun hc => h (hc ▸ List.mem_cons_self _ _)
      rw [if_neg hx]
      show posIn (xs ++ l2) k + 1 = _
      rw [ih (fun hc => h (List.mem_cons_of_mem _ hc))]
      omega

theorem posIn_get {l : List String} (hnd : l.Nodup) :
    ∀ (i : Nat) (h : i < l.length), posIn l (l.get ⟨i, h⟩) = i := by
  induction l with
  | nil => intro i h; simp at h
  | cons x xs ih =>
      intro i h
      cases i with
      | zero => simp [posIn]
      | succ j =>
          simp only [List.get_cons_succ, posIn]
          have hnd' := List.nodup_cons.mp hnd
          have hmem : xs.get ⟨j, by simpa using Nat.lt_of_succ_lt_succ h⟩ ∈ xs :=
            List.get_mem _ _ _
          rw [if_neg (fun hc => hnd'.1 (by rw [hc]; exact hmem)), ih hnd'.2]

theorem posIn_mem_eq {l : List String} {a b : String} (ha : a ∈ l)
    (h : posIn l a = posIn l b) : a = b := by
  induction l with
  | nil => simp at ha
  | cons x xs ih =>
      simp only [posIn] at h
      by_cases hxa : x = a
      · by_cases hxb : x = b
        · exact hxa ▸ hxb
        · rw [if_pos hxa, if_neg hxb] at h
          omega
      · by_cases hxb : x = b
        · rw [if_neg hxa, if_pos hxb] at h
          omega
        · rw [if_neg hxa, if_neg hxb] at h
          have ha' : a ∈ xs := by
            rcases List.mem_cons.mp ha with hc | hc
            · exact absurd hc.symm hxa
            · exact hc
          exact ih ha' (by omega)

/-! ## `insertAt` lemmas -/

theorem insertAt_perm {α} (arr : List α) (item : α) (index : Option Int) :
    (insertAt arr item index).Perm (item :: arr) := by
  cases index with
  | none => exact List.perm_append_singleton _ _
  | some i =>
      show (if i ≥ (arr.length : Int) then arr ++ [item]
        else if i ≤ 0 then item :: arr
        else arr.take i.toNat ++ item :: arr.drop i.toNat).Perm (item :: arr)
      by_cases h1 : i ≥ (arr.length : Int)
      · rw [if_pos h1]
        exact List.perm_append_singleton _ _
      · rw [if_neg h1]
        by_cases h2 : i ≤ 0
        · rw [if_pos h2]
        · rw [if_neg h2]
          have h : (arr.take i.toNat ++ item :: arr.drop i.toNat).Perm
              (item :: (arr.take i.toNat ++ arr.drop i.toNat)) := List.perm_middle
          rw [List.take_append_drop] at h
          exact h

theorem mem_insertAt {α} {arr : List α} {item x : α} {index : Option Int} :
    x ∈ insertAt arr item index ↔ x = item ∨ x ∈ arr := by
  rw [(insertAt_perm arr item index).mem_iff, List.mem_cons]

theorem insertAt_nodup {α} {arr : List α} {item : α} {index : Option Int}
    (hnd : arr.Nodup) (hni : item ∉ arr) : (insertAt arr item index).Nodup :=
  (insertAt_perm arr item index).nodup_iff.mpr (List.nodup_cons.mpr ⟨hni, hnd⟩)

/-! ## `reindexChildren` characterization -/

theorem posIn_cons_self (k : String) (xs : List String) : posIn (k :: xs) k = 0 := by
  simp [posIn]

theorem posIn_cons_ne {x k : String} (xs : List String) (h : x ≠ k) :
    posIn (x :: xs) k = posIn xs k + 1 := by
  simp [posIn, h]

theorem reindexFrom_nil (byId : Obj FieldNode) (j : Nat) :
    reindexFrom byId [] j = byId := rfl

theorem reindexFrom_cons (byId : Obj FieldNode) (id : String) (rest : List String) (j : Nat) :
    reindexFrom byId (id :: rest) j =
      reindexFrom (match Obj.get byId id with
        | some node => if node.index ≠ j then Obj.set byId id { node with index := j } else byId
        | none => byId) rest (j + 1) := rfl

theorem reindexFrom_keys (ids : List String) : ∀ (byId : Obj FieldNode) (j : Nat),
    Obj.keys (reindexFrom byId ids j) = Obj.keys byId := by
  induction ids with
  | nil => intro byId j; rfl
  | cons id rest ih =>
      intro byId j
      rw [reindexFrom_cons]
      cases hg : Obj.get byId id with
      | none => rw [ih]
      | some node =>
          dsimp only
          by_cases hi : node.index ≠ j
          · rw [if_pos hi, ih, Obj.keys_set_of_mem _ (Obj.mem_keys_of_get_eq_some hg)]
          · rw [if_neg hi, ih]

theorem reindexFrom_step_get_ne (byId : Obj FieldNode) (id : String) (j : Nat)
    {k : String} (hk : k ≠ id) :
    Obj.get (match Obj.get byId id with
      | some node => if node.index ≠ j then Obj.set byId id { node with index := j } else byId
      | none => byId) k = Obj.get byId k := by
  cases hg : Obj.get byId id with
  | none => rfl
  | some node =>
      dsimp only
      by_cases hi : node.index ≠ j
      · rw [if_pos hi, Obj.get_set, if_neg hk]
      · rw [if_neg hi]

theorem reindexFrom_get (ids : List String) (hnd : ids.Nodup) :
    ∀ (byId : Obj FieldNode) (j : Nat) (k : String),
    Obj.get (reindexFrom byId ids j) k =
      if k ∈ ids then (Obj.get byId k).map (fun n => { n with index := j + posIn ids k })
      else Obj.get byId k := by
  induction ids with
  | nil =>
      intro byId j k
      rw [reindexFrom_nil]
      simp
  | cons id rest ih =>
      intro byId j k
      have hnd' := List.nodup_cons.mp hnd
      rw [reindexFrom_cons]
      by_cases hk : k = id
      · subst hk
        rw [ih hnd'.2, if_neg hnd'.1, if_pos (List.mem_cons_self _ _), posIn_cons_self]
        cases hg : Obj.get byId k with
        | none =>
            dsimp only
            exact hg
        | some node =>
            dsimp only
            by_cases hi : node.index ≠ j
            · rw [if_pos hi, Obj.get_set, if_pos rfl]
              simp [hg]
            · rw [if_neg hi]
              push_neg at hi
              rw [hg]
              simp only [Option.map_some']
              rw [Nat.add_zero, ← hi]
      · rw [ih hnd'.2, reindexFrom_step_get_ne byId id j hk]
        by_cases hkr : k ∈ rest
        · rw [if_pos hkr, if_pos (List.mem_cons_of_mem _ hkr),
            posIn_cons_ne rest (fun hc : id = k => hk hc.symm)]
          have : j + 1 + posIn rest k = j + (posIn rest k + 1) := by omega
          rw [this]
        · rw [if_neg hkr, if_neg (by
            intro hc
            rcases List.mem_cons.mp hc with hc | hc
            · exact hk hc
            · exact hkr hc)]

theorem reindexFrom_get_some (ids : List String) :
    ∀ (byId : Obj FieldNode) (j : Nat) (k : String) (n' : FieldNode),
    Obj.get (reindexFrom byId ids j) k = some n' →
    ∃ n, Obj.get byId k = some n ∧ n' = { n with index := n'.index } := by
  induction ids with
  | nil =>
      intro byId j k n' h
      rw [reindexFrom_nil] at h
      exact ⟨n', h, rfl⟩
  | cons id rest ih =>
      intro byId j k n' h
      rw [reindexFrom_cons] at h
      obtain ⟨n2, hn2, hn'⟩ := ih _ _ _ _ h
      by_cases hk : k = id
      · subst hk
        cases hg : Obj.get byId k with
        | none => simp [hg] at hn2
        | some node =>
            rw [hg] at hn2
            dsimp only at hn2
            by_cases hi : node.index ≠ j
            · rw [if_pos hi, Obj.get_set, if_pos rfl] at hn2
              refine ⟨node, rfl, ?_⟩
              cases node
              simp only [Option.some.injEq] at hn2
              rw [hn', ← hn2]
            · rw [if_neg hi] at hn2
              rw [hg] at hn2
              refine ⟨node, rfl, ?_⟩
              simp only [Option.some.injEq] at hn2
              rw [hn', ← hn2]
      · rw [reindexFrom_step_get_ne byId id j hk] at hn2
        exact ⟨n2, hn2, hn'⟩

theorem reindexFrom_isSome (ids : List String) :
    ∀ (byId : Obj FieldNode) (j : Nat) (k : String),
    (Obj.get (reindexFrom byId ids j) k).isSome = (Obj.get byId k).isSome := by
  induction ids with
  | nil => intro byId j k; rfl
  | cons id rest ih =>
      intro byId j k
      rw [reindexFrom_cons, ih]
      by_cases hk : k = id
      · subst hk
        cases hg : Obj.get byId k with
        | none => rw [hg]
        | some node =>
            dsimp only
            by_cases hi : node.index ≠ j
            · rw [if_pos hi, Obj.get_set, if_pos rfl]
              rfl
            · rw [if_neg hi, hg]
      · rw [reindexFrom_step_get_ne byId id j hk]

/-! ## The child `parentId` rewrite loop of a rename -/

theorem setParents_keys (ids : List String) (newId : String) :
    ∀ (byId : Obj FieldNode),
    Obj.keys (ids.foldl (fun acc childId =>
      match Obj.get acc childId with
      | some child => Obj.set acc childId { child with parentId := some newId }
      | none => acc) byId) = Obj.keys byId := by
  induction ids with
  | nil => intro byId; rfl
  | cons id rest ih =>
      intro byId
      rw [List.foldl_cons, ih]
      cases hg : Obj.get byId id with
      | none => rfl
      | some child =>
          dsimp only
          rw [Obj.keys_set_of_mem _ (Obj.mem_keys_of_get_eq_some hg)]

theorem setParents_step_get_ne (byId : Obj FieldNode) (id newId : String)
    {k : String} (hk : k ≠ id) :
    Obj.get (match Obj.get byId id with
      | some child => Obj.set byId id { child with parentId := some newId }
      | none => byId) k = Obj.get byId k := by
  cases hg : Obj.get byId id with
  | none => rfl
  | some child =>
      dsimp only
      rw [Obj.get_set, if_neg hk]

theorem setParents_get (ids : List String) (newId : String) (hnd : ids.Nodup) :
    ∀ (byId : Obj FieldNode) (k : String),
    Obj.get (ids.foldl (fun acc childId =>
      match Obj.get acc childId with
      | some child => Obj.set acc childId { child with parentId := some newId }
      | none => acc) byId) k =
      if k ∈ ids then (Obj.get byId k).map (fun n => { n with parentId := some newId })
      else Obj.get byId k := by
  induction ids with
  | nil =>
      intro byId k
      simp
  | cons id rest ih =>
      intro byId k
      have hnd' := List.nodup_cons.mp hnd
      rw [List.foldl_cons, ih hnd'.2]
      by_cases hk : k = id
      · subst hk
        rw [if_neg hnd'.1, if_pos (List.mem_cons_self _ _)]
        cases hg : Obj.get byId k with
        | none =>
            dsimp only
            exact hg
        | some child =>
            dsimp only
            rw [Obj.get_set, if_pos rfl]
            simp [hg]
      · rw [setParents_step_get_ne byId id newId hk]
        by_cases hkr : k ∈ rest
        · rw [if_pos hkr, if_pos (List.mem_cons_of_mem _ hkr)]
        · rw [if_neg hkr, if_neg (by
            intro hc
            rcases List.mem_cons.mp hc with hc | hc
            · exact hk hc
            · exact hkr hc)]

/-! ## Key-predicate filters -/

theorem Obj.get_filter_not_mem {α} (o : Obj α) (L : List String) (k : String) :
    Obj.get (o.filter (fun e => e.1 ∉ L)) k =
      if k ∈ L then none else Obj.get o k := by
  induction o with
  | nil => simp [Obj.get_nil]
  | cons e rest ih =>
      rw [List.filter_cons]
      by_cases he : e.1 ∈ L
      · rw [if_neg (by simp [he]), ih]
        by_cases hk : k ∈ L
        · rw [if_pos hk, if_pos hk]
        · rw [if_neg hk, if_neg hk, Obj.get_cons,
            if_neg (fun hc : e.1 = k => hk (hc ▸ he))]
      · rw [if_pos (by simp [he]), Obj.get_cons]
        by_cases hek : e.1 = k
        · rw [if_pos hek, if_neg (hek ▸ he), Obj.get_cons, if_pos hek]
        · rw [if_neg hek, ih, Obj.get_cons, if_neg hek]

theorem Obj.keys_filter_not_mem {α} (o : Obj α) (L : List String) :
    Obj.keys (o.filter (fun e => e.1 ∉ L)) =
      (Obj.keys o).filter (fun x => x ∉ L) := by
  induction o with
  | nil => rfl
  | cons e rest ih =>
      rw [List.filter_cons, Obj.keys_cons, List.filter_cons]
      by_cases he : e.1 ∈ L
      · rw [if_neg (by simp [he]), if_neg (by simp [he]), ih]
      · rw [if_pos (by simp [he]), if_pos (by simp [he]), Obj.keys_cons, ih]

/-! ## The descendant relation and `collectDescendants` -/

/-- One parent-child edge of a normalized index. -/
def HasChild (byId : Obj FieldNode) (p c : String) : Prop :=
  ∃ n, Obj.get byId p = some n ∧ c ∈ n.childIds

/-- Strict descendant relation generated by the edges. -/
inductive Desc (byId : Obj FieldNode) : String → String → Prop
  | child {p c} : HasChild byId p c → Desc byId p c
  | step {p m c} : HasChild byId p m → Desc byId m c → Desc byId p c

theorem Desc_snoc {byId : Obj FieldNode} {k c d : String}
    (h : Desc byId k c) (he : HasChild byId c d) : Desc byId k d := by
  induction h with
  | child h1 => exact Desc.step h1 (Desc.child he)
  | step h1 hd ih => exact Desc.step h1 (ih he)

theorem Desc_rank {byId : Obj FieldNode} {rk : String → Nat}
    (hrk : ∀ p c, HasChild byId p c → rk p < rk c) :
    ∀ {k c}, Desc byId k c → rk k < rk c := by
  intro k c h
  induction h with
  | child h1 => exact hrk _ _ h1
  | step h1 hd ih => exact (hrk _ _ h1).trans ih

theorem Desc_mem_keys {byId : Obj FieldNode}
    (hk : ∀ p c, HasChild byId p c → c ∈ Obj.keys byId) :
    ∀ {k c}, Desc byId k c → c ∈ Obj.keys byId := by
  intro k c h
  induction h with
  | child h1 => exact hk _ _ h1
  | step h1 hd ih => exact ih

theorem Desc_last {byId : Obj FieldNode} :
    ∀ {k c}, Desc byId k c → ∃ m, HasChild byId m c ∧ (m = k ∨ Desc byId k m) := by
  intro k c h
  induction h with
  | child h1 => exact ⟨_, h1, Or.inl rfl⟩
  | step h1 hd ih =>
      obtain ⟨m2, he, hm⟩ := ih
      rcases hm with rfl | hdm
      · exact ⟨m2, he, Or.inr (Desc.child h1)⟩
      · exact ⟨m2, he, Or.inr (Desc.step h1 hdm)⟩

theorem collect_sound : ∀ (f : Nat) (byId : Obj FieldNode) (k c : String),
    c ∈ collectDescendantsFuel f byId k → Desc byId k c := by
  intro f
  induction f with
  | zero =>
      intro byId k c h
      simp [collectDescendantsFuel] at h
  | succ f ih =>
      intro byId k c h
      simp only [collectDescendantsFuel] at h
      cases hg : Obj.get byId k with
      | none => rw [hg] at h; simp at h
      | some node =>
          rw [hg] at h
          dsimp only at h
          rw [List.mem_flatten] at h
          obtain ⟨l, hl, hc⟩ := h
          rw [List.mem_map] at hl
          obtain ⟨ch, hch, rfl⟩ := hl
          rcases List.mem_cons.mp hc with rfl | hc'
          · exact Desc.child ⟨node, hg, hch⟩
          · exact Desc.step ⟨node, hg, hch⟩ (ih byId ch c hc')

theorem countP_le_of_imp {α} (p q : α → Bool) :
    ∀ (l : List α), (∀ x ∈ l, q x = true → p x = true) →
      l.countP q ≤ l.countP p := by
  intro l
  induction l with
  | nil => intro _; simp
  | cons x xs ih =>
      intro himp
      have h1 := ih (fun y hy => himp y (List.mem_cons_of_mem _ hy))
      rw [List.countP_cons, List.countP_cons]
      have hqv : (if q x = true then 1 else 0) ≤ (if p x = true then 1 else 0) := by
        by_cases hq : q x = true
        · rw [if_pos hq, if_pos (himp x (List.mem_cons_self _ _) hq)]
        · rw [if_neg hq]
          split <;> omega
      omega

theorem countP_lt_of_imp {α} (p q : α → Bool) :
    ∀ (l : List α) (a : α), (∀ x ∈ l, q x = true → p x = true) →
      a ∈ l → p a = true → q a = false →
      l.countP q < l.countP p := by
  intro l
  induction l with
  | nil => intro a _ ha; simp at ha
  | cons x xs ih =>
      intro a himp ha hpa hqa
      rw [List.countP_cons, List.countP_cons]
      have hmono := countP_le_of_imp p q xs (fun y hy => himp y (List.mem_cons_of_mem _ hy))
      rcases List.mem_cons.mp ha with rfl | ha'
      · have hq' : ¬ q a = true := by rw [hqa]; simp
        rw [if_pos hpa, if_neg hq']
        omega
      · have hstep := ih a (fun y hy => himp y (List.mem_cons_of_mem _ hy)) ha' hpa hqa
        have hqv : (if q x = true then 1 else 0) ≤ (if p x = true then 1 else 0) := by
          by_cases hq : q x = true
          · rw [if_pos hq, if_pos (himp x (List.mem_cons_self _ _) hq)]
          · rw [if_neg hq]
            split <;> omega
        omega

theorem collect_complete {byId : Obj FieldNode} {rk : String → Nat}
    (hrk : ∀ p c, HasChild byId p c → rk p < rk c)
    (hkeys : ∀ p c, HasChild byId p c → c ∈ Obj.keys byId) :
    ∀ {k c}, Desc byId k c →
    ∀ f, ((Obj.keys byId).filter (fun x => rk k < rk x)).length < f →
      c ∈ collectDescendantsFuel f byId k := by
  intro k c h
  induction h with
  | child h1 =>
      intro f hf
      obtain ⟨node, hg, hc⟩ := h1
      cases f with
      | zero => omega
      | succ f =>
          simp only [collectDescendantsFuel]
          rw [hg]
          dsimp only
          rw [List.mem_flatten]
          exact ⟨_, List.mem_map.mpr ⟨_, hc, rfl⟩, List.mem_cons_self _ _⟩
  | step h1 hd ih =>
      intro f hf
      obtain ⟨node, hg, hm⟩ := h1
      cases f with
      | zero => omega
      | succ f =>
          rename_i p m c2
          have hmk : rk p < rk m := hrk _ _ ⟨node, hg, hm⟩
          have hmem : m ∈ Obj.keys byId := hkeys _ _ ⟨node, hg, hm⟩
          have hlt : ((Obj.keys byId).filter (fun x => rk m < rk x)).length <
              ((Obj.keys byId).filter (fun x => rk p < rk x)).length := by
            rw [← List.countP_eq_length_filter, ← List.countP_eq_length_filter]
            refine countP_lt_of_imp _ _ _ m ?_ hmem ?_ ?_
            · intro x hx hq
              rw [decide_eq_true_iff] at hq ⊢
              omega
            · rw [decide_eq_true_iff]
              exact hmk
            · simp
          have hrec := ih f (by omega)
          simp only [collectDescendantsFuel]
          rw [hg]
          dsimp only
          rw [List.mem_flatten]
          exact ⟨_, List.mem_map.mpr ⟨m, hm, rfl⟩, List.mem_cons_of_mem _ hrec⟩

theorem mem_collectDescendants {byId : Obj FieldNode} {rk : String → Nat}
    (hrk : ∀ p c, HasChild byId p c → rk p < rk c)
    (hkeys : ∀ p c, HasChild byId p c → c ∈ Obj.keys byId) {k c : String} :
    c ∈ collectDescendants byId k ↔ Desc byId k c := by
  constructor
  · exact collect_sound _ byId k c
  · intro h
    apply collect_complete hrk hkeys h
    have h1 : ((Obj.keys byId).filter (fun x => rk k < rk x)).length ≤
        (Obj.keys byId).length := List.length_filter_le _ _
    have h2 : (Obj.keys byId).length = byId.length := List.length_map _ _
    omega

/-! ## Structure of the walk entries (base case of the edit invariant) -/

/-- The child-ID list the walk records for one authored tree node. -/
def childSpec : FieldDef → List String
  | .mk core fs =>
      if core.fieldType = "section" then
        match fs with
        | some cs => cs.map FieldDef.defId
        | none => []
      else []

/-- The walk entry written for the node itself. -/
def ownNode (t : FieldDef) (p : Option String) (i : Nat) : FieldNode :=
  ⟨t.core, p, childSpec t, i⟩

theorem nodeCount_le_of_mem : ∀ {l : List FieldDef} {t : FieldDef}, t ∈ l →
    nodeCount t ≤ nodeCountF l := by
  intro l
  induction l with
  | nil => intro t h; simp at h
  | cons u us ih =>
      intro t h
      rw [nodeCountF_cons]
      rcases List.mem_cons.mp h with rfl | h'
      · omega
      · have := ih h'
        omega

theorem defId_mem_treeIds (t : FieldDef) : t.defId ∈ treeIds t := by
  cases t with
  | mk core fs =>
      rw [treeIds_mk]
      exact List.mem_append_right _ (by simp [FieldDef.defId, FieldDef.core])

theorem treeIds_sub_of_mem : ∀ {l : List FieldDef} {t : FieldDef}, t ∈ l →
    ∀ x ∈ treeIds t, x ∈ treeIdsF l := by
  intro l
  induction l with
  | nil => intro t h; simp at h
  | cons u us ih =>
      intro t h x hx
      rw [treeIdsF_cons]
      rcases List.mem_cons.mp h with rfl | h'
      · exact List.mem_append_left _ hx
      · exact List.mem_append_right _ (ih h' x hx)

theorem mem_treeIdsF_of_defId : ∀ {l : List FieldDef} {t : FieldDef}, t ∈ l →
    t.defId ∈ treeIdsF l :=
  fun h => treeIds_sub_of_mem h _ (defId_mem_treeIds _)

theorem treeIdsF_get_decomp : ∀ (l : List FieldDef) (j : Nat) (h : j < l.length),
    ∃ A B, treeIdsF l = A ++ (treeIds (l.get ⟨j, h⟩) ++ B) := by
  intro l
  induction l with
  | nil => intro j h; simp at h
  | cons t ts ih =>
      intro j h
      cases j with
      | zero =>
          refine ⟨[], treeIdsF ts, ?_⟩
          rw [treeIdsF_cons]
          simp
      | succ j' =>
          obtain ⟨A, B, hAB⟩ := ih j' (by simpa using Nat.lt_of_succ_lt_succ h)
          refine ⟨treeIds t ++ A, B, ?_⟩
          rw [treeIdsF_cons]
          simp only [List.get_cons_succ]
          rw [hAB, List.append_assoc]

theorem own_mem_entriesOfF : ∀ (l : List FieldDef) (p : Option String) (i : Nat)
    (j : Nat) (h : j < l.length),
    ((l.get ⟨j, h⟩).defId, ownNode (l.get ⟨j, h⟩) p (i + j)) ∈ entriesOfF l p i := by
  intro l
  induction l with
  | nil => intro p i j h; simp at h
  | cons t ts ih =>
      intro p i j h
      rw [entriesOfF_cons]
      cases j with
      | zero =>
          apply List.mem_append_left
          cases t with
          | mk core fs =>
              rw [entriesOf_mk]
              apply List.mem_append_right
              rw [List.mem_singleton]
              rfl
      | succ j' =>
          apply List.mem_append_right
          have hj' : j' < ts.length := by simpa using Nat.lt_of_succ_lt_succ h
          have := ih p (i + 1) j' hj'
          simp only [List.get_cons_succ]
          rw [show i + (j' + 1) = (i + 1) + j' by omega]
          exact this

theorem nested_sub_entriesOfF : ∀ (l : List FieldDef) (p : Option String) (i : Nat)
    (core : FieldDefCore) (cs : List FieldDef),
    (FieldDef.mk core (some cs)) ∈ l → core.fieldType = "section" →
    ∀ x ∈ entriesOfF cs (some core.id) 0, x ∈ entriesOfF l p i := by
  intro l
  induction l with
  | nil => intro p i core cs h; simp at h
  | cons t ts ih =>
      intro p i core cs h hsec x hx
      rw [entriesOfF_cons]
      rcases List.mem_cons.mp h with rfl | h'
      · apply List.mem_append_left
        rw [entriesOf_mk]
        apply List.mem_append_left
        rw [if_pos hsec]
        exact hx
      · exact List.mem_append_right _ (ih p (i + 1) core cs h' hsec x hx)

theorem entriesOfF_src : ∀ (l : List FieldDef) (p : Option String) (i : Nat)
    (k : String) (node : FieldNode),
    (k, node) ∈ entriesOfF l p i →
    (∃ j, ∃ h : j < l.length,
      k = (l.get ⟨j, h⟩).defId ∧ node = ownNode (l.get ⟨j, h⟩) p (i + j)) ∨
    (∃ core cs, (FieldDef.mk core (some cs)) ∈ l ∧ core.fieldType = "section" ∧
      (k, node) ∈ entriesOfF cs (some core.id) 0) := by
  intro l
  induction l with
  | nil => intro p i k node h; rw [entriesOfF_nil] at h; simp at h
  | cons t ts ih =>
      intro p i k node h
      rw [entriesOfF_cons] at h
      rcases List.mem_append.mp h with h1 | h2
      · cases t with
        | mk core fs =>
            rw [entriesOf_mk] at h1
            rcases List.mem_append.mp h1 with h3 | h4
            · by_cases hsec : core.fieldType = "section"
              · rw [if_pos hsec] at h3
                cases fs with
                | some cs =>
                    exact Or.inr ⟨core, cs, List.mem_cons_self _ _, hsec, h3⟩
                | none => simp at h3
              · rw [if_neg hsec] at h3
                simp at h3
            · rw [List.mem_singleton] at h4
              injection h4 with hk hn
              exact Or.inl ⟨0, by simp, hk, hn⟩
      · rcases ih p (i + 1) k node h2 with ⟨j, hj, hk, hn⟩ | ⟨core, cs, hm, hsec, hmem⟩
        · refine Or.inl ⟨j + 1, by simpa using Nat.succ_lt_succ hj, ?_, ?_⟩
          · simpa using hk
          · simp only [List.get_cons_succ]
            rw [show i + (j + 1) = (i + 1) + j by omega]
            exact hn
        · exact Or.inr ⟨core, cs, List.mem_cons_of_mem _ hm, hsec, hmem⟩

theorem childSpec_mk (core : FieldDefCore) (fs : Option (List FieldDef)) :
    childSpec (.mk core fs) =
      (if core.fieldType = "section" then
        match fs with
        | some cs => cs.map FieldDef.defId
        | none => []
      else []) := by
  rw [childSpec.eq_def]

theorem childSpec_src {t : FieldDef} {c : String} (h : c ∈ childSpec t) :
    ∃ core cs, t = .mk core (some cs) ∧ core.fieldType = "section" ∧
      c ∈ cs.map FieldDef.defId := by
  cases t with
  | mk core fs =>
      rw [childSpec_mk] at h
      by_cases hsec : core.fieldType = "section"
      · rw [if_pos hsec] at h
        cases fs with
        | some cs => exact ⟨core, cs, rfl, hsec, h⟩
        | none => simp at h
      · rw [if_neg hsec] at h
        simp at h

theorem childSpec_get {t : FieldDef} (j : Nat) (h : j < (childSpec t).length) :
    ∃ core cs, t = .mk core (some cs) ∧ core.fieldType = "section" ∧
      ∃ h2 : j < cs.length, (childSpec t).get ⟨j, h⟩ = (cs.get ⟨j, h2⟩).defId := by
  cases t with
  | mk core fs =>
      by_cases hsec : core.fieldType = "section"
      · cases fs with
        | some cs =>
            have hcs : childSpec (FieldDef.mk core (some cs)) = cs.map FieldDef.defId := by
              rw [childSpec_mk, if_pos hsec]
            have h2 : j < cs.length := by
              have h' : j < (cs.map FieldDef.defId).length := hcs ▸ h
              simpa using h'
            refine ⟨core, cs, rfl, hsec, h2, ?_⟩
            rw [List.get_of_eq hcs ⟨j, h⟩, List.get_eq_getElem, List.getElem_map]
            rfl
        | none =>
            exfalso
            have hcs : childSpec (FieldDef.mk core none) = [] := by
              rw [childSpec_mk, if_pos hsec]
            rw [hcs] at h
            simp at h
      · exfalso
        have hcs : childSpec (FieldDef.mk core fs) = [] := by
          rw [childSpec_mk, if_neg hsec]
        rw [hcs] at h
        simp at h

theorem entriesOfF_parent : ∀ (n : Nat) (l : List FieldDef), nodeCountF l ≤ n →
    ∀ (p : Option String) (i : Nat) (c : String) (cn : FieldNode),
    (c, cn) ∈ entriesOfF l p i →
    (∃ j, ∃ h : j < l.length,
      c = (l.get ⟨j, h⟩).defId ∧ cn = ownNode (l.get ⟨j, h⟩) p (i + j)) ∨
    (∃ q qn, cn.parentId = some q ∧ (q, qn) ∈ entriesOfF l p i ∧ c ∈ qn.childIds) := by
  intro n
  induction n with
  | zero =>
      intro l hc p i c cn hm
      cases l with
      | nil => rw [entriesOfF_nil] at hm; simp at hm
      | cons t ts =>
          exfalso
          have h1 := nodeCount_pos t
          have h2 := nodeCountF_cons t ts
          omega
  | succ n ih =>
      intro l hc p i c cn hm
      rcases entriesOfF_src l p i c cn hm with hown | ⟨core, cs, htl, hsec, hnest⟩
      · exact Or.inl hown
      · have hcnt : nodeCountF cs ≤ n := by
          have h1 := nodeCount_le_of_mem htl
          rw [nodeCount_mk, if_pos hsec] at h1
          dsimp only at h1
          omega
        rcases ih cs hcnt (some core.id) 0 c cn hnest with
          ⟨j, hj, hk, hn⟩ | ⟨q, qn, hpar, hqm, hcm⟩
        · obtain ⟨⟨jv, hjv⟩, hjt⟩ := List.mem_iff_get.mp htl
          refine Or.inr ⟨core.id, ownNode (l.get ⟨jv, hjv⟩) p (i + jv), ?_, ?_, ?_⟩
          · rw [hn]; rfl
          · have hdef : (l.get ⟨jv, hjv⟩).defId = core.id := by rw [hjt]; rfl
            have hmm := own_mem_entriesOfF l p i jv hjv
            rw [hdef] at hmm
            exact hmm
          · show c ∈ childSpec (l.get ⟨jv, hjv⟩)
            rw [hjt, childSpec_mk, if_pos hsec, hk]
            exact List.mem_map_of_mem _ (List.get_mem _ _ _)
        · exact Or.inr ⟨q, qn, hpar,
            nested_sub_entriesOfF l p i core cs htl hsec _ hqm, hcm⟩

theorem entriesOfF_childIdx : ∀ (n : Nat) (l : List FieldDef), nodeCountF l ≤ n →
    ∀ (p : Option String) (i : Nat) (q : String) (qn : FieldNode),
    (q, qn) ∈ entriesOfF l p i →
    ∀ (j : Nat) (h : j < qn.childIds.length),
    ∃ cn, (qn.childIds.get ⟨j, h⟩, cn) ∈ entriesOfF l p i ∧
      cn.parentId = some q ∧ cn.index = j := by
  intro n
  induction n with
  | zero =>
      intro l hc p i q qn hm
      cases l with
      | nil => rw [entriesOfF_nil] at hm; simp at hm
      | cons t ts =>
          exfalso
          have h1 := nodeCount_pos t
          have h2 := nodeCountF_cons t ts
          omega
  | succ n ih =>
      intro l hc p i q qn hm j h
      rcases entriesOfF_src l p i q qn hm with ⟨j0, hj0, hq, hqn⟩ |
        ⟨core, cs, htl, hsec, hnest⟩
      · subst hq
        subst hqn
        obtain ⟨core, cs, ht, hsec, h2, hget⟩ := childSpec_get j h
        refine ⟨ownNode (cs.get ⟨j, h2⟩) (some core.id) (0 + j), ?_, ?_, Nat.zero_add j⟩
        · show ((ownNode (l.get ⟨j0, hj0⟩) p (i + j0)).childIds.get ⟨j, h⟩, _) ∈ _
          have hkey : (ownNode (l.get ⟨j0, hj0⟩) p (i + j0)).childIds.get ⟨j, h⟩ =
              (cs.get ⟨j, h2⟩).defId := hget
          rw [hkey]
          refine nested_sub_entriesOfF l p i core cs ?_ hsec _
            (own_mem_entriesOfF cs (some core.id) 0 j h2)
          rw [← ht]
          exact List.get_mem _ _ _
        · rw [ht]; rfl
      · have hcnt : nodeCountF cs ≤ n := by
          have h1 := nodeCount_le_of_mem htl
          rw [nodeCount_mk, if_pos hsec] at h1
          dsimp only at h1
          omega
        obtain ⟨cn, hcm, hpar, hidx⟩ := ih cs hcnt (some core.id) 0 q qn hnest j h
        exact ⟨cn, nested_sub_entriesOfF l p i core cs htl hsec _ hcm, hpar, hidx⟩

theorem entriesOfF_split : ∀ (n : Nat) (l : List FieldDef), nodeCountF l ≤ n →
    ∀ (p : Option String) (i : Nat) (q : String) (qn : FieldNode) (c : String),
    (q, qn) ∈ entriesOfF l p i → c ∈ qn.childIds →
    ∃ l1 l2, treeIdsF l = l1 ++ l2 ∧ c ∈ l1 ∧ q ∈ l2 := by
  intro n
  induction n with
  | zero =>
      intro l hc p i q qn c hm
      cases l with
      | nil => rw [entriesOfF_nil] at hm; simp at hm
      | cons t ts =>
          exfalso
          have h1 := nodeCount_pos t
          have h2 := nodeCountF_cons t ts
          omega
  | succ n ih =>
      intro l hc p i q qn c hm hcm
      rcases entriesOfF_src l p i q qn hm with ⟨j0, hj0, hq, hqn⟩ |
        ⟨core, cs, htl, hsec, hnest⟩
      · subst hq
        subst hqn
        obtain ⟨core, cs, ht, hsec2, hcmap⟩ := childSpec_src hcm
        obtain ⟨A, B, hAB⟩ := treeIdsF_get_decomp l j0 hj0
        refine ⟨A ++ treeIdsF cs, core.id :: B, ?_, ?_, ?_⟩
        · rw [hAB, ht, treeIds_mk, if_pos hsec2]
          simp [List.append_assoc]
        · apply List.mem_append_right
          rcases List.mem_map.mp hcmap with ⟨u, hu, rfl⟩
          exact mem_treeIdsF_of_defId hu
        · show (l.get ⟨j0, hj0⟩).defId ∈ _
          rw [ht]
          exact List.mem_cons_self _ _
      · have hcnt : nodeCountF cs ≤ n := by
          have h1 := nodeCount_le_of_mem htl
          rw [nodeCount_mk, if_pos hsec] at h1
          dsimp only at h1
          omega
        obtain ⟨l1, l2, hsplit, hc1, hq2⟩ := ih cs hcnt (some core.id) 0 q qn c hnest hcm
        obtain ⟨⟨jv, hjv⟩, hjt⟩ := List.mem_iff_get.mp htl
        obtain ⟨A, B, hAB⟩ := treeIdsF_get_decomp l jv hjv
        refine ⟨A ++ l1, l2 ++ ([core.id] ++ B), ?_, ?_, ?_⟩
        · rw [hAB, hjt, treeIds_mk, if_pos hsec]
          dsimp only
          rw [hsplit]
          simp [List.append_assoc]
        · exact List.mem_append_right _ hc1
        · exact List.mem_append_left _ hq2

/-! ## The structural invariant of the edit engine -/

/-- A sibling list is positionally indexed, parent-tagged and complete:
the entry at array position `i` exists, carries this parent and stores
index `i`, and every node claiming this parent is listed. -/
def SibOK (byId : Obj FieldNode) (p : Option String) (ids : List String) : Prop :=
  (∀ (i : Nat) (h : i < ids.length), ∃ n,
      Obj.get byId (ids.get ⟨i, h⟩) = some n ∧ n.parentId = p ∧ n.index = i) ∧
  (∀ c cn, Obj.get byId c = some cn → cn.parentId = p → c ∈ ids)

/-- The store invariant preserved by all structural edits: unique keys,
a correct root list, correct child lists, live parent pointers and an
acyclic parent graph. -/
structure Inv (nd : NormalizedDefinition) : Prop where
  keysNodup : (Obj.keys nd.byId).Nodup
  rootsOK : SibOK nd.byId none nd.rootIds
  childrenOK : ∀ p pn, Obj.get nd.byId p = some pn → SibOK nd.byId (some p) pn.childIds
  parentsExist : ∀ c cn q, Obj.get nd.byId c = some cn → cn.parentId = some q →
    (Obj.get nd.byId q).isSome = true
  acyclic : ∃ rk : String → Nat, ∀ p c, HasChild nd.byId p c → rk p < rk c

theorem SibOK_nodup {byId : Obj FieldNode} {p : Option String} {ids : List String}
    (h : SibOK byId p ids) : ids.Nodup := by
  rw [List.nodup_iff_injective_get]
  intro i1 i2 he
  obtain ⟨n1, hg1, _, hi1⟩ := h.1 i1.1 i1.2
  obtain ⟨n2, hg2, _, hi2⟩ := h.1 i2.1 i2.2
  have hg1' : Obj.get byId (ids.get i1) = some n1 := hg1
  have hg2' : Obj.get byId (ids.get i2) = some n2 := hg2
  rw [he] at hg1'
  rw [hg2'] at hg1'
  injection hg1' with hn
  apply Fin.ext
  show i1.1 = i2.1
  rw [← hi1, ← hi2, hn]

theorem SibOK_mem {byId : Obj FieldNode} {p : Option String} {ids : List String}
    (h : SibOK byId p ids) {c : String} (hc : c ∈ ids) :
    ∃ n, Obj.get byId c = some n ∧ n.parentId = p := by
  obtain ⟨idx, hidx⟩ := List.mem_iff_get.mp hc
  obtain ⟨n, hg, hp, _⟩ := h.1 idx.1 idx.2
  have hg' : Obj.get byId (ids.get idx) = some n := hg
  rw [hidx] at hg'
  exact ⟨n, hg', hp⟩

theorem Inv_hasChild_entry {nd : NormalizedDefinition} (inv : Inv nd) {p c : String}
    (h : HasChild nd.byId p c) :
    ∃ cn, Obj.get nd.byId c = some cn ∧ cn.parentId = some p := by
  obtain ⟨pn, hg, hc⟩ := h
  exact SibOK_mem (inv.childrenOK p pn hg) hc

theorem Inv_child_mem_keys {nd : NormalizedDefinition} (inv : Inv nd) {p c : String}
    (h : HasChild nd.byId p c) : c ∈ Obj.keys nd.byId := by
  obtain ⟨cn, hg, _⟩ := Inv_hasChild_entry inv h
  exact Obj.mem_keys_of_get_eq_some hg

theorem Inv_parent_unique {nd : NormalizedDefinition} (inv : Inv nd) {c : String}
    {cn : FieldNode} {p : String} (hg : Obj.get nd.byId c = some cn)
    (h : HasChild nd.byId p c) : cn.parentId = some p := by
  obtain ⟨cn2, hg2, hp⟩ := Inv_hasChild_entry inv h
  rw [hg] at hg2
  injection hg2 with he
  rw [he]
  exact hp

theorem Inv_mem_collect_iff {nd : NormalizedDefinition} (inv : Inv nd) {k c : String} :
    c ∈ collectDescendants nd.byId k ↔ Desc nd.byId k c := by
  obtain ⟨rk, hrk⟩ := inv.acyclic
  exact mem_collectDescendants hrk (fun p c h => Inv_child_mem_keys inv h)

/-- Under globally unique IDs the walk writes exactly the structural
entries, and the root list is the top-level IDs. -/
theorem normalizeDefinition_eq_entries {L : List FieldDef} (hnd : (treeIdsF L).Nodup) :
    normalizeDefinition L = ⟨entriesOfF L none 0, L.map FieldDef.defId⟩ := by
  unfold normalizeDefinition
  have h := (normWalk_eq (nodeCountF L)).2 L le_rfl [] none 0
    (fun k _ => by simp [Obj.keys]) hnd
  rw [h]
  simp

/-- The invariant holds right after normalizing a tree with unique IDs. -/
theorem Inv_normalize {L : List FieldDef} (hnd : (treeIdsF L).Nodup) :
    Inv (normalizeDefinition L) := by
  rw [normalizeDefinition_eq_entries hnd]
  have hkeys : Obj.keys (entriesOfF L none 0) = treeIdsF L := keys_entriesOfF_any L none 0
  have knodup : (Obj.keys (entriesOfF L none 0)).Nodup := by rw [hkeys]; exact hnd
  have hget : ∀ {k : String} {v : FieldNode},
      Obj.get (entriesOfF L none 0) k = some v ↔ (k, v) ∈ entriesOfF L none 0 :=
    fun {k v} => ⟨Obj.mem_of_get_eq_some, Obj.get_of_mem_nodup knodup⟩
  refine ⟨knodup, ⟨?_, ?_⟩, ?_, ?_, ?_⟩
  · intro i h
    have hlen : i < L.length := by simpa using h
    have hmm := own_mem_entriesOfF L none 0 i hlen
    have hkey : (L.map FieldDef.defId).get ⟨i, h⟩ = (L.get ⟨i, hlen⟩).defId := by
      rw [List.get_eq_getElem, List.getElem_map]
      rfl
    refine ⟨ownNode (L.get ⟨i, hlen⟩) none (0 + i), ?_, rfl, Nat.zero_add i⟩
    rw [hkey]
    exact hget.mpr (by simpa using hmm)
  · intro c cn hg hp
    rcases entriesOfF_parent (nodeCountF L) L le_rfl none 0 c cn (hget.mp hg) with
      ⟨j, hj, hk, hn⟩ | ⟨q, qn, hpar, hqm, hcm⟩
    · rw [hk]
      exact List.mem_map_of_mem _ (List.get_mem _ _ _)
    · rw [hp] at hpar
      exact absurd hpar (by simp)
  · intro p pn hg
    constructor
    · intro j h
      obtain ⟨cn, hcm, hpar, hidx⟩ :=
        entriesOfF_childIdx (nodeCountF L) L le_rfl none 0 p pn (hget.mp hg) j h
      exact ⟨cn, hget.mpr hcm, hpar, hidx⟩
    · intro c cn hgc hp
      rcases entriesOfF_parent (nodeCountF L) L le_rfl none 0 c cn (hget.mp hgc) with
        ⟨j, hj, hk, hn⟩ | ⟨q, qn, hpar, hqm, hcm⟩
      · rw [hn] at hp
        simp [ownNode] at hp
      · rw [hp] at hpar
        injection hpar with hq
        subst hq
        have hq2 := hget.mpr hqm
        rw [hg] at hq2
        injection hq2 with he
        rw [he]
        exact hcm
  · intro c cn q hgc hp
    rcases entriesOfF_parent (nodeCountF L) L le_rfl none 0 c cn (hget.mp hgc) with
      ⟨j, hj, hk, hn⟩ | ⟨q2, qn, hpar, hqm, hcm⟩
    · rw [hn] at hp
      simp [ownNode] at hp
    · rw [hpar] at hp
      injection hp with he
      subst he
      rw [hget.mpr hqm]
      rfl
  · refine ⟨fun k => (treeIdsF L).length - posIn (treeIdsF L) k, ?_⟩
    rintro p c ⟨pn, hg, hc⟩
    obtain ⟨l1, l2, hsplit, hc1, hp2⟩ :=
      entriesOfF_split (nodeCountF L) L le_rfl none 0 p pn c (hget.mp hg) hc
    have hnd2 : (l1 ++ l2).Nodup := hsplit ▸ hnd
    have hdisj := (List.nodup_append.mp hnd2).2.2
    have hpn1 : p ∉ l1 := fun hin => hdisj hin hp2
    have hposc : posIn (treeIdsF L) c < l1.length := by
      rw [hsplit, posIn_append_left l2 hc1]
      exact posIn_lt_length hc1
    have hposp : posIn (treeIdsF L) p = l1.length + posIn l2 p := by
      rw [hsplit, posIn_append_right l2 hpn1]
    have hplt : posIn l2 p < l2.length := posIn_lt_length hp2
    have hlen : (treeIdsF L).length = l1.length + l2.length := by rw [hsplit]; simp
    show (treeIdsF L).length - posIn (treeIdsF L) p <
      (treeIdsF L).length - posIn (treeIdsF L) c
    omega

/-! ## Invariant transfer helpers -/

theorem SibOK_mono {byId byId2 : Obj FieldNode} {p : Option String} {ids : List String}
    (h : SibOK byId p ids)
    (h1 : ∀ k ∈ ids, Obj.get byId2 k = Obj.get byId k)
    (h2 : ∀ c cn2, Obj.get byId2 c = some cn2 → cn2.parentId = p →
      ∃ cn, Obj.get byId c = some cn ∧ cn.parentId = p) :
    SibOK byId2 p ids := by
  constructor
  · intro i hi
    obtain ⟨n, hg, hp, hidx⟩ := h.1 i hi
    exact ⟨n, (h1 _ (List.get_mem _ _ _)).trans hg, hp, hidx⟩
  · intro c cn2 hg hp
    obtain ⟨cn, hgc, hpc⟩ := h2 c cn2 hg hp
    exact h.2 c cn hgc hpc

theorem SibOK_reindex {B : Obj FieldNode} {p : Option String} {ids : List String}
    (hnd : ids.Nodup)
    (ha : ∀ c ∈ ids, ∃ n, Obj.get B c = some n ∧ n.parentId = p)
    (hb : ∀ c cn, Obj.get B c = some cn → cn.parentId = p → c ∈ ids) :
    SibOK (reindexChildren B ids) p ids := by
  constructor
  · intro i hi
    have hmem := List.get_mem ids i hi
    obtain ⟨n, hg, hp⟩ := ha _ hmem
    unfold reindexChildren
    rw [reindexFrom_get ids hnd, if_pos hmem, hg]
    refine ⟨{ n with index := 0 + posIn ids (ids.get ⟨i, hi⟩) }, rfl, hp, ?_⟩
    show 0 + posIn ids (ids.get ⟨i, hi⟩) = i
    rw [posIn_get hnd i hi]
    omega
  · intro c cn hg hp
    unfold reindexChildren at hg
    obtain ⟨n, hgB, hn⟩ := reindexFrom_get_some ids B 0 c cn hg
    apply hb c n hgB
    rw [← hp]
    exact (congrArg FieldNode.parentId hn).symm

theorem SibOK_reindex_other {B : Obj FieldNode} {p : Option String}
    {ids0 ids : List String} (hnd : ids.Nodup)
    (h : SibOK B p ids0) (hdis : ∀ c ∈ ids0, c ∉ ids) :
    SibOK (reindexChildren B ids) p ids0 := by
  constructor
  · intro i hi
    obtain ⟨n, hg, hp2, hidx⟩ := h.1 i hi
    unfold reindexChildren
    rw [reindexFrom_get ids hnd, if_neg (hdis _ (List.get_mem _ _ _))]
    exact ⟨n, hg, hp2, hidx⟩
  · intro c cn hg hp2
    unfold reindexChildren at hg
    obtain ⟨n, hgB, hn⟩ := reindexFrom_get_some ids B 0 c cn hg
    exact h.2 c n hgB (by rw [← hp2]; exact (congrArg FieldNode.parentId hn).symm)

theorem hasChild_reindexFrom {B : Obj FieldNode} {ids : List String} {j : Nat}
    {p c : String} (h : HasChild (reindexFrom B ids j) p c) : HasChild B p c := by
  obtain ⟨n2, hg, hc⟩ := h
  obtain ⟨n, hgB, hn⟩ := reindexFrom_get_some ids B j p n2 hg
  refine ⟨n, hgB, ?_⟩
  rw [hn] at hc
  exact hc

/-- The structural view of an entry: everything the invariant reads. -/
def structView (n : FieldNode) : Option String × List String × Nat :=
  (n.parentId, n.childIds, n.index)

theorem SibOK_of_structEq {a b : Obj FieldNode} {p : Option String} {ids : List String}
    (h : SibOK a p ids)
    (hview : ∀ k, (Obj.get b k).map structView = (Obj.get a k).map structView) :
    SibOK b p ids := by
  constructor
  · intro i hi
    obtain ⟨n, hg, hp, hidx⟩ := h.1 i hi
    have hv := hview (ids.get ⟨i, hi⟩)
    rw [hg] at hv
    cases hb : Obj.get b (ids.get ⟨i, hi⟩) with
    | none => rw [hb] at hv; simp at hv
    | some n2 =>
        rw [hb] at hv
        simp only [Option.map_some'] at hv
        injection hv with hv
        refine ⟨n2, rfl, ?_, ?_⟩
        · have : n2.parentId = n.parentId := congrArg Prod.fst hv
          rw [this]; exact hp
        · have : n2.index = n.index := congrArg (fun x => x.2.2) hv
          rw [this]; exact hidx
  · intro c cn2 hg hp
    have hv := hview c
    rw [hg] at hv
    cases ha : Obj.get a c with
    | none => rw [ha] at hv; simp at hv
    | some cn =>
        rw [ha] at hv
        simp only [Option.map_some'] at hv
        injection hv with hv
        apply h.2 c cn ha
        have : cn.parentId = cn2.parentId := (congrArg Prod.fst hv).symm
        rw [this]; exact hp

theorem Inv_of_structEq {a b : Obj FieldNode} {roots : List String}
    (inv : Inv ⟨a, roots⟩)
    (hkeys : Obj.keys b = Obj.keys a)
    (hview : ∀ k, (Obj.get b k).map structView = (Obj.get a k).map structView) :
    Inv ⟨b, roots⟩ := by
  refine ⟨?_, ?_, ?_, ?_, ?_⟩
  · show (Obj.keys b).Nodup
    rw [hkeys]
    exact inv.keysNodup
  · exact SibOK_of_structEq inv.rootsOK hview
  · intro p pn hg
    have hv := hview p
    rw [hg] at hv
    cases ha : Obj.get a p with
    | none => rw [ha] at hv; simp at hv
    | some pn0 =>
        rw [ha] at hv
        simp only [Option.map_some'] at hv
        injection hv with hv
        have hch : pn.childIds = pn0.childIds := congrArg (fun x => x.2.1) hv
        rw [hch]
        exact SibOK_of_structEq (inv.childrenOK p pn0 ha) hview
  · intro c cn q hg hp
    have hv := hview c
    rw [hg] at hv
    cases ha : Obj.get a c with
    | none => rw [ha] at hv; simp at hv
    | some cn0 =>
        rw [ha] at hv
        simp only [Option.map_some'] at hv
        injection hv with hv
        have hp0 : cn0.parentId = some q := by
          have : cn0.parentId = cn.parentId := (congrArg Prod.fst hv).symm
          rw [this]; exact hp
        have hs := inv.parentsExist c cn0 q ha hp0
        have hv2 := hview q
        cases hbq : Obj.get b q with
        | none =>
            rw [hbq] at hv2
            cases haq : Obj.get a q with
            | none => rw [haq] at hs; simp at hs
            | some x => rw [haq] at hv2; simp at hv2
        | some x => simp
  · obtain ⟨rk, hrk⟩ := inv.acyclic
    refine ⟨rk, ?_⟩
    rintro p c ⟨pn, hg, hc⟩
    have hv := hview p
    rw [hg] at hv
    cases ha : Obj.get a p with
    | none => rw [ha] at hv; simp at hv
    | some pn0 =>
        rw [ha] at hv
        simp only [Option.map_some'] at hv
        injection hv with hv
        apply hrk p c
        refine ⟨pn0, ha, ?_⟩
        have : pn.childIds = pn0.childIds := congrArg (fun x => x.2.1) hv
        rw [← this]
        exact hc

/-! ## Derived invariant facts -/

theorem Obj.not_mem_keys_of_get_none {α} {o : Obj α} {k : String}
    (h : Obj.get o k = none) : k ∉ Obj.keys o := by
  intro hm
  have := Obj.get_isSome_of_mem_keys hm
  rw [h] at this
  simp at this

theorem Inv_not_self_child {nd : NormalizedDefinition} (inv : Inv nd) {c : String}
    {cn : FieldNode} (hg : Obj.get nd.byId c = some cn) : c ∉ cn.childIds := by
  intro hc
  obtain ⟨rk, hrk⟩ := inv.acyclic
  exact absurd (hrk c c ⟨cn, hg, hc⟩) (lt_irrefl _)

theorem Inv_childComplete {nd : NormalizedDefinition} (inv : Inv nd) {c : String}
    {cn : FieldNode} {p : String} (hg : Obj.get nd.byId c = some cn)
    (hp : cn.parentId = some p) :
    ∃ pn, Obj.get nd.byId p = some pn ∧ c ∈ pn.childIds := by
  have hs := inv.parentsExist c cn p hg hp
  cases hq : Obj.get nd.byId p with
  | none => rw [hq] at hs; simp at hs
  | some pn => exact ⟨pn, rfl, (inv.childrenOK p pn hq).2 c cn hg hp⟩

theorem listGetMap {α β} (f : α → β) (l : List α) (i : Nat)
    (h : i < (l.map f).length) :
    (l.map f).get ⟨i, h⟩ = f (l.get ⟨i, by simpa using h⟩) := by
  rw [List.get_eq_getElem, List.getElem_map]
  rfl

/-! ## `updateField` preserves the invariant -/

theorem Inv_set_definition {nd : NormalizedDefinition} (inv : Inv nd) (fieldId : String)
    (node : FieldNode) (hg : Obj.get nd.byId fieldId = some node) (d : FieldDefCore) :
    Inv ⟨Obj.set nd.byId fieldId { node with definition := d }, nd.rootIds⟩ := by
  refine Inv_of_structEq (show Inv ⟨nd.byId, nd.rootIds⟩ from inv) ?_ ?_
  · exact Obj.keys_set_of_mem _ (Obj.mem_keys_of_get_eq_some hg)
  · intro k
    rw [Obj.get_set]
    by_cases hk : k = fieldId
    · subst hk
      rw [if_pos rfl, hg]
      rfl
    · rw [if_neg hk]

/-- Invariant preservation for a rename of a root-level field. -/
theorem Inv_rename_none (nd : NormalizedDefinition) (inv : Inv nd)
    (fieldId nid : String) (node : FieldNode) (newDef : FieldDefCore)
    (stored : FieldNode) (hstored : stored = { node with definition := newDef })
    (hg : Obj.get nd.byId fieldId = some node) (hpar : node.parentId = none)
    (hfresh : Obj.get nd.byId nid = none) (hne : nid ≠ fieldId) :
    Inv ⟨node.childIds.foldl (fun acc childId =>
        match Obj.get acc childId with
        | some child => Obj.set acc childId { child with parentId := some nid }
        | none => acc)
      ((nd.byId.del fieldId).set nid stored),
      nd.rootIds.map (fun r => if r = fieldId then nid else r)⟩ := by
  subst hstored
  have hb1 : ∀ k, Obj.get ((nd.byId.del fieldId).set nid { node with definition := newDef }) k =
      if k = nid then some { node with definition := newDef }
      else if k = fieldId then none
      else Obj.get nd.byId k := by
    intro k
    rw [Obj.get_set]
    by_cases h1 : k = nid
    · rw [if_pos h1, if_pos h1]
    · rw [if_neg h1, if_neg h1, Obj.get_del]
  have hsib := inv.childrenOK fieldId node hg
  have hcnd : node.childIds.Nodup := SibOK_nodup hsib
  have hchild : ∀ c ∈ node.childIds, ∃ cn, Obj.get nd.byId c = some cn ∧
      cn.parentId = some fieldId := fun c hc => SibOK_mem hsib hc
  have hcna : ∀ c ∈ node.childIds, c ≠ fieldId := by
    intro c hc hceq
    exact Inv_not_self_child inv hg (hceq ▸ hc)
  have hcnn : ∀ c ∈ node.childIds, c ≠ nid := by
    intro c hc hceq
    obtain ⟨cn, hgc, _⟩ := hchild c hc
    rw [hceq, hfresh] at hgc
    cases hgc
  have hfin : ∀ k, Obj.get (node.childIds.foldl (fun acc childId =>
        match Obj.get acc childId with
        | some child => Obj.set acc childId { child with parentId := some nid }
        | none => acc)
      ((nd.byId.del fieldId).set nid { node with definition := newDef })) k =
      if k ∈ node.childIds then
        (Obj.get nd.byId k).map (fun n => { n with parentId := some nid })
      else if k = nid then some { node with definition := newDef }
      else if k = fieldId then none
      else Obj.get nd.byId k := by
    intro k
    rw [setParents_get node.childIds nid hcnd]
    by_cases hk : k ∈ node.childIds
    · rw [if_pos hk, if_pos hk, hb1, if_neg (hcnn k hk), if_neg (hcna k hk)]
    · rw [if_neg hk, if_neg hk, hb1]
  have hroot : fieldId ∈ nd.rootIds := inv.rootsOK.2 fieldId node hg hpar
  refine ⟨?_, ⟨?_, ?_⟩, ?_, ?_, ?_⟩
  · show (Obj.keys _).Nodup
    rw [setParents_keys, Obj.keys_set, Obj.keys_del]
    rw [if_neg (by
      intro hm
      rcases List.mem_filter.mp hm with ⟨hm2, _⟩
      exact Obj.not_mem_keys_of_get_none hfresh hm2)]
    apply List.Nodup.append
    · exact List.Nodup.filter _ inv.keysNodup
    · simp
    · intro x hx hx2
      rw [List.mem_singleton] at hx2
      subst hx2
      rcases List.mem_filter.mp hx with ⟨hm2, _⟩
      exact Obj.not_mem_keys_of_get_none hfresh hm2
  · -- roots part 1
    intro i h
    have hlen : i < nd.rootIds.length := by simpa using h
    obtain ⟨n, hgi, hpn, hidx⟩ := inv.rootsOK.1 i hlen
    rw [listGetMap]
    by_cases hri : nd.rootIds.get ⟨i, by simpa using h⟩ = fieldId
    · rw [if_pos hri]
      rw [hri, hg] at hgi
      injection hgi with hni
      refine ⟨{ node with definition := newDef }, ?_, ?_, ?_⟩
      · rw [hfin, if_neg (fun hc => hcnn nid hc rfl), if_pos rfl]
      · show node.parentId = none
        exact hpar
      · show node.index = i
        rw [← hidx, hni]
    · rw [if_neg hri]
      have hnc : nd.rootIds.get ⟨i, by simpa using h⟩ ∉ node.childIds := by
        intro hc
        obtain ⟨cn, hgc, hpc⟩ := hchild _ hc
        rw [hgi] at hgc
        injection hgc with he
        rw [← he] at hpc
        rw [hpn] at hpc
        cases hpc
      have hnn : nd.rootIds.get ⟨i, by simpa using h⟩ ≠ nid := by
        intro hceq
        rw [hceq, hfresh] at hgi
        cases hgi
      refine ⟨n, ?_, hpn, hidx⟩
      rw [hfin, if_neg hnc, if_neg hnn, if_neg hri]
      exact hgi
  · -- roots part 2
    intro c cn hgc hp
    rw [hfin] at hgc
    by_cases hk : c ∈ node.childIds
    · rw [if_pos hk] at hgc
      obtain ⟨cn0, hgc0, hpc0⟩ := hchild c hk
      rw [hgc0] at hgc
      simp only [Option.map_some'] at hgc
      injection hgc with he
      rw [← he] at hp
      simp at hp
    · rw [if_neg hk] at hgc
      by_cases hn : c = nid
      · subst hn
        rw [if_pos rfl] at hgc
        apply List.mem_map.mpr
        exact ⟨fieldId, hroot, by rw [if_pos rfl]⟩
      · rw [if_neg hn] at hgc
        by_cases hf : c = fieldId
        · rw [if_pos hf] at hgc
          cases hgc
        · rw [if_neg hf] at hgc
          have := inv.rootsOK.2 c cn hgc hp
          apply List.mem_map.mpr
          exact ⟨c, this, by rw [if_neg hf]⟩
  · -- childrenOK
    intro p pn hgp
    rw [hfin] at hgp
    by_cases hk : p ∈ node.childIds
    · rw [if_pos hk] at hgp
      obtain ⟨cnp, hgcp, hpcp⟩ := hchild p hk
      rw [hgcp] at hgp
      simp only [Option.map_some'] at hgp
      injection hgp with he
      have hch : pn.childIds = cnp.childIds := by rw [← he]
      rw [hch]
      have hsibp := inv.childrenOK p cnp hgcp
      constructor
      · intro j hj
        obtain ⟨m, hgm, hpm, hidxm⟩ := hsibp.1 j hj
        have hem : cnp.childIds.get ⟨j, hj⟩ ∉ node.childIds := by
          intro hc
          obtain ⟨cc, hgcc, hpcc⟩ := hchild _ hc
          rw [hgm] at hgcc
          injection hgcc with he2
          rw [← he2] at hpcc
          rw [hpm] at hpcc
          injection hpcc with he3
          exact hcna p hk he3
        have hen : cnp.childIds.get ⟨j, hj⟩ ≠ nid := by
          intro hceq
          rw [hceq, hfresh] at hgm
          cases hgm
        have hef : cnp.childIds.get ⟨j, hj⟩ ≠ fieldId := by
          intro hceq
          rw [hceq, hg] at hgm
          injection hgm with he2
          rw [← he2, hpar] at hpm
          cases hpm
        refine ⟨m, ?_, hpm, hidxm⟩
        rw [hfin, if_neg hem, if_neg hen, if_neg hef]
        exact hgm
      · intro c cn hgc hpc
        rw [hfin] at hgc
        by_cases hkc : c ∈ node.childIds
        · rw [if_pos hkc] at hgc
          obtain ⟨cc, hgcc, _⟩ := hchild c hkc
          rw [hgcc] at hgc
          simp only [Option.map_some'] at hgc
          injection hgc with he2
          rw [← he2] at hpc
          have : some nid = some p := hpc
          injection this with he3
          exact absurd he3.symm (hcnn p hk)
        · rw [if_neg hkc] at hgc
          by_cases hn : c = nid
          · rw [if_pos hn] at hgc
            injection hgc with he2
            rw [← he2] at hpc
            have : node.parentId = some p := hpc
            rw [hpar] at this
            cases this
          · rw [if_neg hn] at hgc
            by_cases hf : c = fieldId
            · rw [if_pos hf] at hgc
              cases hgc
            · rw [if_neg hf] at hgc
              exact hsibp.2 c cn hgc hpc
    · rw [if_neg hk] at hgp
      by_cases hn : p = nid
      · rw [if_pos hn] at hgp
        injection hgp with he
        have hch : pn.childIds = node.childIds := by rw [← he]
        rw [hch]
        constructor
        · intro j hj
          obtain ⟨m, hgm, hpm, hidxm⟩ := hsib.1 j hj
          refine ⟨{ m with parentId := some nid }, ?_, ?_, hidxm⟩
          · rw [hfin, if_pos (List.get_mem _ _ _), hgm]
            rfl
          · show some nid = some p
            rw [hn]
        · intro c cn hgc hpc
          rw [hfin] at hgc
          by_cases hkc : c ∈ node.childIds
          · exact hkc
          · rw [if_neg hkc] at hgc
            by_cases hcn : c = nid
            · rw [if_pos hcn] at hgc
              injection hgc with he2
              rw [← he2] at hpc
              have hx : node.parentId = some p := hpc
              rw [hpar] at hx
              cases hx
            · rw [if_neg hcn] at hgc
              by_cases hf : c = fieldId
              · rw [if_pos hf] at hgc
                cases hgc
              · rw [if_neg hf] at hgc
                have hpe := inv.parentsExist c cn nid hgc (by rw [← hn]; exact hpc)
                rw [hfresh] at hpe
                simp at hpe
      · rw [if_neg hn] at hgp
        by_cases hf : p = fieldId
        · rw [if_pos hf] at hgp
          cases hgp
        · rw [if_neg hf] at hgp
          have hsibp := inv.childrenOK p pn hgp
          constructor
          · intro j hj
            obtain ⟨m, hgm, hpm, hidxm⟩ := hsibp.1 j hj
            have hem : pn.childIds.get ⟨j, hj⟩ ∉ node.childIds := by
              intro hc
              obtain ⟨cc, hgcc, hpcc⟩ := hchild _ hc
              rw [hgm] at hgcc
              injection hgcc with he2
              rw [← he2] at hpcc
              rw [hpm] at hpcc
              injection hpcc with he3
              exact hf he3
            have hen : pn.childIds.get ⟨j, hj⟩ ≠ nid := by
              intro hceq
              rw [hceq, hfresh] at hgm
              cases hgm
            have hef : pn.childIds.get ⟨j, hj⟩ ≠ fieldId := by
              intro hceq
              rw [hceq, hg] at hgm
              injection hgm with he2
              rw [← he2, hpar] at hpm
              cases hpm
            refine ⟨m, ?_, hpm, hidxm⟩
            rw [hfin, if_neg hem, if_neg hen, if_neg hef]
            exact hgm
          · intro c cn hgc hpc
            rw [hfin] at hgc
            by_cases hkc : c ∈ node.childIds
            · rw [if_pos hkc] at hgc
              obtain ⟨cc, hgcc, _⟩ := hchild c hkc
              rw [hgcc] at hgc
              simp only [Option.map_some'] at hgc
              injection hgc with he2
              rw [← he2] at hpc
              have : some nid = some p := hpc
              injection this with he3
              exact absurd he3.symm hn
            · rw [if_neg hkc] at hgc
              by_cases hcn : c = nid
              · rw [if_pos hcn] at hgc
                injection hgc with he2
                rw [← he2] at hpc
                have hx : node.parentId = some p := hpc
                rw [hpar] at hx
                cases hx
              · rw [if_neg hcn] at hgc
                by_cases hcf : c = fieldId
                · rw [if_pos hcf] at hgc
                  cases hgc
                · rw [if_neg hcf] at hgc
                  exact hsibp.2 c cn hgc hpc
  · -- parentsExist
    intro c cn q hgc hpq
    have hlive : ∀ x, (Obj.get nd.byId x).isSome = true → x ≠ fieldId →
        (Obj.get (node.childIds.foldl (fun acc childId =>
          match Obj.get acc childId with
          | some child => Obj.set acc childId { child with parentId := some nid }
          | none => acc)
        ((nd.byId.del fieldId).set nid { node with definition := newDef })) x).isSome = true := by
      intro x hx hxf
      rw [hfin]
      by_cases hk : x ∈ node.childIds
      · rw [if_pos hk]
        cases hgx : Obj.get nd.byId x with
        | none => rw [hgx] at hx; simp at hx
        | some m => simp
      · rw [if_neg hk]
        by_cases hxn : x = nid
        · rw [if_pos hxn]; simp
        · rw [if_neg hxn, if_neg hxf]
          exact hx
    rw [hfin] at hgc
    by_cases hk : c ∈ node.childIds
    · rw [if_pos hk] at hgc
      obtain ⟨cc, hgcc, _⟩ := hchild c hk
      rw [hgcc] at hgc
      simp only [Option.map_some'] at hgc
      injection hgc with he
      rw [← he] at hpq
      have : some nid = some q := hpq
      injection this with he2
      rw [← he2]
      rw [hfin, if_neg (fun hc => hcnn nid hc rfl), if_pos rfl]
      simp
    · rw [if_neg hk] at hgc
      by_cases hn : c = nid
      · rw [if_pos hn] at hgc
        injection hgc with he
        rw [← he] at hpq
        have hx : node.parentId = some q := hpq
        rw [hpar] at hx
        cases hx
      · rw [if_neg hn] at hgc
        by_cases hf : c = fieldId
        · rw [if_pos hf] at hgc
          cases hgc
        · rw [if_neg hf] at hgc
          have hqlive := inv.parentsExist c cn q hgc hpq
          have hqf : q ≠ fieldId := by
            intro hqe
            subst hqe
            obtain ⟨pn2, hgp2, hcp2⟩ := Inv_childComplete inv hgc hpq
            rw [hg] at hgp2
            injection hgp2 with he2
            rw [← he2] at hcp2
            exact hk hcp2
          exact hlive q hqlive hqf
  · -- acyclic
    obtain ⟨rk, hrk⟩ := inv.acyclic
    refine ⟨fun k => if k = nid then rk fieldId else rk k, ?_⟩
    rintro p c ⟨pn, hgp, hcp⟩
    show (if p = nid then rk fieldId else rk p) < (if c = nid then rk fieldId else rk c)
    rw [hfin] at hgp
    by_cases hk : p ∈ node.childIds
    · rw [if_pos hk] at hgp
      obtain ⟨cnp, hgcp, _⟩ := hchild p hk
      rw [hgcp] at hgp
      simp only [Option.map_some'] at hgp
      injection hgp with he
      have hcp2 : c ∈ cnp.childIds := by
        rw [← he] at hcp
        exact hcp
      have hedge := hrk p c ⟨cnp, hgcp, hcp2⟩
      have hpn2 : p ≠ nid := hcnn p hk
      obtain ⟨cc, hgcc, _⟩ := SibOK_mem (inv.childrenOK p cnp hgcp) hcp2
      have hcn2 : c ≠ nid := by
        intro hceq
        rw [hceq, hfresh] at hgcc
        cases hgcc
      rw [if_neg hpn2, if_neg hcn2]
      exact hedge
    · rw [if_neg hk] at hgp
      by_cases hn : p = nid
      · rw [if_pos hn] at hgp
        injection hgp with he
        have hcp2 : c ∈ node.childIds := by
          rw [← he] at hcp
          exact hcp
        have hedge := hrk fieldId c ⟨node, hg, hcp2⟩
        have hcn2 : c ≠ nid := hcnn c hcp2
        rw [if_pos hn, if_neg hcn2]
        exact hedge
      · rw [if_neg hn] at hgp
        by_cases hf : p = fieldId
        · rw [if_pos hf] at hgp
          cases hgp
        · rw [if_neg hf] at hgp
          have hedge := hrk p c ⟨pn, hgp, hcp⟩
          obtain ⟨cc, hgcc, _⟩ := SibOK_mem (inv.childrenOK p pn hgp) hcp
          have hcn2 : c ≠ nid := by
            intro hceq
            rw [hceq, hfresh] at hgcc
            cases hgcc
          rw [if_neg hn, if_neg hcn2]
          exact hedge

/-- Invariant preservation for a rename of a field inside a parent. -/
theorem Inv_rename_some (nd : NormalizedDefinition) (inv : Inv nd)
    (fieldId nid fp : String) (node parent : FieldNode) (newDef : FieldDefCore)
    (stored : FieldNode) (hstored : stored = { node with definition := newDef })
    (hg : Obj.get nd.byId fieldId = some node) (hpar : node.parentId = some fp)
    (hgfp : Obj.get nd.byId fp = some parent)
    (hfresh : Obj.get nd.byId nid = none) (hne : nid ≠ fieldId) :
    Inv ⟨node.childIds.foldl (fun acc childId =>
        match Obj.get acc childId with
        | some child => Obj.set acc childId { child with parentId := some nid }
        | none => acc)
      (Obj.set ((nd.byId.del fieldId).set nid stored) fp
        { parent with childIds := parent.childIds.map (fun c => if c = fieldId then nid else c) }),
      nd.rootIds⟩ := by
  subst hstored
  have hfieldInFp : fieldId ∈ parent.childIds :=
    (inv.childrenOK fp parent hgfp).2 fieldId node hg hpar
  have hfpf : fp ≠ fieldId := by
    intro he
    subst he
    rw [hgfp] at hg
    injection hg with he2
    exact Inv_not_self_child inv hgfp (he2 ▸ hfieldInFp)
  have hfpn : fp ≠ nid := by
    intro he
    rw [he, hfresh] at hgfp
    cases hgfp
  have hsib := inv.childrenOK fieldId node hg
  have hcnd : node.childIds.Nodup := SibOK_nodup hsib
  have hchild : ∀ c ∈ node.childIds, ∃ cn, Obj.get nd.byId c = some cn ∧
      cn.parentId = some fieldId := fun c hc => SibOK_mem hsib hc
  have hcna : ∀ c ∈ node.childIds, c ≠ fieldId := by
    intro c hc hceq
    exact Inv_not_self_child inv hg (hceq ▸ hc)
  have hcnn : ∀ c ∈ node.childIds, c ≠ nid := by
    intro c hc hceq
    obtain ⟨cn, hgc, _⟩ := hchild c hc
    rw [hceq, hfresh] at hgc
    cases hgc
  have hfpNotChild : fp ∉ node.childIds := by
    intro hc
    obtain ⟨rk, hrk⟩ := inv.acyclic
    have h1 := hrk fieldId fp ⟨node, hg, hc⟩
    have h2 := hrk fp fieldId ⟨parent, hgfp, hfieldInFp⟩
    omega
  have hb2 : ∀ k, Obj.get (Obj.set ((nd.byId.del fieldId).set nid
        { node with definition := newDef }) fp
      { parent with childIds := parent.childIds.map (fun c => if c = fieldId then nid else c) }) k =
      if k = fp then some { parent with childIds := parent.childIds.map (fun c => if c = fieldId then nid else c) }
      else if k = nid then some { node with definition := newDef }
      else if k = fieldId then none
      else Obj.get nd.byId k := by
    intro k
    rw [Obj.get_set]
    by_cases h1 : k = fp
    · rw [if_pos h1, if_pos h1]
    · rw [if_neg h1, if_neg h1, Obj.get_set]
      by_cases h2 : k = nid
      · rw [if_pos h2, if_pos h2]
      · rw [if_neg h2, if_neg h2, Obj.get_del]
  have hfin : ∀ k, Obj.get (node.childIds.foldl (fun acc childId =>
        match Obj.get acc childId with
        | some child => Obj.set acc childId { child with parentId := some nid }
        | none => acc)
      (Obj.set ((nd.byId.del fieldId).set nid { node with definition := newDef }) fp
        { parent with childIds := parent.childIds.map (fun c => if c = fieldId then nid else c) })) k =
      if k ∈ node.childIds then
        (Obj.get nd.byId k).map (fun n => { n with parentId := some nid })
      else if k = fp then some { parent with childIds := parent.childIds.map (fun c => if c = fieldId then nid else c) }
      else if k = nid then some { node with definition := newDef }
      else if k = fieldId then none
      else Obj.get nd.byId k := by
    intro k
    rw [setParents_get node.childIds nid hcnd, hb2]
    by_cases hk : k ∈ node.childIds
    · rw [if_pos hk, if_pos hk,
        if_neg (fun hc : k = fp => hfpNotChild (by rw [← hc]; exact hk)),
        if_neg (hcnn k hk), if_neg (hcna k hk)]
    · rw [if_neg hk, if_neg hk]
  refine ⟨?_, ⟨?_, ?_⟩, ?_, ?_, ?_⟩
  · show (Obj.keys _).Nodup
    rw [setParents_keys, Obj.keys_set_of_mem, Obj.keys_set, Obj.keys_del]
    · rw [if_neg (by
        intro hm
        rcases List.mem_filter.mp hm with ⟨hm2, _⟩
        exact Obj.not_mem_keys_of_get_none hfresh hm2)]
      apply List.Nodup.append
      · exact List.Nodup.filter _ inv.keysNodup
      · simp
      · intro x hx hx2
        rw [List.mem_singleton] at hx2
        subst hx2
        rcases List.mem_filter.mp hx with ⟨hm2, _⟩
        exact Obj.not_mem_keys_of_get_none hfresh hm2
    · rw [Obj.keys_set, Obj.keys_del]
      rw [if_neg (by
        intro hm
        rcases List.mem_filter.mp hm with ⟨hm2, _⟩
        exact Obj.not_mem_keys_of_get_none hfresh hm2)]
      apply List.mem_append_left
      apply List.mem_filter.mpr
      refine ⟨Obj.mem_keys_of_get_eq_some hgfp, by simp [hfpf]⟩
  · -- roots part 1
    intro i h
    obtain ⟨n, hgi, hpn, hidx⟩ := inv.rootsOK.1 i h
    have hnc : nd.rootIds.get ⟨i, h⟩ ∉ node.childIds := by
      intro hc
      obtain ⟨cn, hgc, hpc⟩ := hchild _ hc
      rw [hgi] at hgc
      injection hgc with he
      rw [← he] at hpc
      rw [hpn] at hpc
      cases hpc
    by_cases hrfp : nd.rootIds.get ⟨i, h⟩ = fp
    · rw [hrfp, hgfp] at hgi
      injection hgi with hni
      refine ⟨{ parent with childIds := parent.childIds.map (fun c => if c = fieldId then nid else c) }, ?_, ?_, ?_⟩
      · rw [hfin, if_neg (hrfp ▸ hnc), if_pos hrfp]
      · show parent.parentId = none
        rw [hni]; exact hpn
      · show parent.index = i
        rw [hni]; exact hidx
    · have hnn : nd.rootIds.get ⟨i, h⟩ ≠ nid := by
        intro hceq
        rw [hceq, hfresh] at hgi
        cases hgi
      have hnf : nd.rootIds.get ⟨i, h⟩ ≠ fieldId := by
        intro hceq
        rw [hceq, hg] at hgi
        injection hgi with he
        rw [← he, hpar] at hpn
        cases hpn
      refine ⟨n, ?_, hpn, hidx⟩
      rw [hfin, if_neg hnc, if_neg hrfp, if_neg hnn, if_neg hnf]
      exact hgi
  · -- roots part 2
    intro c cn hgc hp
    rw [hfin] at hgc
    by_cases hk : c ∈ node.childIds
    · rw [if_pos hk] at hgc
      obtain ⟨cn0, hgc0, hpc0⟩ := hchild c hk
      rw [hgc0] at hgc
      simp only [Option.map_some'] at hgc
      injection hgc with he
      rw [← he] at hp
      simp at hp
    · rw [if_neg hk] at hgc
      by_cases hcfp : c = fp
      · rw [if_pos hcfp] at hgc
        injection hgc with he
        have hpp : parent.parentId = none := by
          rw [← hp, ← he]
        rw [hcfp]
        exact inv.rootsOK.2 fp parent hgfp hpp
      · rw [if_neg hcfp] at hgc
        by_cases hn : c = nid
        · rw [if_pos hn] at hgc
          injection hgc with he
          rw [← he] at hp
          have hx : node.parentId = none := hp
          rw [hpar] at hx
          cases hx
        · rw [if_neg hn] at hgc
          by_cases hf : c = fieldId
          · rw [if_pos hf] at hgc
            cases hgc
          · rw [if_neg hf] at hgc
            exact inv.rootsOK.2 c cn hgc hp
  · -- childrenOK
    intro p pn hgp
    rw [hfin] at hgp
    by_cases hk : p ∈ node.childIds
    · rw [if_pos hk] at hgp
      obtain ⟨cnp, hgcp, hpcp⟩ := hchild p hk
      rw [hgcp] at hgp
      simp only [Option.map_some'] at hgp
      injection hgp with he
      have hch : pn.childIds = cnp.childIds := by rw [← he]
      rw [hch]
      have hsibp := inv.childrenOK p cnp hgcp
      constructor
      · intro j hj
        obtain ⟨m, hgm, hpm, hidxm⟩ := hsibp.1 j hj
        have hem : cnp.childIds.get ⟨j, hj⟩ ∉ node.childIds := by
          intro hc
          obtain ⟨cc, hgcc, hpcc⟩ := hchild _ hc
          rw [hgm] at hgcc
          injection hgcc with he2
          rw [← he2] at hpcc
          rw [hpm] at hpcc
          injection hpcc with he3
          exact hcna p hk he3
        have hen : cnp.childIds.get ⟨j, hj⟩ ≠ nid := by
          intro hceq
          rw [hceq, hfresh] at hgm
          cases hgm
        have hef : cnp.childIds.get ⟨j, hj⟩ ≠ fieldId := by
          intro hceq
          rw [hceq, hg] at hgm
          injection hgm with he2
          rw [← he2, hpar] at hpm
          injection hpm with he3
          exact hfpNotChild (he3 ▸ hk)
        by_cases hefp : cnp.childIds.get ⟨j, hj⟩ = fp
        · rw [hefp, hgfp] at hgm
          injection hgm with hni
          refine ⟨{ parent with childIds := parent.childIds.map (fun c => if c = fieldId then nid else c) }, ?_, ?_, ?_⟩
          · rw [hfin, if_neg (hefp ▸ hem), if_pos hefp]
          · show parent.parentId = some p
            rw [hni]; exact hpm
          · show parent.index = j
            rw [hni]; exact hidxm
        · refine ⟨m, ?_, hpm, hidxm⟩
          rw [hfin, if_neg hem, if_neg hefp, if_neg hen, if_neg hef]
          exact hgm
      · intro c cn hgc hpc
        rw [hfin] at hgc
        by_cases hkc : c ∈ node.childIds
        · rw [if_pos hkc] at hgc
          obtain ⟨cc, hgcc, _⟩ := hchild c hkc
          rw [hgcc] at hgc
          simp only [Option.map_some'] at hgc
          injection hgc with he2
          rw [← he2] at hpc
          have hx : some nid = some p := hpc
          injection hx with he3
          exact absurd he3.symm (hcnn p hk)
        · rw [if_neg hkc] at hgc
          by_cases hcfp : c = fp
          · rw [if_pos hcfp] at hgc
            injection hgc with he2
            have hpp : parent.parentId = some p := by rw [← hpc, ← he2]
            rw [hcfp]
            exact hsibp.2 fp parent hgfp hpp
          · rw [if_neg hcfp] at hgc
            by_cases hcn : c = nid
            · rw [if_pos hcn] at hgc
              injection hgc with he2
              rw [← he2] at hpc
              have hx : node.parentId = some p := hpc
              rw [hpar] at hx
              injection hx with he3
              exact absurd (by rw [he3]; exact hk) hfpNotChild
            · rw [if_neg hcn] at hgc
              by_cases hcf : c = fieldId
              · rw [if_pos hcf] at hgc
                cases hgc
              · rw [if_neg hcf] at hgc
                exact hsibp.2 c cn hgc hpc
    · rw [if_neg hk] at hgp
      by_cases hpfp : p = fp
      · rw [if_pos hpfp] at hgp
        injection hgp with he
        have hch : pn.childIds =
            parent.childIds.map (fun c => if c = fieldId then nid else c) := by
          rw [← he]
        rw [hch]
        have hsibfp := inv.childrenOK fp parent hgfp
        constructor
        · intro j hj
          have hj2 : j < parent.childIds.length := by simpa using hj
          obtain ⟨m, hgm, hpm, hidxm⟩ := hsibfp.1 j hj2
          rw [listGetMap]
          by_cases hef : parent.childIds.get ⟨j, by simpa using hj⟩ = fieldId
          · rw [if_pos hef]
            have hgm2 : Obj.get nd.byId fieldId = some m := by
              rw [← hef]
              exact hgm
            rw [hg] at hgm2
            injection hgm2 with hni
            refine ⟨{ node with definition := newDef }, ?_, ?_, ?_⟩
            · rw [hfin, if_neg (fun hc => hcnn nid hc rfl),
                if_neg (fun hc : nid = fp => hfpn hc.symm), if_pos rfl]
            · show node.parentId = some p
              rw [hpar, hpfp]
            · show node.index = j
              rw [hni]; exact hidxm
          · rw [if_neg hef]
            have hem : parent.childIds.get ⟨j, by simpa using hj⟩ ∉ node.childIds := by
              intro hc
              obtain ⟨cc, hgcc, hpcc⟩ := hchild _ hc
              rw [hgm] at hgcc
              injection hgcc with he2
              rw [← he2] at hpcc
              rw [hpm] at hpcc
              injection hpcc with he3
              exact hfpf he3
            have hen : parent.childIds.get ⟨j, by simpa using hj⟩ ≠ nid := by
              intro hceq
              rw [hceq, hfresh] at hgm
              cases hgm
            have hefp2 : parent.childIds.get ⟨j, by simpa using hj⟩ ≠ fp := by
              intro hceq
              exact Inv_not_self_child inv hgfp (hceq ▸ List.get_mem _ _ _)
            refine ⟨m, ?_, ?_, hidxm⟩
            · rw [hfin, if_neg hem, if_neg hefp2, if_neg hen, if_neg hef]
              exact hgm
            · rw [hpm, hpfp]
        · intro c cn hgc hpc
          rw [hfin] at hgc
          by_cases hkc : c ∈ node.childIds
          · rw [if_pos hkc] at hgc
            obtain ⟨cc, hgcc, _⟩ := hchild c hkc
            rw [hgcc] at hgc
            simp only [Option.map_some'] at hgc
            injection hgc with he2
            rw [← he2] at hpc
            have hx : some nid = some p := hpc
            injection hx with he3
            exact absurd (hpfp ▸ he3.symm) hfpn
          · rw [if_neg hkc] at hgc
            by_cases hcfp : c = fp
            · rw [if_pos hcfp] at hgc
              injection hgc with he2
              have hpp : parent.parentId = some p := by rw [← hpc, ← he2]
              rw [hpfp] at hpp
              exact absurd (hsibfp.2 fp parent hgfp hpp)
                (Inv_not_self_child inv hgfp)
            · rw [if_neg hcfp] at hgc
              by_cases hcn : c = nid
              · rw [if_pos hcn] at hgc
                apply List.mem_map.mpr
                refine ⟨fieldId, hfieldInFp, by rw [if_pos rfl, hcn]⟩
              · rw [if_neg hcn] at hgc
                by_cases hcf : c = fieldId
                · rw [if_pos hcf] at hgc
                  cases hgc
                · rw [if_neg hcf] at hgc
                  have hmem := hsibfp.2 c cn hgc (by rw [hpc, hpfp])
                  apply List.mem_map.mpr
                  exact ⟨c, hmem, by rw [if_neg hcf]⟩
      · rw [if_neg hpfp] at hgp
        by_cases hn : p = nid
        · rw [if_pos hn] at hgp
          injection hgp with he
          have hch : pn.childIds = node.childIds := by rw [← he]
          rw [hch]
          constructor
          · intro j hj
            obtain ⟨m, hgm, hpm, hidxm⟩ := hsib.1 j hj
            refine ⟨{ m with parentId := some nid }, ?_, ?_, hidxm⟩
            · rw [hfin, if_pos (List.get_mem _ _ _), hgm]
              rfl
            · show some nid = some p
              rw [hn]
          · intro c cn hgc hpc
            rw [hfin] at hgc
            by_cases hkc : c ∈ node.childIds
            · exact hkc
            · rw [if_neg hkc] at hgc
              by_cases hcfp : c = fp
              · rw [if_pos hcfp] at hgc
                injection hgc with he2
                have hpp : parent.parentId = some nid := by
                  rw [← hn, ← hpc, ← he2]
                have hpe := inv.parentsExist fp parent nid hgfp hpp
                rw [hfresh] at hpe
                simp at hpe
              · rw [if_neg hcfp] at hgc
                by_cases hcn : c = nid
                · rw [if_pos hcn] at hgc
                  injection hgc with he2
                  rw [← he2] at hpc
                  have hx : node.parentId = some p := hpc
                  rw [hpar] at hx
                  injection hx with he3
                  exact absurd (he3.trans hn) hfpn
                · rw [if_neg hcn] at hgc
                  by_cases hcf : c = fieldId
                  · rw [if_pos hcf] at hgc
                    cases hgc
                  · rw [if_neg hcf] at hgc
                    have hpe := inv.parentsExist c cn nid hgc (by rw [← hn]; exact hpc)
                    rw [hfresh] at hpe
                    simp at hpe
        · rw [if_neg hn] at hgp
          by_cases hf : p = fieldId
          · rw [if_pos hf] at hgp
            cases hgp
          · rw [if_neg hf] at hgp
            have hsibp := inv.childrenOK p pn hgp
            constructor
            · intro j hj
              obtain ⟨m, hgm, hpm, hidxm⟩ := hsibp.1 j hj
              have hem : pn.childIds.get ⟨j, hj⟩ ∉ node.childIds := by
                intro hc
                obtain ⟨cc, hgcc, hpcc⟩ := hchild _ hc
                rw [hgm] at hgcc
                injection hgcc with he2
                rw [← he2] at hpcc
                rw [hpm] at hpcc
                injection hpcc with he3
                exact hf he3
              have hen : pn.childIds.get ⟨j, hj⟩ ≠ nid := by
                intro hceq
                rw [hceq, hfresh] at hgm
                cases hgm
              have hef : pn.childIds.get ⟨j, hj⟩ ≠ fieldId := by
                intro hceq
                rw [hceq, hg] at hgm
                injection hgm with he2
                rw [← he2, hpar] at hpm
                injection hpm with he3
                exact hpfp he3.symm
              by_cases hefp : pn.childIds.get ⟨j, hj⟩ = fp
              · rw [hefp, hgfp] at hgm
                injection hgm with hni
                refine ⟨{ parent with childIds := parent.childIds.map (fun c => if c = fieldId then nid else c) }, ?_, ?_, ?_⟩
                · rw [hfin, if_neg (hefp ▸ hem), if_pos hefp]
                · show parent.parentId = some p
                  rw [hni]; exact hpm
                · show parent.index = j
                  rw [hni]; exact hidxm
              · refine ⟨m, ?_, hpm, hidxm⟩
                rw [hfin, if_neg hem, if_neg hefp, if_neg hen, if_neg hef]
                exact hgm
            · intro c cn hgc hpc
              rw [hfin] at hgc
              by_cases hkc : c ∈ node.childIds
              · rw [if_pos hkc] at hgc
                obtain ⟨cc, hgcc, _⟩ := hchild c hkc
                rw [hgcc] at hgc
                simp only [Option.map_some'] at hgc
                injection hgc with he2
                rw [← he2] at hpc
                have hx : some nid = some p := hpc
                injection hx with he3
                exact absurd he3.symm hn
              · rw [if_neg hkc] at hgc
                by_cases hcfp : c = fp
                · rw [if_pos hcfp] at hgc
                  injection hgc with he2
                  have hpp : parent.parentId = some p := by rw [← hpc, ← he2]
                  rw [hcfp]
                  exact hsibp.2 fp parent hgfp hpp
                · rw [if_neg hcfp] at hgc
                  by_cases hcn : c = nid
                  · rw [if_pos hcn] at hgc
                    injection hgc with he2
                    rw [← he2] at hpc
                    have hx : node.parentId = some p := hpc
                    rw [hpar] at hx
                    injection hx with he3
                    exact absurd he3.symm hpfp
                  · rw [if_neg hcn] at hgc
                    by_cases hcf : c = fieldId
                    · rw [if_pos hcf] at hgc
                      cases hgc
                    · rw [if_neg hcf] at hgc
                      exact hsibp.2 c cn hgc hpc
  · -- parentsExist
    intro c cn q hgc hpq
    have hlive : ∀ x, (Obj.get nd.byId x).isSome = true → x ≠ fieldId →
        (Obj.get (node.childIds.foldl (fun acc childId =>
          match Obj.get acc childId with
          | some child => Obj.set acc childId { child with parentId := some nid }
          | none => acc)
        (Obj.set ((nd.byId.del fieldId).set nid { node with definition := newDef }) fp
          { parent with childIds := parent.childIds.map (fun c => if c = fieldId then nid else c) })) x).isSome
          = true := by
      intro x hx hxf
      rw [hfin]
      by_cases hkx : x ∈ node.childIds
      · rw [if_pos hkx]
        cases hgx : Obj.get nd.byId x with
        | none => rw [hgx] at hx; simp at hx
        | some m => simp
      · rw [if_neg hkx]
        by_cases hxfp : x = fp
        · rw [if_pos hxfp]; simp
        · rw [if_neg hxfp]
          by_cases hxn : x = nid
          · rw [if_pos hxn]; simp
          · rw [if_neg hxn, if_neg hxf]
            exact hx
    rw [hfin] at hgc
    by_cases hk : c ∈ node.childIds
    · rw [if_pos hk] at hgc
      obtain ⟨cc, hgcc, _⟩ := hchild c hk
      rw [hgcc] at hgc
      simp only [Option.map_some'] at hgc
      injection hgc with he
      rw [← he] at hpq
      have hx : some nid = some q := hpq
      injection hx with he2
      rw [← he2]
      rw [hfin, if_neg (fun hc => hcnn nid hc rfl),
        if_neg (fun hc : nid = fp => hfpn hc.symm), if_pos rfl]
      simp
    · rw [if_neg hk] at hgc
      by_cases hcfp : c = fp
      · rw [if_pos hcfp] at hgc
        injection hgc with he
        have hpp : parent.parentId = some q := by rw [← hpq, ← he]
        have hql := inv.parentsExist fp parent q hgfp hpp
        have hqf : q ≠ fieldId := by
          intro hqe
          subst hqe
          obtain ⟨pn2, hgp2, hcp2⟩ := Inv_childComplete inv hgfp hpp
          rw [hg] at hgp2
          injection hgp2 with he2
          rw [← he2] at hcp2
          exact hfpNotChild hcp2
        exact hlive q hql hqf
      · rw [if_neg hcfp] at hgc
        by_cases hn : c = nid
        · rw [if_pos hn] at hgc
          injection hgc with he
          rw [← he] at hpq
          have hx : node.parentId = some q := hpq
          rw [hpar] at hx
          injection hx with he2
          rw [← he2]
          exact hlive fp (by rw [hgfp]; rfl) hfpf
        · rw [if_neg hn] at hgc
          by_cases hf : c = fieldId
          · rw [if_pos hf] at hgc
            cases hgc
          · rw [if_neg hf] at hgc
            have hql := inv.parentsExist c cn q hgc hpq
            have hqf : q ≠ fieldId := by
              intro hqe
              subst hqe
              obtain ⟨pn2, hgp2, hcp2⟩ := Inv_childComplete inv hgc hpq
              rw [hg] at hgp2
              injection hgp2 with he2
              rw [← he2] at hcp2
              exact hk hcp2
            exact hlive q hql hqf
  · -- acyclic
    obtain ⟨rk, hrk⟩ := inv.acyclic
    refine ⟨fun k => if k = nid then rk fieldId else rk k, ?_⟩
    rintro p c ⟨pn, hgp, hcp⟩
    show (if p = nid then rk fieldId else rk p) < (if c = nid then rk fieldId else rk c)
    rw [hfin] at hgp
    by_cases hk : p ∈ node.childIds
    · rw [if_pos hk] at hgp
      obtain ⟨cnp, hgcp, _⟩ := hchild p hk
      rw [hgcp] at hgp
      simp only [Option.map_some'] at hgp
      injection hgp with he
      have hcp2 : c ∈ cnp.childIds := by
        rw [← he] at hcp
        exact hcp
      have hedge := hrk p c ⟨cnp, hgcp, hcp2⟩
      obtain ⟨cc, hgcc, _⟩ := SibOK_mem (inv.childrenOK p cnp hgcp) hcp2
      have hcn2 : c ≠ nid := by
        intro hceq
        rw [hceq, hfresh] at hgcc
        cases hgcc
      rw [if_neg (hcnn p hk), if_neg hcn2]
      exact hedge
    · rw [if_neg hk] at hgp
      by_cases hpfp : p = fp
      · rw [if_pos hpfp] at hgp
        injection hgp with he
        have hcp2 : c ∈ parent.childIds.map (fun x => if x = fieldId then nid else x) := by
          rw [← he] at hcp
          exact hcp
        rcases List.mem_map.mp hcp2 with ⟨u, hu, hcu⟩
        by_cases huf : u = fieldId
        · rw [if_pos huf] at hcu
          have hedge := hrk fp fieldId ⟨parent, hgfp, hfieldInFp⟩
          rw [if_neg (fun hc : p = nid => hfpn (hpfp.symm.trans hc)), ← hcu, if_pos rfl]
          rw [hpfp]
          exact hedge
        · rw [if_neg huf] at hcu
          have hedge := hrk fp u ⟨parent, hgfp, hu⟩
          obtain ⟨cc, hgcc, _⟩ := SibOK_mem (inv.childrenOK fp parent hgfp) hu
          have hun : u ≠ nid := by
            intro hceq
            rw [hceq, hfresh] at hgcc
            cases hgcc
          rw [if_neg (fun hc : p = nid => hfpn (hpfp.symm.trans hc)), ← hcu, if_neg hun, hpfp]
          exact hedge
      · rw [if_neg hpfp] at hgp
        by_cases hn : p = nid
        · rw [if_pos hn] at hgp
          injection hgp with he
          have hcp2 : c ∈ node.childIds := by
            rw [← he] at hcp
            exact hcp
          have hedge := hrk fieldId c ⟨node, hg, hcp2⟩
          have hcn2 : c ≠ nid := hcnn c hcp2
          rw [if_pos hn, if_neg hcn2]
          exact hedge
        · rw [if_neg hn] at hgp
          by_cases hf : p = fieldId
          · rw [if_pos hf] at hgp
            cases hgp
          · rw [if_neg hf] at hgp
            have hedge := hrk p c ⟨pn, hgp, hcp⟩
            obtain ⟨cc, hgcc, _⟩ := SibOK_mem (inv.childrenOK p pn hgp) hcp
            have hcn2 : c ≠ nid := by
              intro hceq
              rw [hceq, hfresh] at hgcc
              cases hgcc
            rw [if_neg hn, if_neg hcn2]
            exact hedge

/-! ## Empty-string ids and JS truthiness on reachable states -/

/-- No entry of the index is keyed by the empty string. The engine never
generates an empty id, so every state reached from a definition without
empty ids (and without an explicit rename to the empty string) satisfies
this; on such states the truthiness guards on parent ids coincide with
presence. -/
def KeysNE (nd : NormalizedDefinition) : Prop := "" ∉ Obj.keys nd.byId

theorem truthyId_some_of_ne {p : String} (h : p ≠ "") : truthyId (some p) = some p := by
  simp only [truthyId]
  rw [if_neg h]

theorem truthyId_eq_some {x : Option String} {p : String} (h : truthyId x = some p) :
    x = some p := by
  cases x with
  | none => cases h
  | some q =>
      simp only [truthyId] at h
      by_cases hq : q = ""
      · rw [if_pos hq] at h
        cases h
      · rw [if_neg hq] at h
        exact h.symm ▸ rfl

theorem truthyId_eq_none {x : Option String} (h : truthyId x = none) :
    x = none ∨ x = some "" := by
  cases x with
  | none => exact Or.inl rfl
  | some q =>
      simp only [truthyId] at h
      by_cases hq : q = ""
      · exact Or.inr (by rw [hq])
      · rw [if_neg hq] at h
        cases h

theorem KeysNE_get_empty {nd : NormalizedDefinition} (hke : KeysNE nd) :
    Obj.get nd.byId "" = none := by
  cases hg : Obj.get nd.byId "" with
  | none => rfl
  | some v => exact absurd (Obj.mem_keys_of_get_eq_some hg) hke

theorem Inv_parentId_ne_empty {nd : NormalizedDefinition} (inv : Inv nd)
    (hke : KeysNE nd) {c : String} {cn : FieldNode}
    (hg : Obj.get nd.byId c = some cn) {q : String} (hp : cn.parentId = some q) :
    q ≠ "" := by
  intro he
  have hs := inv.parentsExist c cn q hg hp
  rw [he, KeysNE_get_empty hke] at hs
  simp at hs

/-- On a reachable state a stored parent id is never the empty string, so
the truthiness test on it is the identity. -/
theorem truthyId_parent {nd : NormalizedDefinition} (inv : Inv nd) (hke : KeysNE nd)
    {c : String} {cn : FieldNode} (hg : Obj.get nd.byId c = some cn) :
    truthyId cn.parentId = cn.parentId := by
  cases hp : cn.parentId with
  | none => rfl
  | some q => exact truthyId_some_of_ne (Inv_parentId_ne_empty inv hke hg hp)

theorem generateId_ne_empty (pfx : String) (existing : List String) (h : pfx ≠ "") :
    generateId pfx existing ≠ "" := by
  unfold generateId
  by_cases hm : pfx ∈ existing
  · rw [if_pos hm]
    intro he
    have hlen := congrArg String.length he
    rw [String.length_append, String.length_append] at hlen
    have h1 : String.length "-" = 1 := rfl
    have h0 : String.length "" = 0 := rfl
    rw [h1, h0] at hlen
    omega
  · rw [if_neg hm]
    exact h

theorem generateFieldId_ne_empty (fieldType : String) (existing : List String)
    (parentId : Option String) : generateFieldId fieldType existing parentId ≠ "" := by
  unfold generateFieldId
  apply generateId_ne_empty
  cases htr : truthyId parentId with
  | some p =>
      dsimp only
      intro he
      have hlen := congrArg String.length he
      rw [String.length_append, String.length_append] at hlen
      have h1 : String.length "-" = 1 := rfl
      have h0 : String.length "" = 0 := rfl
      rw [h1, h0] at hlen
      omega
  | none =>
      dsimp only
      by_cases hft : fieldType = ""
      · rw [if_pos hft]
        intro he
        exact absurd he (by decide)
      · rw [if_neg hft]
        exact hft

theorem keys_reindex (B : Obj FieldNode) (ids : List String) :
    Obj.keys (reindexChildren B ids) = Obj.keys B := by
  unfold reindexChildren
  exact reindexFrom_keys ids B 0

theorem keysNE_set_mem {byId : Obj FieldNode} (h : "" ∉ Obj.keys byId)
    {k : String} (hk : k ∈ Obj.keys byId) (v : FieldNode) :
    "" ∉ Obj.keys (Obj.set byId k v) := by
  rw [Obj.keys_set_of_mem v hk]
  exact h

theorem keysNE_set {byId : Obj FieldNode} (h : "" ∉ Obj.keys byId)
    {k : String} (hk : k ≠ "") (v : FieldNode) :
    "" ∉ Obj.keys (Obj.set byId k v) := by
  rw [Obj.keys_set]
  by_cases hm : k ∈ Obj.keys byId
  · rw [if_pos hm]
    exact h
  · rw [if_neg hm]
    intro hmem
    rcases List.mem_append.mp hmem with h2 | h2
    · exact h h2
    · rw [List.mem_singleton] at h2
      exact hk h2.symm

theorem keysNE_del {byId : Obj FieldNode} (h : "" ∉ Obj.keys byId) (k : String) :
    "" ∉ Obj.keys (Obj.del byId k) := by
  rw [Obj.keys_del]
  intro hm
  exact h (List.mem_of_mem_filter hm)

theorem keysNE_setParents {byId : Obj FieldNode} (h : "" ∉ Obj.keys byId)
    (ids : List String) (newId : String) :
    "" ∉ Obj.keys (ids.foldl (fun acc childId =>
      match Obj.get acc childId with
      | some child => Obj.set acc childId { child with parentId := some newId }
      | none => acc) byId) := by
  rw [setParents_keys]
  exact h

theorem updateField_preserves (s : EngineState) (fieldId : String) (patch : FieldPatch)
    (hpid0 : patch.id ≠ some "") (inv : Inv s.normalized) (hke : KeysNE s.normalized) :
    Inv (updateField s fieldId patch).2.normalized ∧
      KeysNE (updateField s fieldId patch).2.normalized := by
  unfold updateField
  cases hg : Obj.get s.normalized.byId fieldId with
  | none => exact ⟨inv, hke⟩
  | some node =>
      dsimp only
      rw [truthyId_parent inv hke hg]
      have hpf : patchFieldFn s.normalized fieldId (fun d => some (applyPatch d patch)) =
          some { s.normalized with byId := Obj.set s.normalized.byId fieldId { node with definition := applyPatch node.definition patch } } := by
        unfold patchFieldFn
        rw [hg]
      have hkeset : KeysNE { s.normalized with byId := Obj.set s.normalized.byId fieldId { node with definition := applyPatch node.definition patch } } :=
        keysNE_set_mem hke (Obj.mem_keys_of_get_eq_some hg) _
      cases hpid : patch.id with
      | none =>
          rw [if_neg (by simp)]
          rw [hpf]
          exact ⟨Inv_set_definition inv fieldId node hg _, hkeset⟩
      | some nid =>
          have hnid : nid ≠ "" := by
            intro he
            rw [he] at hpid
            exact hpid0 hpid
          by_cases hne : nid = fieldId
          · rw [if_neg (by simp [hne])]
            rw [hpf]
            exact ⟨Inv_set_definition inv fieldId node hg _, hkeset⟩
          · rw [if_pos (by simp [hne])]
            simp only [Option.getD_some]
            cases hfr : Obj.get s.normalized.byId nid with
            | some x =>
                rw [if_pos (by simp)]
                exact ⟨inv, hke⟩
            | none =>
                rw [if_neg (by simp)]
                dsimp only
                have hkeb1 : "" ∉ Obj.keys ((s.normalized.byId.del fieldId).set nid
                    { node with definition := applyPatch node.definition patch }) :=
                  keysNE_set (keysNE_del hke fieldId) hnid _
                cases hpar : node.parentId with
                | none =>
                    dsimp only
                    refine ⟨Inv_rename_none s.normalized inv fieldId nid node
                      (applyPatch node.definition patch) _ (by rw [hpar]) hg hpar hfr hne, ?_⟩
                    show "" ∉ Obj.keys _
                    apply keysNE_setParents
                    rw [hpar] at hkeb1
                    exact hkeb1
                | some fp =>
                    dsimp only
                    have hpe := inv.parentsExist fieldId node fp hg hpar
                    cases hgfp : Obj.get s.normalized.byId fp with
                    | none =>
                        rw [hgfp] at hpe
                        simp at hpe
                    | some parent =>
                        have hfpn : fp ≠ nid := by
                          intro he
                          rw [he, hfr] at hgfp
                          cases hgfp
                        have hfpf : fp ≠ fieldId := by
                          intro he
                          rw [he] at hpar
                          obtain ⟨pn2, hgp2, hcp2⟩ := Inv_childComplete inv hg hpar
                          rw [hg] at hgp2
                          injection hgp2 with he2
                          rw [← he2] at hcp2
                          exact Inv_not_self_child inv hg hcp2
                        have hb1fp : Obj.get ((s.normalized.byId.del fieldId).set nid
                            { definition := applyPatch node.definition patch, parentId := some fp, childIds := node.childIds, index := node.index }) fp =
                            some parent := by
                          rw [Obj.get_set, if_neg hfpn, Obj.get_del, if_neg hfpf]
                          exact hgfp
                        rw [hb1fp]
                        dsimp only
                        refine ⟨Inv_rename_some s.normalized inv fieldId nid fp node parent
                          (applyPatch node.definition patch) _ (by rw [hpar]) hg hpar hgfp hfr hne, ?_⟩
                        show "" ∉ Obj.keys _
                        apply keysNE_setParents
                        apply keysNE_set_mem _ (Obj.mem_keys_of_get_eq_some hb1fp)
                        rw [hpar] at hkeb1
                        exact hkeb1

/-! ## `removeField` preserves the invariant -/

theorem remove_T_mem {nd : NormalizedDefinition} (inv : Inv nd) (fieldId : String) :
    ∀ c, c ∈ (fieldId :: collectDescendants nd.byId fieldId) ↔
      (c = fieldId ∨ Desc nd.byId fieldId c) := by
  intro c
  rw [List.mem_cons, Inv_mem_collect_iff inv]

theorem remove_T_closed {nd : NormalizedDefinition} (inv : Inv nd) {fieldId q c : String}
    (hq : q ∈ fieldId :: collectDescendants nd.byId fieldId)
    (he : HasChild nd.byId q c) :
    c ∈ fieldId :: collectDescendants nd.byId fieldId := by
  rw [remove_T_mem inv] at hq ⊢
  rcases hq with rfl | hd
  · exact Or.inr (Desc.child he)
  · exact Or.inr (Desc_snoc hd he)

theorem remove_survivor {nd : NormalizedDefinition} (inv : Inv nd) {fieldId q c : String}
    {cn : FieldNode} (hgc : Obj.get nd.byId c = some cn) (hpc : cn.parentId = some q)
    (hq : q ∉ fieldId :: collectDescendants nd.byId fieldId) (hcf : c ≠ fieldId) :
    c ∉ fieldId :: collectDescendants nd.byId fieldId := by
  intro hc
  rw [remove_T_mem inv] at hc hq
  rcases hc with rfl | hd
  · exact hcf rfl
  · obtain ⟨m, hm, hor⟩ := Desc_last hd
    have := Inv_parent_unique inv hgc hm
    rw [hpc] at this
    injection this with he
    subst he
    rcases hor with rfl | hdm
    · exact hq (Or.inl rfl)
    · exact hq (Or.inr hdm)

theorem hasChild_filter {nd : NormalizedDefinition} {L : List String} {q c : String}
    (h : HasChild (nd.byId.filter (fun e => e.1 ∉ L)) q c) : HasChild nd.byId q c := by
  obtain ⟨n, hgq, hc⟩ := h
  rw [Obj.get_filter_not_mem] at hgq
  by_cases hm : q ∈ L
  · rw [if_pos hm] at hgq; cases hgq
  · rw [if_neg hm] at hgq
    exact ⟨n, hgq, hc⟩

/-- Invariant preservation for removing a root-level field. -/
theorem Inv_remove_root (nd : NormalizedDefinition) (inv : Inv nd)
    (fieldId : String) (node : FieldNode)
    (hg : Obj.get nd.byId fieldId = some node) (hpar : node.parentId = none) :
    Inv ⟨reindexChildren
        (nd.byId.filter (fun e => e.1 ∉ (fieldId :: collectDescendants nd.byId fieldId)))
        (nd.rootIds.filter (fun r => r ≠ fieldId)),
      nd.rootIds.filter (fun r => r ≠ fieldId)⟩ := by
  have hB : ∀ k, Obj.get (nd.byId.filter
      (fun e => e.1 ∉ (fieldId :: collectDescendants nd.byId fieldId))) k =
      if k ∈ fieldId :: collectDescendants nd.byId fieldId then none
      else Obj.get nd.byId k := fun k => Obj.get_filter_not_mem _ _ _
  have hRnd : (nd.rootIds.filter (fun r => r ≠ fieldId)).Nodup :=
    List.Nodup.filter _ (SibOK_nodup inv.rootsOK)
  have hrootsurv : ∀ r, r ∈ nd.rootIds → r ≠ fieldId →
      r ∉ fieldId :: collectDescendants nd.byId fieldId := by
    intro r hr hrf hc
    rw [remove_T_mem inv] at hc
    rcases hc with rfl | hd
    · exact hrf rfl
    · obtain ⟨m, hm, _⟩ := Desc_last hd
      obtain ⟨n, hgr, hpn⟩ := SibOK_mem inv.rootsOK hr
      have := Inv_parent_unique inv hgr hm
      rw [hpn] at this
      cases this
  refine ⟨?_, ?_, ?_, ?_, ?_⟩
  · show (Obj.keys (reindexChildren _ _)).Nodup
    unfold reindexChildren
    rw [reindexFrom_keys, Obj.keys_filter_not_mem]
    exact List.Nodup.filter _ inv.keysNodup
  · apply SibOK_reindex hRnd
    · intro c hc
      rcases List.mem_filter.mp hc with ⟨hcr, hcf⟩
      have hcf2 : c ≠ fieldId := by simpa using hcf
      obtain ⟨n, hgr, hpn⟩ := SibOK_mem inv.rootsOK hcr
      refine ⟨n, ?_, hpn⟩
      rw [hB, if_neg (hrootsurv c hcr hcf2)]
      exact hgr
    · intro c cn hgc hpc
      rw [hB] at hgc
      by_cases hm : c ∈ fieldId :: collectDescendants nd.byId fieldId
      · rw [if_pos hm] at hgc; cases hgc
      · rw [if_neg hm] at hgc
        apply List.mem_filter.mpr
        refine ⟨inv.rootsOK.2 c cn hgc hpc, ?_⟩
        simp only [ne_eq, decide_not]
        have : c ≠ fieldId := by
          intro he
          exact hm (he ▸ List.mem_cons_self _ _)
        simp [this]
  · intro p pn hgp
    unfold reindexChildren at hgp
    obtain ⟨pn0, hgB, hpn0⟩ := reindexFrom_get_some _ _ _ _ _ hgp
    rw [hB] at hgB
    by_cases hm : p ∈ fieldId :: collectDescendants nd.byId fieldId
    · rw [if_pos hm] at hgB; cases hgB
    · rw [if_neg hm] at hgB
      have hch : pn.childIds = pn0.childIds := by rw [hpn0]
      rw [hch]
      have hsibp := inv.childrenOK p pn0 hgB
      apply SibOK_reindex_other hRnd
      · constructor
        · intro j hj
          obtain ⟨m, hgm, hpm, hidxm⟩ := hsibp.1 j hj
          have hcf : pn0.childIds.get ⟨j, hj⟩ ≠ fieldId := by
            intro he
            have hx := hpm
            rw [he, hg] at hgm
            injection hgm with he2
            rw [← he2, hpar] at hx
            cases hx
          refine ⟨m, ?_, hpm, hidxm⟩
          rw [hB, if_neg (remove_survivor inv hgm hpm hm hcf)]
          exact hgm
        · intro c cn hgc hpc
          rw [hB] at hgc
          by_cases hmc : c ∈ fieldId :: collectDescendants nd.byId fieldId
          · rw [if_pos hmc] at hgc; cases hgc
          · rw [if_neg hmc] at hgc
            exact hsibp.2 c cn hgc hpc
      · intro c hc
        obtain ⟨cn, hgc, hpc⟩ := SibOK_mem hsibp hc
        intro hcr
        rcases List.mem_filter.mp hcr with ⟨hcroot, _⟩
        obtain ⟨n2, hgr2, hpn2⟩ := SibOK_mem inv.rootsOK hcroot
        rw [hgc] at hgr2
        injection hgr2 with he2
        rw [← he2, hpc] at hpn2
        cases hpn2
  · intro c cn q hgc hpq
    unfold reindexChildren at hgc ⊢
    obtain ⟨cn0, hgB, hcn0⟩ := reindexFrom_get_some _ _ _ _ _ hgc
    rw [hB] at hgB
    by_cases hm : c ∈ fieldId :: collectDescendants nd.byId fieldId
    · rw [if_pos hm] at hgB; cases hgB
    · rw [if_neg hm] at hgB
      have hpq0 : cn0.parentId = some q := by
        have h2 := congrArg FieldNode.parentId hcn0
        rw [← hpq]
        exact h2.symm
      have hqm : q ∉ fieldId :: collectDescendants nd.byId fieldId := by
        intro hqin
        obtain ⟨pn2, hgq2, hcq2⟩ := Inv_childComplete inv hgB hpq0
        exact hm (remove_T_closed inv hqin ⟨pn2, hgq2, hcq2⟩)
      have hqs := inv.parentsExist c cn0 q hgB hpq0
      rw [reindexFrom_isSome, hB, if_neg hqm]
      exact hqs
  · obtain ⟨rk, hrk⟩ := inv.acyclic
    refine ⟨rk, ?_⟩
    intro p c h
    exact hrk p c (hasChild_filter (hasChild_reindexFrom h))

theorem remove_survivor_none {nd : NormalizedDefinition} (inv : Inv nd)
    {fieldId c : String} {cn : FieldNode} (hgc : Obj.get nd.byId c = some cn)
    (hpc : cn.parentId = none) (hcf : c ≠ fieldId) :
    c ∉ fieldId :: collectDescendants nd.byId fieldId := by
  intro hc
  rw [remove_T_mem inv] at hc
  rcases hc with rfl | hd
  · exact hcf rfl
  · obtain ⟨m, hm, _⟩ := Desc_last hd
    have := Inv_parent_unique inv hgc hm
    rw [hpc] at this
    cases this

/-- Invariant preservation for removing a field stored under a parent. -/
theorem Inv_remove_parent (nd : NormalizedDefinition) (inv : Inv nd)
    (fieldId p : String) (node parent : FieldNode)
    (hg : Obj.get nd.byId fieldId = some node) (hpar : node.parentId = some p)
    (hgp : Obj.get nd.byId p = some parent) :
    Inv ⟨reindexChildren
        (Obj.set (nd.byId.filter
            (fun e => e.1 ∉ (fieldId :: collectDescendants nd.byId fieldId))) p
          { parent with childIds := parent.childIds.filter (fun c => c ≠ fieldId) })
        (parent.childIds.filter (fun c => c ≠ fieldId)),
      nd.rootIds⟩ := by
  have hfieldInP : fieldId ∈ parent.childIds :=
    (inv.childrenOK p parent hgp).2 fieldId node hg hpar
  have hpT : p ∉ fieldId :: collectDescendants nd.byId fieldId := by
    intro hc
    rw [remove_T_mem inv] at hc
    have hedge : HasChild nd.byId p fieldId := ⟨parent, hgp, hfieldInP⟩
    obtain ⟨rk, hrk⟩ := inv.acyclic
    rcases hc with rfl | hd
    · exact absurd (hrk _ _ hedge) (lt_irrefl _)
    · exact absurd (Desc_rank hrk (Desc_snoc hd hedge)) (lt_irrefl _)
  have hB : ∀ k, Obj.get (nd.byId.filter
      (fun e => e.1 ∉ (fieldId :: collectDescendants nd.byId fieldId))) k =
      if k ∈ fieldId :: collectDescendants nd.byId fieldId then none
      else Obj.get nd.byId k := fun k => Obj.get_filter_not_mem _ _ _
  have hBp : Obj.get (nd.byId.filter
      (fun e => e.1 ∉ (fieldId :: collectDescendants nd.byId fieldId))) p = some parent := by
    rw [hB, if_neg hpT]
    exact hgp
  have hB2 : ∀ k, Obj.get (Obj.set (nd.byId.filter
      (fun e => e.1 ∉ (fieldId :: collectDescendants nd.byId fieldId))) p
      { parent with childIds := parent.childIds.filter (fun c => c ≠ fieldId) }) k =
      if k = p then some { parent with childIds := parent.childIds.filter (fun c => c ≠ fieldId) }
      else Obj.get (nd.byId.filter
        (fun e => e.1 ∉ (fieldId :: collectDescendants nd.byId fieldId))) k :=
    fun k => Obj.get_set _ _ _ _
  have hsibP := inv.childrenOK p parent hgp
  have hFnd : (parent.childIds.filter (fun c => c ≠ fieldId)).Nodup :=
    List.Nodup.filter _ (SibOK_nodup hsibP)
  have hFsurv : ∀ c ∈ parent.childIds.filter (fun c => c ≠ fieldId),
      ∃ cn, Obj.get nd.byId c = some cn ∧ cn.parentId = some p ∧
        c ∉ fieldId :: collectDescendants nd.byId fieldId := by
    intro c hc
    rcases List.mem_filter.mp hc with ⟨hcp, hcf⟩
    have hcf2 : c ≠ fieldId := by simpa using hcf
    obtain ⟨cn, hgc, hpc⟩ := SibOK_mem hsibP hcp
    exact ⟨cn, hgc, hpc, remove_survivor inv hgc hpc hpT hcf2⟩
  have hpneF : p ∉ parent.childIds.filter (fun c => c ≠ fieldId) := by
    intro hc
    rcases List.mem_filter.mp hc with ⟨hcp, _⟩
    exact Inv_not_self_child inv hgp hcp
  refine ⟨?_, ?_, ?_, ?_, ?_⟩
  · show (Obj.keys (reindexChildren _ _)).Nodup
    unfold reindexChildren
    rw [reindexFrom_keys, Obj.keys_set_of_mem _ (Obj.mem_keys_of_get_eq_some hBp),
      Obj.keys_filter_not_mem]
    exact List.Nodup.filter _ inv.keysNodup
  · apply SibOK_reindex_other hFnd
    · constructor
      · intro i hi
        obtain ⟨n, hgr, hpn, hidx⟩ := inv.rootsOK.1 i hi
        have hrf : nd.rootIds.get ⟨i, hi⟩ ≠ fieldId := by
          intro he
          rw [he, hg] at hgr
          injection hgr with he2
          rw [← he2, hpar] at hpn
          cases hpn
        by_cases hrp : nd.rootIds.get ⟨i, hi⟩ = p
        · rw [hrp, hgp] at hgr
          injection hgr with he2
          refine ⟨{ parent with childIds := parent.childIds.filter (fun c => c ≠ fieldId) }, ?_, ?_, ?_⟩
          · rw [hB2, if_pos hrp]
          · show parent.parentId = none
            rw [he2]; exact hpn
          · show parent.index = i
            rw [he2]; exact hidx
        · refine ⟨n, ?_, hpn, hidx⟩
          rw [hB2, if_neg hrp, hB,
            if_neg (remove_survivor_none inv hgr hpn hrf)]
          exact hgr
      · intro c cn hgc hpc
        rw [hB2] at hgc
        by_cases hcp : c = p
        · rw [if_pos hcp] at hgc
          injection hgc with he
          have hpp : parent.parentId = none := by rw [← hpc, ← he]
          rw [hcp]
          exact inv.rootsOK.2 p parent hgp hpp
        · rw [if_neg hcp, hB] at hgc
          by_cases hm : c ∈ fieldId :: collectDescendants nd.byId fieldId
          · rw [if_pos hm] at hgc; cases hgc
          · rw [if_neg hm] at hgc
            exact inv.rootsOK.2 c cn hgc hpc
    · intro r hr hrF
      obtain ⟨cn, hgc, hpc, _⟩ := hFsurv r hrF
      obtain ⟨n2, hgr2, hpn2⟩ := SibOK_mem inv.rootsOK hr
      rw [hgc] at hgr2
      injection hgr2 with he2
      rw [← he2, hpc] at hpn2
      cases hpn2
  · intro q qn hgq
    unfold reindexChildren at hgq
    obtain ⟨qn0, hgB2, hqn0⟩ := reindexFrom_get_some _ _ _ _ _ hgq
    have hch : qn.childIds = qn0.childIds := by rw [hqn0]
    rw [hch]
    rw [hB2] at hgB2
    by_cases hqp : q = p
    · rw [if_pos hqp] at hgB2
      injection hgB2 with he
      have hch2 : qn0.childIds = parent.childIds.filter (fun c => c ≠ fieldId) := by
        rw [← he]
      rw [hch2, hqp]
      apply SibOK_reindex hFnd
      · intro c hc
        obtain ⟨cn, hgc, hpc, hcT⟩ := hFsurv c hc
        have hcnp : c ≠ p := fun he2 => hpneF (he2 ▸ hc)
        refine ⟨cn, ?_, hpc⟩
        rw [hB2, if_neg hcnp, hB, if_neg hcT]
        exact hgc
      · intro c cn hgc hpc
        rw [hB2] at hgc
        by_cases hcp : c = p
        · rw [if_pos hcp] at hgc
          injection hgc with he2
          have hpp : parent.parentId = some p := by rw [← hpc, ← he2]
          obtain ⟨pn2, hgp2, hcp2⟩ := Inv_childComplete inv hgp hpp
          rw [hgp] at hgp2
          injection hgp2 with he3
          rw [← he3] at hcp2
          exact absurd hcp2 (Inv_not_self_child inv hgp)
        · rw [if_neg hcp, hB] at hgc
          by_cases hm : c ∈ fieldId :: collectDescendants nd.byId fieldId
          · rw [if_pos hm] at hgc; cases hgc
          · rw [if_neg hm] at hgc
            apply List.mem_filter.mpr
            refine ⟨hsibP.2 c cn hgc hpc, ?_⟩
            have : c ≠ fieldId := by
              intro he2
              exact hm (he2 ▸ List.mem_cons_self _ _)
            simp [this]
    · rw [if_neg hqp, hB] at hgB2
      by_cases hm : q ∈ fieldId :: collectDescendants nd.byId fieldId
      · rw [if_pos hm] at hgB2; cases hgB2
      · rw [if_neg hm] at hgB2
        have hsibq := inv.childrenOK q qn0 hgB2
        apply SibOK_reindex_other hFnd
        · constructor
          · intro j hj
            obtain ⟨m, hgm, hpm, hidxm⟩ := hsibq.1 j hj
            have hcf : qn0.childIds.get ⟨j, hj⟩ ≠ fieldId := by
              intro he
              rw [he, hg] at hgm
              injection hgm with he2
              rw [← he2, hpar] at hpm
              injection hpm with he3
              exact hqp he3.symm
            by_cases hcp : qn0.childIds.get ⟨j, hj⟩ = p
            · rw [hcp, hgp] at hgm
              injection hgm with he2
              refine ⟨{ parent with childIds := parent.childIds.filter (fun c => c ≠ fieldId) }, ?_, ?_, ?_⟩
              · rw [hB2, if_pos hcp]
              · show parent.parentId = some q
                rw [he2]; exact hpm
              · show parent.index = j
                rw [he2]; exact hidxm
            · refine ⟨m, ?_, hpm, hidxm⟩
              rw [hB2, if_neg hcp, hB,
                if_neg (remove_survivor inv hgm hpm hm hcf)]
              exact hgm
          · intro c cn hgc hpc
            rw [hB2] at hgc
            by_cases hcp : c = p
            · rw [if_pos hcp] at hgc
              injection hgc with he2
              have hpp : parent.parentId = some q := by rw [← hpc, ← he2]
              obtain ⟨pn2, hgq2, hcq2⟩ := Inv_childComplete inv hgp hpp
              rw [hgB2] at hgq2
              injection hgq2 with he3
              rw [← he3] at hcq2
              rw [hcp]
              exact hcq2
            · rw [if_neg hcp, hB] at hgc
              by_cases hm2 : c ∈ fieldId :: collectDescendants nd.byId fieldId
              · rw [if_pos hm2] at hgc; cases hgc
              · rw [if_neg hm2] at hgc
                exact hsibq.2 c cn hgc hpc
        · intro c hc hcF
          obtain ⟨cn, hgc, hpc, _⟩ := hFsurv c hcF
          obtain ⟨cn2, hgc2, hpc2⟩ := SibOK_mem hsibq hc
          rw [hgc] at hgc2
          injection hgc2 with he2
          rw [← he2, hpc] at hpc2
          injection hpc2 with he3
          exact hqp he3.symm
  · intro c cn q hgc hpq
    unfold reindexChildren at hgc ⊢
    obtain ⟨cn0, hgB2, hcn0⟩ := reindexFrom_get_some _ _ _ _ _ hgc
    have hpq0 : cn0.parentId = some q := by
      have h2 := congrArg FieldNode.parentId hcn0
      rw [← hpq]
      exact h2.symm
    rw [reindexFrom_isSome, hB2]
    rw [hB2] at hgB2
    by_cases hcp : c = p
    · rw [if_pos hcp] at hgB2
      injection hgB2 with he
      have hpp : parent.parentId = some q := by rw [← hpq0, ← he]
      have hqT : q ∉ fieldId :: collectDescendants nd.byId fieldId := by
        intro hqin
        obtain ⟨pn2, hgq2, hcq2⟩ := Inv_childComplete inv hgp hpp
        exact hpT (remove_T_closed inv hqin ⟨pn2, hgq2, hcq2⟩)
      by_cases hqp : q = p
      · rw [if_pos hqp]; simp
      · rw [if_neg hqp, hB, if_neg hqT]
        exact inv.parentsExist p parent q hgp hpp
    · rw [if_neg hcp, hB] at hgB2
      by_cases hm : c ∈ fieldId :: collectDescendants nd.byId fieldId
      · rw [if_pos hm] at hgB2; cases hgB2
      · rw [if_neg hm] at hgB2
        have hqT : q ∉ fieldId :: collectDescendants nd.byId fieldId := by
          intro hqin
          obtain ⟨pn2, hgq2, hcq2⟩ := Inv_childComplete inv hgB2 hpq0
          exact hm (remove_T_closed inv hqin ⟨pn2, hgq2, hcq2⟩)
        by_cases hqp : q = p
        · rw [if_pos hqp]; simp
        · rw [if_neg hqp, hB, if_neg hqT]
          exact inv.parentsExist c cn0 q hgB2 hpq0
  · obtain ⟨rk, hrk⟩ := inv.acyclic
    refine ⟨rk, ?_⟩
    intro q c h
    obtain ⟨n, hgn, hc⟩ := hasChild_reindexFrom h
    rw [hB2] at hgn
    by_cases hqp : q = p
    · rw [if_pos hqp] at hgn
      injection hgn with he
      have hcF : c ∈ parent.childIds.filter (fun x => x ≠ fieldId) := by
        rw [← he] at hc
        exact hc
      rcases List.mem_filter.mp hcF with ⟨hcp2, _⟩
      rw [hqp]
      exact hrk p c ⟨parent, hgp, hcp2⟩
    · rw [if_neg hqp, hB] at hgn
      by_cases hm : q ∈ fieldId :: collectDescendants nd.byId fieldId
      · rw [if_pos hm] at hgn; cases hgn
      · rw [if_neg hm] at hgn
        exact hrk q c ⟨n, hgn, hc⟩

theorem keysNE_filter {byId : Obj FieldNode} (h : "" ∉ Obj.keys byId)
    (L : List String) :
    "" ∉ Obj.keys (byId.filter (fun e => e.1 ∉ L)) := by
  rw [Obj.keys_filter_not_mem]
  intro hm
  exact h (List.mem_of_mem_filter hm)

theorem removeField_preserves (s : EngineState) (fieldId : String)
    (inv : Inv s.normalized) (hke : KeysNE s.normalized) :
    Inv (removeField s fieldId).2.normalized ∧
      KeysNE (removeField s fieldId).2.normalized := by
  unfold removeField
  cases hg : Obj.get s.normalized.byId fieldId with
  | none => exact ⟨inv, hke⟩
  | some node =>
      dsimp only
      rw [truthyId_parent inv hke hg]
      have hkeb1 : "" ∉ Obj.keys (s.normalized.byId.filter
          (fun e => e.1 ∉ (fieldId :: collectDescendants s.normalized.byId fieldId))) :=
        keysNE_filter hke _
      cases hpar : node.parentId with
      | none =>
          dsimp only
          refine ⟨Inv_remove_root s.normalized inv fieldId node hg hpar, ?_⟩
          show "" ∉ Obj.keys _
          rw [keys_reindex]
          exact hkeb1
      | some p =>
          dsimp only
          have hpe := inv.parentsExist fieldId node p hg hpar
          cases hgp : Obj.get s.normalized.byId p with
          | none =>
              rw [hgp] at hpe
              simp at hpe
          | some parent =>
              have hfieldInP : fieldId ∈ parent.childIds :=
                (inv.childrenOK p parent hgp).2 fieldId node hg hpar
              have hpT : p ∉ fieldId :: collectDescendants s.normalized.byId fieldId := by
                intro hc
                rw [remove_T_mem inv] at hc
                have hedge : HasChild s.normalized.byId p fieldId := ⟨parent, hgp, hfieldInP⟩
                obtain ⟨rk, hrk⟩ := inv.acyclic
                rcases hc with rfl | hd
                · exact absurd (hrk _ _ hedge) (lt_irrefl _)
                · exact absurd (Desc_rank hrk (Desc_snoc hd hedge)) (lt_irrefl _)
              have hB1p : Obj.get (s.normalized.byId.filter
                  (fun e => e.1 ∉ (fieldId :: collectDescendants s.normalized.byId fieldId))) p =
                  some parent := by
                rw [Obj.get_filter_not_mem, if_neg hpT]
                exact hgp
              rw [hB1p]
              dsimp only
              refine ⟨Inv_remove_parent s.normalized inv fieldId p node parent hg hpar hgp, ?_⟩
              show "" ∉ Obj.keys _
              rw [keys_reindex]
              exact keysNE_set_mem hkeb1 (Obj.mem_keys_of_get_eq_some hB1p) _

/-! ## `addField` preserves the invariant -/

theorem generateFieldId_not_mem (fieldType : String) (existing : List String)
    (parentId : Option String) :
    generateFieldId fieldType existing parentId ∉ existing := by
  unfold generateFieldId
  exact generateId_not_mem _ _

/-- Invariant preservation for adding a field at root level. -/
theorem Inv_add_root (nd : NormalizedDefinition) (inv : Inv nd)
    (id : String) (d3 : FieldDefCore) (index : Option Int)
    (hfresh : Obj.get nd.byId id = none) :
    Inv ⟨reindexChildren (Obj.set nd.byId id ⟨d3, none, [], 0⟩)
        (insertAt nd.rootIds id index),
      insertAt nd.rootIds id index⟩ := by
  have hB2 : ∀ k, Obj.get (Obj.set nd.byId id ⟨d3, none, [], 0⟩) k =
      if k = id then some ⟨d3, none, [], 0⟩ else Obj.get nd.byId k :=
    fun k => Obj.get_set _ _ _ _
  have hidroots : id ∉ nd.rootIds := by
    intro hm
    obtain ⟨n, hgr, _⟩ := SibOK_mem inv.rootsOK hm
    rw [hfresh] at hgr
    cases hgr
  have hR2nd : (insertAt nd.rootIds id index).Nodup :=
    insertAt_nodup (SibOK_nodup inv.rootsOK) hidroots
  refine ⟨?_, ?_, ?_, ?_, ?_⟩
  · show (Obj.keys (reindexChildren _ _)).Nodup
    unfold reindexChildren
    rw [reindexFrom_keys, Obj.keys_set,
      if_neg (Obj.not_mem_keys_of_get_none hfresh)]
    apply List.Nodup.append inv.keysNodup (by simp)
    intro x hx hx2
    rw [List.mem_singleton] at hx2
    subst hx2
    exact Obj.not_mem_keys_of_get_none hfresh hx
  · apply SibOK_reindex hR2nd
    · intro c hc
      rcases mem_insertAt.mp hc with rfl | hc2
      · exact ⟨⟨d3, none, [], 0⟩, by rw [hB2, if_pos rfl], rfl⟩
      · obtain ⟨n, hgr, hpn⟩ := SibOK_mem inv.rootsOK hc2
        have hcn : c ≠ id := by
          intro he
          rw [he, hfresh] at hgr
          cases hgr
        refine ⟨n, ?_, hpn⟩
        rw [hB2, if_neg hcn]
        exact hgr
    · intro c cn hgc hpc
      rw [hB2] at hgc
      by_cases hcn : c = id
      · rw [hcn]
        exact mem_insertAt.mpr (Or.inl rfl)
      · rw [if_neg hcn] at hgc
        exact mem_insertAt.mpr (Or.inr (inv.rootsOK.2 c cn hgc hpc))
  · intro q qn hgq
    unfold reindexChildren at hgq
    obtain ⟨qn0, hgB2, hqn0⟩ := reindexFrom_get_some _ _ _ _ _ hgq
    have hch : qn.childIds = qn0.childIds := by rw [hqn0]
    rw [hch]
    rw [hB2] at hgB2
    by_cases hqid : q = id
    · rw [if_pos hqid] at hgB2
      injection hgB2 with he
      have hch2 : qn0.childIds = [] := by rw [← he]
      rw [hch2]
      constructor
      · intro j hj
        simp at hj
      · intro c cn hgc hpc
        exfalso
        unfold reindexChildren at hgc
        obtain ⟨cn0, hgc0, hcn0⟩ := reindexFrom_get_some _ _ _ _ _ hgc
        have hpc0 : cn0.parentId = some q := by
          have h2 := congrArg FieldNode.parentId hcn0
          rw [← hpc]
          exact h2.symm
        rw [hB2] at hgc0
        by_cases hcid : c = id
        · rw [if_pos hcid] at hgc0
          injection hgc0 with he2
          rw [← he2] at hpc0
          cases hpc0
        · rw [if_neg hcid] at hgc0
          have hq := inv.parentsExist c cn0 q hgc0 hpc0
          rw [hqid, hfresh] at hq
          simp at hq
    · rw [if_neg hqid] at hgB2
      have hsibq := inv.childrenOK q qn0 hgB2
      apply SibOK_reindex_other hR2nd
      · constructor
        · intro j hj
          obtain ⟨m, hgm, hpm, hidxm⟩ := hsibq.1 j hj
          have hcid : qn0.childIds.get ⟨j, hj⟩ ≠ id := by
            intro he
            rw [he, hfresh] at hgm
            cases hgm
          refine ⟨m, ?_, hpm, hidxm⟩
          rw [hB2, if_neg hcid]
          exact hgm
        · intro c cn hgc hpc
          rw [hB2] at hgc
          by_cases hcid : c = id
          · rw [if_pos hcid] at hgc
            injection hgc with he2
            rw [← he2] at hpc
            cases hpc
          · rw [if_neg hcid] at hgc
            exact hsibq.2 c cn hgc hpc
      · intro c hc hcR
        obtain ⟨cn, hgc, hpc⟩ := SibOK_mem hsibq hc
        rcases mem_insertAt.mp hcR with rfl | hc2
        · rw [hfresh] at hgc
          cases hgc
        · obtain ⟨n2, hgr2, hpn2⟩ := SibOK_mem inv.rootsOK hc2
          rw [hgc] at hgr2
          injection hgr2 with he2
          rw [← he2, hpc] at hpn2
          cases hpn2
  · intro c cn q hgc hpq
    unfold reindexChildren at hgc ⊢
    obtain ⟨cn0, hgB2, hcn0⟩ := reindexFrom_get_some _ _ _ _ _ hgc
    have hpq0 : cn0.parentId = some q := by
      have h2 := congrArg FieldNode.parentId hcn0
      rw [← hpq]
      exact h2.symm
    rw [reindexFrom_isSome, hB2]
    rw [hB2] at hgB2
    by_cases hcid : c = id
    · rw [if_pos hcid] at hgB2
      injection hgB2 with he
      rw [← he] at hpq0
      cases hpq0
    · rw [if_neg hcid] at hgB2
      by_cases hqid : q = id
      · exfalso
        have hq := inv.parentsExist c cn0 q hgB2 hpq0
        rw [hqid, hfresh] at hq
        simp at hq
      · rw [if_neg hqid]
        exact inv.parentsExist c cn0 q hgB2 hpq0
  · obtain ⟨rk, hrk⟩ := inv.acyclic
    refine ⟨rk, ?_⟩
    intro q c h
    obtain ⟨n, hgn, hc⟩ := hasChild_reindexFrom h
    rw [hB2] at hgn
    by_cases hqid : q = id
    · rw [if_pos hqid] at hgn
      injection hgn with he
      rw [← he] at hc
      simp at hc
    · rw [if_neg hqid] at hgn
      exact hrk q c ⟨n, hgn, hc⟩

/-- Invariant preservation for adding a field under an existing parent. -/
theorem Inv_add_parent (nd : NormalizedDefinition) (inv : Inv nd)
    (id p : String) (parent : FieldNode) (d3 : FieldDefCore) (index : Option Int)
    (hfresh : Obj.get nd.byId id = none) (hgp : Obj.get nd.byId p = some parent) :
    Inv ⟨reindexChildren
        (Obj.set (Obj.set nd.byId p { parent with childIds := insertAt parent.childIds id index })
          id ⟨d3, some p, [], 0⟩)
        (insertAt parent.childIds id index),
      nd.rootIds⟩ := by
  have hpid : p ≠ id := by
    intro he
    rw [he, hfresh] at hgp
    cases hgp
  have hsibP := inv.childrenOK p parent hgp
  have hidkids : id ∉ parent.childIds := by
    intro hm
    obtain ⟨n, hgc, _⟩ := SibOK_mem hsibP hm
    rw [hfresh] at hgc
    cases hgc
  have hC2nd : (insertAt parent.childIds id index).Nodup :=
    insertAt_nodup (SibOK_nodup hsibP) hidkids
  have hB2 : ∀ k, Obj.get (Obj.set (Obj.set nd.byId p
      { parent with childIds := insertAt parent.childIds id index }) id ⟨d3, some p, [], 0⟩) k =
      if k = id then some ⟨d3, some p, [], 0⟩
      else if k = p then some { parent with childIds := insertAt parent.childIds id index }
      else Obj.get nd.byId k := by
    intro k
    rw [Obj.get_set]
    by_cases h1 : k = id
    · rw [if_pos h1, if_pos h1]
    · rw [if_neg h1, if_neg h1, Obj.get_set]
  refine ⟨?_, ?_, ?_, ?_, ?_⟩
  · show (Obj.keys (reindexChildren _ _)).Nodup
    unfold reindexChildren
    rw [reindexFrom_keys, Obj.keys_set, Obj.keys_set_of_mem _ (Obj.mem_keys_of_get_eq_some hgp)]
    rw [if_neg (Obj.not_mem_keys_of_get_none hfresh)]
    apply List.Nodup.append inv.keysNodup (by simp)
    intro x hx hx2
    rw [List.mem_singleton] at hx2
    subst hx2
    exact Obj.not_mem_keys_of_get_none hfresh hx
  · apply SibOK_reindex_other hC2nd
    · constructor
      · intro i hi
        obtain ⟨n, hgr, hpn, hidx⟩ := inv.rootsOK.1 i hi
        have hrid : nd.rootIds.get ⟨i, hi⟩ ≠ id := by
          intro he
          rw [he, hfresh] at hgr
          cases hgr
        by_cases hrp : nd.rootIds.get ⟨i, hi⟩ = p
        · rw [hrp, hgp] at hgr
          injection hgr with he2
          refine ⟨{ parent with childIds := insertAt parent.childIds id index }, ?_, ?_, ?_⟩
          · rw [hB2, if_neg hrid, if_pos hrp]
          · show parent.parentId = none
            rw [he2]; exact hpn
          · show parent.index = i
            rw [he2]; exact hidx
        · refine ⟨n, ?_, hpn, hidx⟩
          rw [hB2, if_neg hrid, if_neg hrp]
          exact hgr
      · intro c cn hgc hpc
        rw [hB2] at hgc
        by_cases hcid : c = id
        · rw [if_pos hcid] at hgc
          injection hgc with he
          rw [← he] at hpc
          cases hpc
        · rw [if_neg hcid] at hgc
          by_cases hcp : c = p
          · rw [if_pos hcp] at hgc
            injection hgc with he
            have hpp : parent.parentId = none := by rw [← hpc, ← he]
            rw [hcp]
            exact inv.rootsOK.2 p parent hgp hpp
          · rw [if_neg hcp] at hgc
            exact inv.rootsOK.2 c cn hgc hpc
    · intro r hr hrC
      obtain ⟨n, hgr, hpn⟩ := SibOK_mem inv.rootsOK hr
      rcases mem_insertAt.mp hrC with rfl | hr2
      · rw [hfresh] at hgr
        cases hgr
      · obtain ⟨cn, hgc, hpc⟩ := SibOK_mem hsibP hr2
        rw [hgr] at hgc
        injection hgc with he2
        rw [← he2, hpn] at hpc
        cases hpc
  · intro q qn hgq
    unfold reindexChildren at hgq
    obtain ⟨qn0, hgB2, hqn0⟩ := reindexFrom_get_some _ _ _ _ _ hgq
    have hch : qn.childIds = qn0.childIds := by rw [hqn0]
    rw [hch]
    rw [hB2] at hgB2
    by_cases hqid : q = id
    · rw [if_pos hqid] at hgB2
      injection hgB2 with he
      have hch2 : qn0.childIds = [] := by rw [← he]
      rw [hch2]
      constructor
      · intro j hj
        simp at hj
      · intro c cn hgc hpc
        exfalso
        unfold reindexChildren at hgc
        obtain ⟨cn0, hgc0, hcn0⟩ := reindexFrom_get_some _ _ _ _ _ hgc
        have hpc0 : cn0.parentId = some q := by
          have h2 := congrArg FieldNode.parentId hcn0
          rw [← hpc]
          exact h2.symm
        rw [hB2] at hgc0
        by_cases hcid : c = id
        · rw [if_pos hcid] at hgc0
          injection hgc0 with he2
          rw [← he2] at hpc0
          have hx : some p = some q := hpc0
          injection hx with he3
          exact hpid (he3.trans hqid)
        · rw [if_neg hcid] at hgc0
          by_cases hcp : c = p
          · rw [if_pos hcp] at hgc0
            injection hgc0 with he2
            have hpp : parent.parentId = some q := by rw [← hpc0, ← he2]
            have hq := inv.parentsExist p parent q hgp hpp
            rw [hqid, hfresh] at hq
            simp at hq
          · rw [if_neg hcp] at hgc0
            have hq := inv.parentsExist c cn0 q hgc0 hpc0
            rw [hqid, hfresh] at hq
            simp at hq
    · rw [if_neg hqid] at hgB2
      by_cases hqp : q = p
      · rw [if_pos hqp] at hgB2
        injection hgB2 with he
        have hch2 : qn0.childIds = insertAt parent.childIds id index := by rw [← he]
        rw [hch2, hqp]
        apply SibOK_reindex hC2nd
        · intro c hc
          rcases mem_insertAt.mp hc with rfl | hc2
          · exact ⟨⟨d3, some p, [], 0⟩, by rw [hB2, if_pos rfl], rfl⟩
          · obtain ⟨cn, hgc, hpc⟩ := SibOK_mem hsibP hc2
            have hcid : c ≠ id := by
              intro he2
              rw [he2, hfresh] at hgc
              cases hgc
            have hcp : c ≠ p := by
              intro he2
              exact Inv_not_self_child inv hgp (he2 ▸ hc2)
            refine ⟨cn, ?_, hpc⟩
            rw [hB2, if_neg hcid, if_neg hcp]
            exact hgc
        · intro c cn hgc hpc
          rw [hB2] at hgc
          by_cases hcid : c = id
          · rw [hcid]
            exact mem_insertAt.mpr (Or.inl rfl)
          · rw [if_neg hcid] at hgc
            by_cases hcp : c = p
            · rw [if_pos hcp] at hgc
              injection hgc with he2
              have hpp : parent.parentId = some p := by rw [← hpc, ← he2]
              obtain ⟨pn2, hgp2, hcp2⟩ := Inv_childComplete inv hgp hpp
              rw [hgp] at hgp2
              injection hgp2 with he3
              rw [← he3] at hcp2
              exact absurd hcp2 (Inv_not_self_child inv hgp)
            · rw [if_neg hcp] at hgc
              exact mem_insertAt.mpr (Or.inr (hsibP.2 c cn hgc hpc))
      · rw [if_neg hqp] at hgB2
        have hsibq := inv.childrenOK q qn0 hgB2
        apply SibOK_reindex_other hC2nd
        · constructor
          · intro j hj
            obtain ⟨m, hgm, hpm, hidxm⟩ := hsibq.1 j hj
            have hcid : qn0.childIds.get ⟨j, hj⟩ ≠ id := by
              intro he
              rw [he, hfresh] at hgm
              cases hgm
            by_cases hcp : qn0.childIds.get ⟨j, hj⟩ = p
            · rw [hcp, hgp] at hgm
              injection hgm with he2
              refine ⟨{ parent with childIds := insertAt parent.childIds id index }, ?_, ?_, ?_⟩
              · rw [hB2, if_neg hcid, if_pos hcp]
              · show parent.parentId = some q
                rw [he2]; exact hpm
              · show parent.index = j
                rw [he2]; exact hidxm
            · refine ⟨m, ?_, hpm, hidxm⟩
              rw [hB2, if_neg hcid, if_neg hcp]
              exact hgm
          · intro c cn hgc hpc
            rw [hB2] at hgc
            by_cases hcid : c = id
            · rw [if_pos hcid] at hgc
              injection hgc with he2
              rw [← he2] at hpc
              have hx : some p = some q := hpc
              injection hx with he3
              exact absurd he3.symm hqp
            · rw [if_neg hcid] at hgc
              by_cases hcp : c = p
              · rw [if_pos hcp] at hgc
                injection hgc with he2
                have hpp : parent.parentId = some q := by rw [← hpc, ← he2]
                obtain ⟨pn2, hgq2, hcq2⟩ := Inv_childComplete inv hgp hpp
                rw [hgB2] at hgq2
                injection hgq2 with he3
                rw [← he3] at hcq2
                rw [hcp]
                exact hcq2
              · rw [if_neg hcp] at hgc
                exact hsibq.2 c cn hgc hpc
        · intro c hc hcC
          obtain ⟨cn, hgc, hpc⟩ := SibOK_mem hsibq hc
          rcases mem_insertAt.mp hcC with rfl | hc2
          · rw [hfresh] at hgc
            cases hgc
          · obtain ⟨cn2, hgc2, hpc2⟩ := SibOK_mem hsibP hc2
            rw [hgc] at hgc2
            injection hgc2 with he2
            rw [← he2, hpc] at hpc2
            injection hpc2 with he3
            exact hqp he3
  · intro c cn q hgc hpq
    unfold reindexChildren at hgc ⊢
    obtain ⟨cn0, hgB2, hcn0⟩ := reindexFrom_get_some _ _ _ _ _ hgc
    have hpq0 : cn0.parentId = some q := by
      have h2 := congrArg FieldNode.parentId hcn0
      rw [← hpq]
      exact h2.symm
    rw [reindexFrom_isSome, hB2]
    rw [hB2] at hgB2
    by_cases hqid : q = id
    · exfalso
      rw [hqid] at hpq0
      by_cases hcid : c = id
      · rw [if_pos hcid] at hgB2
        injection hgB2 with he
        rw [← he] at hpq0
        have hx : some p = some id := hpq0
        injection hx with he3
        exact hpid he3
      · rw [if_neg hcid] at hgB2
        by_cases hcp : c = p
        · rw [if_pos hcp] at hgB2
          injection hgB2 with he
          have hpp : parent.parentId = some id := by rw [← hpq0, ← he]
          have hq := inv.parentsExist p parent id hgp hpp
          rw [hfresh] at hq
          simp at hq
        · rw [if_neg hcp] at hgB2
          have hq := inv.parentsExist c cn0 id hgB2 hpq0
          rw [hfresh] at hq
          simp at hq
    · rw [if_neg hqid]
      by_cases hqp : q = p
      · rw [if_pos hqp]
        simp
      · rw [if_neg hqp]
        by_cases hcid : c = id
        · rw [if_pos hcid] at hgB2
          injection hgB2 with he
          rw [← he] at hpq0
          have hx : some p = some q := hpq0
          injection hx with he3
          exact absurd he3.symm hqp
        · rw [if_neg hcid] at hgB2
          by_cases hcp : c = p
          · rw [if_pos hcp] at hgB2
            injection hgB2 with he
            have hpp : parent.parentId = some q := by rw [← hpq0, ← he]
            exact inv.parentsExist p parent q hgp hpp
          · rw [if_neg hcp] at hgB2
            exact inv.parentsExist c cn0 q hgB2 hpq0
  · obtain ⟨rk, hrk⟩ := inv.acyclic
    refine ⟨fun k => if k = id then rk p + 1 else rk k, ?_⟩
    intro q c h
    show (if q = id then rk p + 1 else rk q) < (if c = id then rk p + 1 else rk c)
    obtain ⟨n, hgn, hc⟩ := hasChild_reindexFrom h
    rw [hB2] at hgn
    by_cases hqid : q = id
    · rw [if_pos hqid] at hgn
      injection hgn with he
      rw [← he] at hc
      simp at hc
    · rw [if_neg hqid] at hgn
      rw [if_neg hqid]
      by_cases hqp : q = p
      · rw [if_pos hqp] at hgn
        injection hgn with he
        have hcC : c ∈ insertAt parent.childIds id index := by
          rw [← he] at hc
          exact hc
        rcases mem_insertAt.mp hcC with rfl | hc2
        · rw [if_pos rfl, hqp]
          omega
        · have hedge := hrk p c ⟨parent, hgp, hc2⟩
          obtain ⟨cn, hgc2, _⟩ := SibOK_mem hsibP hc2
          have hcid : c ≠ id := by
            intro he2
            rw [he2, hfresh] at hgc2
            cases hgc2
          rw [if_neg hcid, hqp]
          omega
      · rw [if_neg hqp] at hgn
        have hedge := hrk q c ⟨n, hgn, hc⟩
        have hcid : c ≠ id := by
          intro he2
          obtain ⟨cn, hgc2, _⟩ := SibOK_mem (inv.childrenOK q n hgn) hc
          rw [he2, hfresh] at hgc2
          cases hgc2
        rw [if_neg hcid]
        exact hedge

theorem addField_preserves (s : EngineState) (fieldType : String)
    (parentId : Option String) (index : Option Int) (patch : FieldPatch)
    (inv : Inv s.normalized) (hke : KeysNE s.normalized) :
    Inv (addField s fieldType parentId index patch).2.normalized ∧
      KeysNE (addField s fieldType parentId index patch).2.normalized := by
  unfold addField
  cases hmeta : getFieldTypeMeta fieldType with
  | none => exact ⟨inv, hke⟩
  | some meta =>
      dsimp only
      cases htr : truthyId parentId with
      | none =>
          rw [if_neg (by simp)]
          dsimp only
          refine ⟨?_, ?_⟩
          · apply Inv_add_root s.normalized inv _ _ index
            exact Obj.get_eq_none_of_not_mem (generateFieldId_not_mem _ _ _)
          · show "" ∉ Obj.keys _
            rw [keys_reindex]
            exact keysNE_set hke (generateFieldId_ne_empty _ _ _) _
      | some p =>
          dsimp only
          cases hgp : Obj.get s.normalized.byId p with
          | none =>
              rw [if_pos (show (none : Option FieldNode).isNone = true from rfl)]
              exact ⟨inv, hke⟩
          | some parent =>
              rw [if_neg (by simp)]
              dsimp only
              refine ⟨?_, ?_⟩
              · apply Inv_add_parent s.normalized inv _ p parent _ index _ hgp
                exact Obj.get_eq_none_of_not_mem (generateFieldId_not_mem _ _ _)
              · show "" ∉ Obj.keys _
                rw [keys_reindex]
                apply keysNE_set _ (generateFieldId_ne_empty _ _ _)
                exact keysNE_set_mem hke (Obj.mem_keys_of_get_eq_some hgp) _

/-! ## `moveField` preserves the invariant -/

theorem idx_nodup {byId : Obj FieldNode} {p : Option String} {ids : List String}
    (h : ∀ (i : Nat) (hi : i < ids.length), ∃ n,
      Obj.get byId (ids.get ⟨i, hi⟩) = some n ∧ n.parentId = p ∧ n.index = i) :
    ids.Nodup := by
  rw [List.nodup_iff_injective_get]
  intro i1 i2 he
  obtain ⟨n1, hg1, _, hi1⟩ := h i1.1 i1.2
  obtain ⟨n2, hg2, _, hi2⟩ := h i2.1 i2.2
  have hg1' : Obj.get byId (ids.get i1) = some n1 := hg1
  have hg2' : Obj.get byId (ids.get i2) = some n2 := hg2
  rw [he] at hg1'
  rw [hg2'] at hg1'
  injection hg1' with hn
  apply Fin.ext
  show i1.1 = i2.1
  rw [← hi1, ← hi2, hn]

theorem idx_mem {byId : Obj FieldNode} {p : Option String} {ids : List String}
    (h : ∀ (i : Nat) (hi : i < ids.length), ∃ n,
      Obj.get byId (ids.get ⟨i, hi⟩) = some n ∧ n.parentId = p ∧ n.index = i)
    {c : String} (hc : c ∈ ids) :
    ∃ n, Obj.get byId c = some n ∧ n.parentId = p := by
  obtain ⟨idx, hidx⟩ := List.mem_iff_get.mp hc
  obtain ⟨n, hg, hp, _⟩ := h idx.1 idx.2
  have hg' : Obj.get byId (ids.get idx) = some n := hg
  rw [hidx] at hg'
  exact ⟨n, hg', hp⟩

theorem reindex_idx {B : Obj FieldNode} {p : Option String} {ids : List String}
    (hnd : ids.Nodup)
    (ha : ∀ c ∈ ids, ∃ n, Obj.get B c = some n ∧ n.parentId = p) :
    ∀ (i : Nat) (h : i < ids.length), ∃ n,
      Obj.get (reindexChildren B ids) (ids.get ⟨i, h⟩) = some n ∧ n.parentId = p ∧ n.index = i := by
  intro i hi
  have hmem := List.get_mem ids i hi
  obtain ⟨n, hg, hp⟩ := ha _ hmem
  unfold reindexChildren
  rw [reindexFrom_get ids hnd, if_pos hmem, hg]
  refine ⟨{ n with index := 0 + posIn ids (ids.get ⟨i, hi⟩) }, rfl, hp, ?_⟩
  show 0 + posIn ids (ids.get ⟨i, hi⟩) = i
  rw [posIn_get hnd i hi]
  omega

/-- The state of the store between the detach and insert phases of a
move: everything the invariant says, except that the moved field is
referenced by no sibling list. -/
structure MidInv (byId : Obj FieldNode) (roots : List String)
    (fieldId : String) (node : FieldNode) : Prop where
  keysNodup : (Obj.keys byId).Nodup
  entry : ∃ nodeM, Obj.get byId fieldId = some nodeM ∧ nodeM.childIds = node.childIds
  rootsIdx : ∀ (i : Nat) (h : i < roots.length), ∃ n,
    Obj.get byId (roots.get ⟨i, h⟩) = some n ∧ n.parentId = none ∧ n.index = i
  rootsComp : ∀ c cn, Obj.get byId c = some cn → cn.parentId = none → c ≠ fieldId →
    c ∈ roots
  childIdx : ∀ p pn, Obj.get byId p = some pn → ∀ (j : Nat) (h : j < pn.childIds.length),
    ∃ n, Obj.get byId (pn.childIds.get ⟨j, h⟩) = some n ∧ n.parentId = some p ∧ n.index = j
  childComp : ∀ p pn, Obj.get byId p = some pn → ∀ c cn, Obj.get byId c = some cn →
    cn.parentId = some p → c ≠ fieldId → c ∈ pn.childIds
  notRoot : fieldId ∉ roots
  notChild : ∀ q qn, Obj.get byId q = some qn → fieldId ∉ qn.childIds
  parentsExist : ∀ c cn q, Obj.get byId c = some cn → cn.parentId = some q →
    (Obj.get byId q).isSome = true
  acyclicM : ∃ rk : String → Nat, ∀ p c, HasChild byId p c → rk p < rk c

/-- Detaching a root-level field yields the mid-move state. -/
theorem MidInv_detach_root (nd : NormalizedDefinition) (inv : Inv nd)
    (fieldId : String) (node : FieldNode)
    (hg : Obj.get nd.byId fieldId = some node) (hpar : node.parentId = none) :
    MidInv (reindexChildren nd.byId (nd.rootIds.filter (fun r => r ≠ fieldId)))
      (nd.rootIds.filter (fun r => r ≠ fieldId)) fieldId node := by
  have hRnd : (nd.rootIds.filter (fun r => r ≠ fieldId)).Nodup :=
    List.Nodup.filter _ (SibOK_nodup inv.rootsOK)
  have hfR : fieldId ∉ nd.rootIds.filter (fun r => r ≠ fieldId) := by
    intro hm
    rcases List.mem_filter.mp hm with ⟨_, hne⟩
    simp at hne
  refine ⟨?_, ?_, ?_, ?_, ?_, ?_, hfR, ?_, ?_, ?_⟩
  · show (Obj.keys (reindexChildren _ _)).Nodup
    unfold reindexChildren
    rw [reindexFrom_keys]
    exact inv.keysNodup
  · refine ⟨node, ?_, rfl⟩
    unfold reindexChildren
    rw [reindexFrom_get _ hRnd, if_neg hfR]
    exact hg
  · apply reindex_idx hRnd
    intro c hc
    rcases List.mem_filter.mp hc with ⟨hcr, _⟩
    exact SibOK_mem inv.rootsOK hcr
  · intro c cn hgc hpc hcf
    unfold reindexChildren at hgc
    obtain ⟨cn0, hg0, hcn0⟩ := reindexFrom_get_some _ _ _ _ _ hgc
    have hpc0 : cn0.parentId = none := by
      have h2 := congrArg FieldNode.parentId hcn0
      rw [← hpc]
      exact h2.symm
    apply List.mem_filter.mpr
    exact ⟨inv.rootsOK.2 c cn0 hg0 hpc0, by simp [hcf]⟩
  · intro p pn hgp j hj
    unfold reindexChildren at hgp
    obtain ⟨pn0, hg0, hpn0⟩ := reindexFrom_get_some _ _ _ _ _ hgp
    have hch : pn.childIds = pn0.childIds := by rw [hpn0]
    have hj0 : j < pn0.childIds.length := by rw [← hch]; exact hj
    obtain ⟨m, hgm, hpm, hidxm⟩ := (inv.childrenOK p pn0 hg0).1 j hj0
    have hkey : pn.childIds.get ⟨j, hj⟩ = pn0.childIds.get ⟨j, hj0⟩ := by
      rw [List.get_eq_getElem, List.get_eq_getElem]
      congr 1
    have hcR : pn0.childIds.get ⟨j, hj0⟩ ∉ nd.rootIds.filter (fun r => r ≠ fieldId) := by
      intro hm
      rcases List.mem_filter.mp hm with ⟨hcr, _⟩
      obtain ⟨n2, hgr2, hpn2⟩ := SibOK_mem inv.rootsOK hcr
      rw [hgm] at hgr2
      injection hgr2 with he2
      rw [← he2, hpm] at hpn2
      cases hpn2
    refine ⟨m, ?_, hpm, hidxm⟩
    rw [hkey]
    unfold reindexChildren
    rw [reindexFrom_get _ hRnd, if_neg hcR]
    exact hgm
  · intro p pn hgp c cn hgc hpc hcf
    unfold reindexChildren at hgp hgc
    obtain ⟨pn0, hg0, hpn0⟩ := reindexFrom_get_some _ _ _ _ _ hgp
    obtain ⟨cn0, hgc0, hcn0⟩ := reindexFrom_get_some _ _ _ _ _ hgc
    have hpc0 : cn0.parentId = some p := by
      have h2 := congrArg FieldNode.parentId hcn0
      rw [← hpc]
      exact h2.symm
    have hch : pn.childIds = pn0.childIds := by rw [hpn0]
    rw [hch]
    exact (inv.childrenOK p pn0 hg0).2 c cn0 hgc0 hpc0
  · intro q qn hgq hm
    unfold reindexChildren at hgq
    obtain ⟨qn0, hg0, hqn0⟩ := reindexFrom_get_some _ _ _ _ _ hgq
    have hm0 : fieldId ∈ qn0.childIds := by
      have hch : qn.childIds = qn0.childIds := by rw [hqn0]
      rw [← hch]
      exact hm
    have := Inv_parent_unique inv hg ⟨qn0, hg0, hm0⟩
    rw [hpar] at this
    cases this
  · intro c cn q hgc hpc
    unfold reindexChildren at hgc ⊢
    obtain ⟨cn0, hgc0, hcn0⟩ := reindexFrom_get_some _ _ _ _ _ hgc
    have hpc0 : cn0.parentId = some q := by
      have h2 := congrArg FieldNode.parentId hcn0
      rw [← hpc]
      exact h2.symm
    rw [reindexFrom_isSome]
    exact inv.parentsExist c cn0 q hgc0 hpc0
  · obtain ⟨rk, hrk⟩ := inv.acyclic
    exact ⟨rk, fun p c h => hrk p c (hasChild_reindexFrom h)⟩

/-- Detaching a field from its parent yields the mid-move state. -/
theorem MidInv_detach_parent (nd : NormalizedDefinition) (inv : Inv nd)
    (fieldId fp : String) (node parent : FieldNode)
    (hg : Obj.get nd.byId fieldId = some node) (hpar : node.parentId = some fp)
    (hgfp : Obj.get nd.byId fp = some parent) :
    MidInv (reindexChildren
        (Obj.set nd.byId fp { parent with childIds := parent.childIds.filter (fun c => c ≠ fieldId) })
        (parent.childIds.filter (fun c => c ≠ fieldId)))
      nd.rootIds fieldId node := by
  have hsibP := inv.childrenOK fp parent hgfp
  have hfieldInFp : fieldId ∈ parent.childIds := hsibP.2 fieldId node hg hpar
  have hfpf : fp ≠ fieldId := by
    intro he
    rw [he, hg] at hgfp
    injection hgfp with he2
    exact Inv_not_self_child inv hg (he2 ▸ hfieldInFp)
  have hFnd : (parent.childIds.filter (fun c => c ≠ fieldId)).Nodup :=
    List.Nodup.filter _ (SibOK_nodup hsibP)
  have hfF : fieldId ∉ parent.childIds.filter (fun c => c ≠ fieldId) := by
    intro hm
    rcases List.mem_filter.mp hm with ⟨_, hne⟩
    simp at hne
  have hB2 : ∀ k, Obj.get (Obj.set nd.byId fp
      { parent with childIds := parent.childIds.filter (fun c => c ≠ fieldId) }) k =
      if k = fp then some { parent with childIds := parent.childIds.filter (fun c => c ≠ fieldId) }
      else Obj.get nd.byId k := fun k => Obj.get_set _ _ _ _
  refine ⟨?_, ?_, ?_, ?_, ?_, ?_, ?_, ?_, ?_, ?_⟩
  · show (Obj.keys (reindexChildren _ _)).Nodup
    unfold reindexChildren
    rw [reindexFrom_keys, Obj.keys_set_of_mem _ (Obj.mem_keys_of_get_eq_some hgfp)]
    exact inv.keysNodup
  · refine ⟨node, ?_, rfl⟩
    unfold reindexChildren
    rw [reindexFrom_get _ hFnd, if_neg hfF, hB2, if_neg (fun he : fieldId = fp => hfpf he.symm)]
    exact hg
  · intro i hi
    obtain ⟨n, hgr, hpn, hidx⟩ := inv.rootsOK.1 i hi
    have hrF : nd.rootIds.get ⟨i, hi⟩ ∉ parent.childIds.filter (fun c => c ≠ fieldId) := by
      intro hm
      rcases List.mem_filter.mp hm with ⟨hcp, _⟩
      obtain ⟨m, hgm, hpm⟩ := SibOK_mem hsibP hcp
      rw [hgr] at hgm
      injection hgm with he
      rw [← he, hpn] at hpm
      cases hpm
    unfold reindexChildren
    rw [reindexFrom_get _ hFnd, if_neg hrF, hB2]
    by_cases hrfp : nd.rootIds.get ⟨i, hi⟩ = fp
    · rw [if_pos hrfp]
      rw [hrfp, hgfp] at hgr
      injection hgr with he
      refine ⟨{ parent with childIds := parent.childIds.filter (fun x => x ≠ fieldId) }, rfl, ?_, ?_⟩
      · show parent.parentId = none
        rw [he]; exact hpn
      · show parent.index = i
        rw [he]; exact hidx
    · rw [if_neg hrfp]
      exact ⟨n, hgr, hpn, hidx⟩
  · intro c cn hgc hpc hcf
    unfold reindexChildren at hgc
    obtain ⟨cn0, hg0, hcn0⟩ := reindexFrom_get_some _ _ _ _ _ hgc
    have hpc0 : cn0.parentId = none := by
      have h2 := congrArg FieldNode.parentId hcn0
      rw [← hpc]
      exact h2.symm
    rw [hB2] at hg0
    by_cases hcfp : c = fp
    · rw [if_pos hcfp] at hg0
      injection hg0 with he
      have hpp : parent.parentId = none := by rw [← hpc0, ← he]
      rw [hcfp]
      exact inv.rootsOK.2 fp parent hgfp hpp
    · rw [if_neg hcfp] at hg0
      exact inv.rootsOK.2 c cn0 hg0 hpc0
  · intro p pn hgp j hj
    unfold reindexChildren at hgp
    obtain ⟨pn0, hg0, hpn0⟩ := reindexFrom_get_some _ _ _ _ _ hgp
    have hch : pn.childIds = pn0.childIds := by rw [hpn0]
    rw [hB2] at hg0
    by_cases hpfp : p = fp
    · rw [if_pos hpfp] at hg0
      injection hg0 with he
      have hch2 : pn.childIds = parent.childIds.filter (fun c => c ≠ fieldId) := by
        rw [hch, ← he]
      have hj2 : j < (parent.childIds.filter (fun c => c ≠ fieldId)).length := by
        rw [← hch2]; exact hj
      have hkey : pn.childIds.get ⟨j, hj⟩ =
          (parent.childIds.filter (fun c => c ≠ fieldId)).get ⟨j, hj2⟩ := by
        rw [List.get_eq_getElem, List.get_eq_getElem]
        congr 1
      rw [hkey]
      have ha : ∀ c ∈ parent.childIds.filter (fun x => x ≠ fieldId), ∃ n,
          Obj.get (Obj.set nd.byId fp { parent with childIds := parent.childIds.filter (fun x => x ≠ fieldId) }) c = some n ∧ n.parentId = some fp := by
        intro c hc
        rcases List.mem_filter.mp hc with ⟨hcp, hcf⟩
        obtain ⟨cn, hgc, hpc⟩ := SibOK_mem hsibP hcp
        have hcfp2 : c ≠ fp := by
          intro he2
          exact Inv_not_self_child inv hgfp (he2 ▸ hcp)
        refine ⟨cn, ?_, hpc⟩
        rw [hB2, if_neg hcfp2]
        exact hgc
      have hres := reindex_idx hFnd ha j hj2
      rw [hpfp]
      exact hres
    · rw [if_neg hpfp] at hg0
      have hj0 : j < pn0.childIds.length := by rw [← hch]; exact hj
      obtain ⟨m, hgm, hpm, hidxm⟩ := (inv.childrenOK p pn0 hg0).1 j hj0
      have hkey : pn.childIds.get ⟨j, hj⟩ = pn0.childIds.get ⟨j, hj0⟩ := by
        rw [List.get_eq_getElem, List.get_eq_getElem]
        congr 1
      rw [hkey]
      have hcF : pn0.childIds.get ⟨j, hj0⟩ ∉ parent.childIds.filter (fun c => c ≠ fieldId) := by
        intro hm
        rcases List.mem_filter.mp hm with ⟨hcp, _⟩
        obtain ⟨cn2, hgc2, hpc2⟩ := SibOK_mem hsibP hcp
        rw [hgm] at hgc2
        injection hgc2 with he2
        rw [← he2, hpm] at hpc2
        injection hpc2 with he3
        exact hpfp he3
      by_cases hcfp : pn0.childIds.get ⟨j, hj0⟩ = fp
      · rw [hcfp] at hgm ⊢
        rw [hgfp] at hgm
        injection hgm with he2
        refine ⟨{ parent with childIds := parent.childIds.filter (fun x => x ≠ fieldId) }, ?_, ?_, ?_⟩
        · unfold reindexChildren
          rw [reindexFrom_get _ hFnd, if_neg (hcfp ▸ hcF), hB2, if_pos rfl]
        · show parent.parentId = some p
          rw [he2]; exact hpm
        · show parent.index = j
          rw [he2]; exact hidxm
      · refine ⟨m, ?_, hpm, hidxm⟩
        unfold reindexChildren
        rw [reindexFrom_get _ hFnd, if_neg hcF, hB2, if_neg hcfp]
        exact hgm
  · intro p pn hgp c cn hgc hpc hcf
    unfold reindexChildren at hgp hgc
    obtain ⟨pn0, hg0, hpn0⟩ := reindexFrom_get_some _ _ _ _ _ hgp
    obtain ⟨cn0, hgc0, hcn0⟩ := reindexFrom_get_some _ _ _ _ _ hgc
    have hpc0 : cn0.parentId = some p := by
      have h2 := congrArg FieldNode.parentId hcn0
      rw [← hpc]
      exact h2.symm
    have hch : pn.childIds = pn0.childIds := by rw [hpn0]
    rw [hch]
    rw [hB2] at hg0 hgc0
    by_cases hcfp : c = fp
    · rw [if_pos hcfp] at hgc0
      injection hgc0 with he
      have hpp : parent.parentId = some p := by rw [← hpc0, ← he]
      by_cases hpfp : p = fp
      · exfalso
        rw [hpfp] at hpp
        obtain ⟨pn2, hgp2, hcp2⟩ := Inv_childComplete inv hgfp hpp
        rw [hgfp] at hgp2
        injection hgp2 with he3
        rw [← he3] at hcp2
        exact Inv_not_self_child inv hgfp hcp2
      · rw [if_neg hpfp] at hg0
        rw [hcfp]
        exact (inv.childrenOK p pn0 hg0).2 fp parent hgfp hpp
    · rw [if_neg hcfp] at hgc0
      by_cases hpfp : p = fp
      · rw [if_pos hpfp] at hg0
        injection hg0 with he
        have hch2 : pn0.childIds = parent.childIds.filter (fun x => x ≠ fieldId) := by
          rw [← he]
        rw [hch2]
        apply List.mem_filter.mpr
        refine ⟨hsibP.2 c cn0 hgc0 (by rw [hpc0, hpfp]), by simp [hcf]⟩
      · rw [if_neg hpfp] at hg0
        exact (inv.childrenOK p pn0 hg0).2 c cn0 hgc0 hpc0
  · intro hm
    obtain ⟨n, hgr, hpn⟩ := SibOK_mem inv.rootsOK hm
    rw [hg] at hgr
    injection hgr with he
    rw [← he, hpar] at hpn
    cases hpn
  · intro q qn hgq hm
    unfold reindexChildren at hgq
    obtain ⟨qn0, hg0, hqn0⟩ := reindexFrom_get_some _ _ _ _ _ hgq
    have hm0 : fieldId ∈ qn0.childIds := by
      have hch : qn.childIds = qn0.childIds := by rw [hqn0]
      rw [← hch]
      exact hm
    rw [hB2] at hg0
    by_cases hqfp : q = fp
    · rw [if_pos hqfp] at hg0
      injection hg0 with he
      rw [← he] at hm0
      exact hfF hm0
    · rw [if_neg hqfp] at hg0
      have := Inv_parent_unique inv hg ⟨qn0, hg0, hm0⟩
      rw [hpar] at this
      injection this with he
      exact hqfp he.symm
  · intro c cn q hgc hpc
    unfold reindexChildren at hgc ⊢
    obtain ⟨cn0, hgc0, hcn0⟩ := reindexFrom_get_some _ _ _ _ _ hgc
    have hpc0 : cn0.parentId = some q := by
      have h2 := congrArg FieldNode.parentId hcn0
      rw [← hpc]
      exact h2.symm
    rw [reindexFrom_isSome, hB2]
    rw [hB2] at hgc0
    by_cases hqfp : q = fp
    · rw [if_pos hqfp]
      simp
    · rw [if_neg hqfp]
      by_cases hcfp : c = fp
      · rw [if_pos hcfp] at hgc0
        injection hgc0 with he
        have hpp : parent.parentId = some q := by rw [← hpc0, ← he]
        exact inv.parentsExist fp parent q hgfp hpp
      · rw [if_neg hcfp] at hgc0
        exact inv.parentsExist c cn0 q hgc0 hpc0
  · obtain ⟨rk, hrk⟩ := inv.acyclic
    refine ⟨rk, ?_⟩
    intro q c h
    obtain ⟨n, hgn, hc⟩ := hasChild_reindexFrom h
    rw [hB2] at hgn
    by_cases hqfp : q = fp
    · rw [if_pos hqfp] at hgn
      injection hgn with he
      have hcF : c ∈ parent.childIds.filter (fun x => x ≠ fieldId) := by
        rw [← he] at hc
        exact hc
      rcases List.mem_filter.mp hcF with ⟨hcp, _⟩
      rw [hqfp]
      exact hrk fp c ⟨parent, hgfp, hcp⟩
    · rw [if_neg hqfp] at hgn
      exact hrk q c ⟨n, hgn, hc⟩

theorem posLaw_nodup {byId : Obj FieldNode} {p : Option String} {ids : List String}
    (h : ∀ (i : Nat) (hi : i < ids.length), ∃ n,
      Obj.get byId (ids.get ⟨i, hi⟩) = some n ∧ n.parentId = p ∧ n.index = i) :
    ids.Nodup := by
  rw [List.nodup_iff_injective_get]
  intro i1 i2 he
  obtain ⟨n1, hg1, _, hi1⟩ := h i1.1 i1.2
  obtain ⟨n2, hg2, _, hi2⟩ := h i2.1 i2.2
  have hg1x : Obj.get byId (ids.get i1) = some n1 := hg1
  have hg2x : Obj.get byId (ids.get i2) = some n2 := hg2
  rw [he] at hg1x
  rw [hg2x] at hg1x
  injection hg1x with hn
  apply Fin.ext
  show i1.1 = i2.1
  rw [← hi1, ← hi2, hn]

theorem posLaw_mem {byId : Obj FieldNode} {p : Option String} {ids : List String}
    (h : ∀ (i : Nat) (hi : i < ids.length), ∃ n,
      Obj.get byId (ids.get ⟨i, hi⟩) = some n ∧ n.parentId = p ∧ n.index = i)
    {c : String} (hc : c ∈ ids) :
    ∃ n, Obj.get byId c = some n ∧ n.parentId = p := by
  obtain ⟨idx, hidx⟩ := List.mem_iff_get.mp hc
  obtain ⟨n, hg, hp, _⟩ := h idx.1 idx.2
  have hgx : Obj.get byId (ids.get idx) = some n := hg
  rw [hidx] at hgx
  exact ⟨n, hgx, hp⟩

/-- Reinserting the detached field at root level restores the invariant. -/
theorem Inv_move_insert_root (byIdM : Obj FieldNode) (roots : List String)
    (fieldId : String) (node : FieldNode) (toIndex : Int)
    (mid : MidInv byIdM roots fieldId node) :
    Inv ⟨reindexChildren (Obj.set byIdM fieldId { node with parentId := none })
        (insertAt roots fieldId (some toIndex)),
      insertAt roots fieldId (some toIndex)⟩ := by
  obtain ⟨nodeM, hgM, hchM⟩ := mid.entry
  have hB2 : ∀ k, Obj.get (Obj.set byIdM fieldId { node with parentId := none }) k =
      if k = fieldId then some { node with parentId := none } else Obj.get byIdM k :=
    fun k => Obj.get_set _ _ _ _
  have hRootsNd : roots.Nodup := posLaw_nodup mid.rootsIdx
  have hRnd : (insertAt roots fieldId (some toIndex)).Nodup :=
    insertAt_nodup hRootsNd mid.notRoot
  refine ⟨?_, ?_, ?_, ?_, ?_⟩
  · show (Obj.keys (reindexChildren _ _)).Nodup
    unfold reindexChildren
    rw [reindexFrom_keys, Obj.keys_set_of_mem _ (Obj.mem_keys_of_get_eq_some hgM)]
    exact mid.keysNodup
  · apply SibOK_reindex hRnd
    · intro c hc
      by_cases hcf : c = fieldId
      · refine ⟨{ node with parentId := none }, ?_, rfl⟩
        rw [hB2, if_pos hcf]
      · rcases mem_insertAt.mp hc with he | hcRoots
        · exact absurd he hcf
        · obtain ⟨n, hgn, hpn⟩ := posLaw_mem mid.rootsIdx hcRoots
          refine ⟨n, ?_, hpn⟩
          rw [hB2, if_neg hcf]
          exact hgn
    · intro c cn hgc hpc
      rw [hB2] at hgc
      by_cases hcf : c = fieldId
      · exact mem_insertAt.mpr (Or.inl hcf)
      · rw [if_neg hcf] at hgc
        exact mem_insertAt.mpr (Or.inr (mid.rootsComp c cn hgc hpc hcf))
  · intro p pn hgp
    have hgp2 : Obj.get (reindexChildren (Obj.set byIdM fieldId { node with parentId := none })
        (insertAt roots fieldId (some toIndex))) p = some pn := hgp
    unfold reindexChildren at hgp2
    obtain ⟨pnB, hgB, hpnB⟩ := reindexFrom_get_some _ _ _ _ _ hgp2
    have hch : pn.childIds = pnB.childIds := by rw [hpnB]
    rw [hch]
    rw [hB2] at hgB
    by_cases hpf : p = fieldId
    · rw [if_pos hpf] at hgB
      injection hgB with he
      have hchB : pnB.childIds = nodeM.childIds := by
        rw [← he]
        exact hchM.symm
      rw [hchB, hpf]
      apply SibOK_reindex_other hRnd
      · constructor
        · intro j hj
          obtain ⟨m, hgm, hpm, him⟩ := mid.childIdx fieldId nodeM hgM j hj
          have hcne : nodeM.childIds.get ⟨j, hj⟩ ≠ fieldId := by
            intro he2
            exact mid.notChild fieldId nodeM hgM (he2 ▸ List.get_mem _ _ _)
          refine ⟨m, ?_, hpm, him⟩
          rw [hB2, if_neg hcne]
          exact hgm
        · intro c cn hgc hpc
          rw [hB2] at hgc
          by_cases hcf : c = fieldId
          · rw [if_pos hcf] at hgc
            injection hgc with he2
            exfalso
            have h3 : cn.parentId = none := by rw [← he2]
            rw [h3] at hpc
            cases hpc
          · rw [if_neg hcf] at hgc
            exact mid.childComp fieldId nodeM hgM c cn hgc hpc hcf
      · intro c hc hcR
        obtain ⟨m, hgm, hpm⟩ := posLaw_mem (mid.childIdx fieldId nodeM hgM) hc
        rcases mem_insertAt.mp hcR with he2 | hcRoots
        · exact mid.notChild fieldId nodeM hgM (he2 ▸ hc)
        · obtain ⟨m2, hgm2, hpm2⟩ := posLaw_mem mid.rootsIdx hcRoots
          rw [hgm] at hgm2
          injection hgm2 with he3
          rw [← he3, hpm] at hpm2
          cases hpm2
    · rw [if_neg hpf] at hgB
      apply SibOK_reindex_other hRnd
      · constructor
        · intro j hj
          obtain ⟨m, hgm, hpm, him⟩ := mid.childIdx p pnB hgB j hj
          have hcne : pnB.childIds.get ⟨j, hj⟩ ≠ fieldId := by
            intro he2
            exact mid.notChild p pnB hgB (he2 ▸ List.get_mem _ _ _)
          refine ⟨m, ?_, hpm, him⟩
          rw [hB2, if_neg hcne]
          exact hgm
        · intro c cn hgc hpc
          rw [hB2] at hgc
          by_cases hcf : c = fieldId
          · rw [if_pos hcf] at hgc
            injection hgc with he2
            exfalso
            have h3 : cn.parentId = none := by rw [← he2]
            rw [h3] at hpc
            cases hpc
          · rw [if_neg hcf] at hgc
            exact mid.childComp p pnB hgB c cn hgc hpc hcf
      · intro c hc hcR
        obtain ⟨m, hgm, hpm⟩ := posLaw_mem (mid.childIdx p pnB hgB) hc
        rcases mem_insertAt.mp hcR with he2 | hcRoots
        · exact mid.notChild p pnB hgB (he2 ▸ hc)
        · obtain ⟨m2, hgm2, hpm2⟩ := posLaw_mem mid.rootsIdx hcRoots
          rw [hgm] at hgm2
          injection hgm2 with he3
          rw [← he3, hpm] at hpm2
          cases hpm2
  · intro c cn q hgc hpc
    have hgc2 : Obj.get (reindexChildren (Obj.set byIdM fieldId { node with parentId := none })
        (insertAt roots fieldId (some toIndex))) c = some cn := hgc
    unfold reindexChildren at hgc2
    obtain ⟨cn0, hgc0, hcn0⟩ := reindexFrom_get_some _ _ _ _ _ hgc2
    have hpc0 : cn0.parentId = some q := by
      have h2 := congrArg FieldNode.parentId hcn0
      rw [← hpc]
      exact h2.symm
    show (Obj.get (reindexChildren _ _) q).isSome = true
    unfold reindexChildren
    rw [reindexFrom_isSome, hB2]
    rw [hB2] at hgc0
    by_cases hcf : c = fieldId
    · rw [if_pos hcf] at hgc0
      injection hgc0 with he
      exfalso
      have h3 : cn0.parentId = none := by rw [← he]
      rw [h3] at hpc0
      cases hpc0
    · rw [if_neg hcf] at hgc0
      by_cases hqf : q = fieldId
      · rw [if_pos hqf]
        simp
      · rw [if_neg hqf]
        exact mid.parentsExist c cn0 q hgc0 hpc0
  · obtain ⟨rk, hrk⟩ := mid.acyclicM
    refine ⟨rk, ?_⟩
    intro p c h
    obtain ⟨n, hgn, hc⟩ := hasChild_reindexFrom h
    rw [hB2] at hgn
    by_cases hpf : p = fieldId
    · rw [if_pos hpf] at hgn
      injection hgn with he
      rw [← he] at hc
      have hc2 : c ∈ nodeM.childIds := by
        rw [hchM]
        exact hc
      rw [hpf]
      exact hrk fieldId c ⟨nodeM, hgM, hc2⟩
    · rw [if_neg hpf] at hgn
      exact hrk p c ⟨n, hgn, hc⟩

/-- Reinserting the detached field under a new parent restores the invariant,
provided the target is neither the field itself nor one of its descendants. -/
theorem Inv_move_insert_parent (byIdM : Obj FieldNode) (roots : List String)
    (fieldId : String) (node : FieldNode) (toIndex : Int)
    (mid : MidInv byIdM roots fieldId node)
    (p : String) (parent2 : FieldNode)
    (hgp2 : Obj.get byIdM p = some parent2)
    (hpf : p ≠ fieldId)
    (hnd : ¬ Desc byIdM fieldId p) :
    Inv ⟨reindexChildren
        (Obj.set (Obj.set byIdM p { parent2 with childIds := insertAt parent2.childIds fieldId (some toIndex) }) fieldId { node with parentId := some p })
        (insertAt parent2.childIds fieldId (some toIndex)),
      roots⟩ := by
  obtain ⟨nodeM, hgM, hchM⟩ := mid.entry
  have hB2 : ∀ k, Obj.get (Obj.set (Obj.set byIdM p { parent2 with childIds := insertAt parent2.childIds fieldId (some toIndex) }) fieldId { node with parentId := some p }) k =
      if k = fieldId then some { node with parentId := some p }
      else if k = p then some { parent2 with childIds := insertAt parent2.childIds fieldId (some toIndex) }
      else Obj.get byIdM k := by
    intro k
    rw [Obj.get_set]
    by_cases hk : k = fieldId
    · rw [if_pos hk, if_pos hk]
    · rw [if_neg hk, if_neg hk, Obj.get_set]
  have hPnd : parent2.childIds.Nodup := posLaw_nodup (mid.childIdx p parent2 hgp2)
  have hfP : fieldId ∉ parent2.childIds := mid.notChild p parent2 hgp2
  have hSnd : (insertAt parent2.childIds fieldId (some toIndex)).Nodup :=
    insertAt_nodup hPnd hfP
  refine ⟨?_, ?_, ?_, ?_, ?_⟩
  · show (Obj.keys (reindexChildren _ _)).Nodup
    unfold reindexChildren
    rw [reindexFrom_keys]
    have hk1 : Obj.keys (Obj.set byIdM p { parent2 with childIds := insertAt parent2.childIds fieldId (some toIndex) }) = Obj.keys byIdM :=
      Obj.keys_set_of_mem _ (Obj.mem_keys_of_get_eq_some hgp2)
    have hk2 : fieldId ∈ Obj.keys (Obj.set byIdM p { parent2 with childIds := insertAt parent2.childIds fieldId (some toIndex) }) := by
      rw [hk1]
      exact Obj.mem_keys_of_get_eq_some hgM
    rw [Obj.keys_set_of_mem _ hk2, hk1]
    exact mid.keysNodup
  · apply SibOK_reindex_other hSnd
    · constructor
      · intro i hi
        obtain ⟨n, hgr, hpn, hidx⟩ := mid.rootsIdx i hi
        have hrf : roots.get ⟨i, hi⟩ ≠ fieldId := by
          intro he2
          exact mid.notRoot (he2 ▸ List.get_mem _ _ _)
        by_cases hrp : roots.get ⟨i, hi⟩ = p
        · rw [hrp] at hgr
          rw [hgp2] at hgr
          injection hgr with he2
          refine ⟨{ parent2 with childIds := insertAt parent2.childIds fieldId (some toIndex) }, ?_, ?_, ?_⟩
          · rw [hrp, hB2, if_neg hpf, if_pos rfl]
          · show parent2.parentId = none
            rw [he2]; exact hpn
          · show parent2.index = i
            rw [he2]; exact hidx
        · refine ⟨n, ?_, hpn, hidx⟩
          rw [hB2, if_neg hrf, if_neg hrp]
          exact hgr
      · intro c cn hgc hpc
        rw [hB2] at hgc
        by_cases hcf : c = fieldId
        · rw [if_pos hcf] at hgc
          injection hgc with he2
          exfalso
          have h3 : cn.parentId = some p := by rw [← he2]
          rw [h3] at hpc
          cases hpc
        · rw [if_neg hcf] at hgc
          by_cases hcp : c = p
          · rw [if_pos hcp] at hgc
            injection hgc with he2
            have h3 : cn.parentId = parent2.parentId := by rw [← he2]
            rw [h3] at hpc
            rw [hcp]
            exact mid.rootsComp p parent2 hgp2 hpc hpf
          · rw [if_neg hcp] at hgc
            exact mid.rootsComp c cn hgc hpc hcf
    · intro c hc hcS
      rcases mem_insertAt.mp hcS with he2 | hcm
      · exact mid.notRoot (he2 ▸ hc)
      · obtain ⟨m, hgm, hpm⟩ := posLaw_mem mid.rootsIdx hc
        obtain ⟨m2, hgm2, hpm2⟩ := posLaw_mem (mid.childIdx p parent2 hgp2) hcm
        rw [hgm] at hgm2
        injection hgm2 with he3
        rw [← he3, hpm] at hpm2
        cases hpm2
  · intro q pn hgq
    have hgq2 : Obj.get (reindexChildren (Obj.set (Obj.set byIdM p { parent2 with childIds := insertAt parent2.childIds fieldId (some toIndex) }) fieldId { node with parentId := some p }) (insertAt parent2.childIds fieldId (some toIndex))) q = some pn := hgq
    unfold reindexChildren at hgq2
    obtain ⟨pnB, hgB, hpnB⟩ := reindexFrom_get_some _ _ _ _ _ hgq2
    have hch : pn.childIds = pnB.childIds := by rw [hpnB]
    rw [hch]
    rw [hB2] at hgB
    by_cases hqf : q = fieldId
    · rw [if_pos hqf] at hgB
      injection hgB with he
      have hchB : pnB.childIds = nodeM.childIds := by
        rw [← he]
        exact hchM.symm
      rw [hchB, hqf]
      apply SibOK_reindex_other hSnd
      · constructor
        · intro j hj
          obtain ⟨m, hgm, hpm, him⟩ := mid.childIdx fieldId nodeM hgM j hj
          have hcne : nodeM.childIds.get ⟨j, hj⟩ ≠ fieldId := by
            intro he2
            exact mid.notChild fieldId nodeM hgM (he2 ▸ List.get_mem _ _ _)
          have hcnp : nodeM.childIds.get ⟨j, hj⟩ ≠ p := by
            intro he2
            exact hnd (Desc.child ⟨nodeM, hgM, he2 ▸ List.get_mem _ _ _⟩)
          refine ⟨m, ?_, hpm, him⟩
          rw [hB2, if_neg hcne, if_neg hcnp]
          exact hgm
        · intro c cn hgc hpc
          rw [hB2] at hgc
          by_cases hcf : c = fieldId
          · rw [if_pos hcf] at hgc
            injection hgc with he2
            have h3 : cn.parentId = some p := by rw [← he2]
            rw [h3] at hpc
            injection hpc with h4
            exact absurd h4 hpf
          · rw [if_neg hcf] at hgc
            by_cases hcp : c = p
            · rw [if_pos hcp] at hgc
              injection hgc with he2
              have h3 : cn.parentId = parent2.parentId := by rw [← he2]
              rw [h3] at hpc
              rw [hcp]
              exact mid.childComp fieldId nodeM hgM p parent2 hgp2 hpc hpf
            · rw [if_neg hcp] at hgc
              exact mid.childComp fieldId nodeM hgM c cn hgc hpc hcf
      · intro c hc hcS
        obtain ⟨m, hgm, hpm⟩ := posLaw_mem (mid.childIdx fieldId nodeM hgM) hc
        rcases mem_insertAt.mp hcS with he2 | hcm
        · exact mid.notChild fieldId nodeM hgM (he2 ▸ hc)
        · obtain ⟨m2, hgm2, hpm2⟩ := posLaw_mem (mid.childIdx p parent2 hgp2) hcm
          rw [hgm] at hgm2
          injection hgm2 with he3
          rw [← he3, hpm] at hpm2
          injection hpm2 with h4
          exact hpf h4.symm
    · rw [if_neg hqf] at hgB
      by_cases hqp : q = p
      · rw [if_pos hqp] at hgB
        injection hgB with he
        have hchB : pnB.childIds = insertAt parent2.childIds fieldId (some toIndex) := by
          rw [← he]
        rw [hchB, hqp]
        apply SibOK_reindex hSnd
        · intro c hc
          by_cases hcf : c = fieldId
          · refine ⟨{ node with parentId := some p }, ?_, rfl⟩
            rw [hB2, if_pos hcf]
          · rcases mem_insertAt.mp hc with he2 | hcm
            · exact absurd he2 hcf
            · obtain ⟨m, hgm, hpm⟩ := posLaw_mem (mid.childIdx p parent2 hgp2) hcm
              have hcp : c ≠ p := by
                intro he3
                obtain ⟨rk0, hrk0⟩ := mid.acyclicM
                exact absurd (hrk0 p p ⟨parent2, hgp2, he3 ▸ hcm⟩) (lt_irrefl _)
              refine ⟨m, ?_, hpm⟩
              rw [hB2, if_neg hcf, if_neg hcp]
              exact hgm
        · intro c cn hgc hpc
          rw [hB2] at hgc
          by_cases hcf : c = fieldId
          · exact mem_insertAt.mpr (Or.inl hcf)
          · rw [if_neg hcf] at hgc
            by_cases hcp : c = p
            · rw [if_pos hcp] at hgc
              injection hgc with he2
              have h3 : cn.parentId = parent2.parentId := by rw [← he2]
              rw [h3] at hpc
              exfalso
              have h6 : p ∈ parent2.childIds :=
                mid.childComp p parent2 hgp2 p parent2 hgp2 hpc hpf
              obtain ⟨rk0, hrk0⟩ := mid.acyclicM
              exact absurd (hrk0 p p ⟨parent2, hgp2, h6⟩) (lt_irrefl _)
            · rw [if_neg hcp] at hgc
              exact mem_insertAt.mpr (Or.inr (mid.childComp p parent2 hgp2 c cn hgc hpc hcf))
      · rw [if_neg hqp] at hgB
        apply SibOK_reindex_other hSnd
        · constructor
          · intro j hj
            obtain ⟨m, hgm, hpm, him⟩ := mid.childIdx q pnB hgB j hj
            have hcne : pnB.childIds.get ⟨j, hj⟩ ≠ fieldId := by
              intro he2
              exact mid.notChild q pnB hgB (he2 ▸ List.get_mem _ _ _)
            by_cases hcp : pnB.childIds.get ⟨j, hj⟩ = p
            · rw [hcp] at hgm
              rw [hgp2] at hgm
              injection hgm with he2
              refine ⟨{ parent2 with childIds := insertAt parent2.childIds fieldId (some toIndex) }, ?_, ?_, ?_⟩
              · rw [hcp, hB2, if_neg hpf, if_pos rfl]
              · show parent2.parentId = some q
                rw [he2]; exact hpm
              · show parent2.index = j
                rw [he2]; exact him
            · refine ⟨m, ?_, hpm, him⟩
              rw [hB2, if_neg hcne, if_neg hcp]
              exact hgm
          · intro c cn hgc hpc
            rw [hB2] at hgc
            by_cases hcf : c = fieldId
            · rw [if_pos hcf] at hgc
              injection hgc with he2
              have h3 : cn.parentId = some p := by rw [← he2]
              rw [h3] at hpc
              injection hpc with h4
              exact absurd h4.symm hqp
            · rw [if_neg hcf] at hgc
              by_cases hcp : c = p
              · rw [if_pos hcp] at hgc
                injection hgc with he2
                have h3 : cn.parentId = parent2.parentId := by rw [← he2]
                rw [h3] at hpc
                rw [hcp]
                exact mid.childComp q pnB hgB p parent2 hgp2 hpc hpf
              · rw [if_neg hcp] at hgc
                exact mid.childComp q pnB hgB c cn hgc hpc hcf
        · intro c hc hcS
          obtain ⟨m, hgm, hpm⟩ := posLaw_mem (mid.childIdx q pnB hgB) hc
          rcases mem_insertAt.mp hcS with he2 | hcm
          · exact mid.notChild q pnB hgB (he2 ▸ hc)
          · obtain ⟨m2, hgm2, hpm2⟩ := posLaw_mem (mid.childIdx p parent2 hgp2) hcm
            rw [hgm] at hgm2
            injection hgm2 with he3
            rw [← he3, hpm] at hpm2
            injection hpm2 with h4
            exact hqp h4
  · intro c cn q hgc hpc
    have hgc2 : Obj.get (reindexChildren (Obj.set (Obj.set byIdM p { parent2 with childIds := insertAt parent2.childIds fieldId (some toIndex) }) fieldId { node with parentId := some p }) (insertAt parent2.childIds fieldId (some toIndex))) c = some cn := hgc
    unfold reindexChildren at hgc2
    obtain ⟨cn0, hgc0, hcn0⟩ := reindexFrom_get_some _ _ _ _ _ hgc2
    have hpc0 : cn0.parentId = some q := by
      have h2 := congrArg FieldNode.parentId hcn0
      rw [← hpc]
      exact h2.symm
    show (Obj.get (reindexChildren _ _) q).isSome = true
    unfold reindexChildren
    rw [reindexFrom_isSome, hB2]
    rw [hB2] at hgc0
    by_cases hqf : q = fieldId
    · rw [if_pos hqf]
      simp
    · rw [if_neg hqf]
      by_cases hqp : q = p
      · rw [if_pos hqp]
        simp
      · rw [if_neg hqp]
        by_cases hcf : c = fieldId
        · rw [if_pos hcf] at hgc0
          injection hgc0 with he
          exfalso
          have h3 : cn0.parentId = some p := by rw [← he]
          rw [h3] at hpc0
          injection hpc0 with h4
          exact hqp h4.symm
        · rw [if_neg hcf] at hgc0
          by_cases hcp : c = p
          · rw [if_pos hcp] at hgc0
            injection hgc0 with he
            have h3 : cn0.parentId = parent2.parentId := by rw [← he]
            rw [h3] at hpc0
            exact mid.parentsExist p parent2 q hgp2 hpc0
          · rw [if_neg hcp] at hgc0
            exact mid.parentsExist c cn0 q hgc0 hpc0
  · obtain ⟨rkM, hrkM⟩ := mid.acyclicM
    classical
    refine ⟨fun k => rkM k + (if k = fieldId ∨ Desc byIdM fieldId k then rkM p + 1 else 0), ?_⟩
    intro a c h
    dsimp only
    obtain ⟨n, hgn, hc⟩ := hasChild_reindexFrom h
    rw [hB2] at hgn
    by_cases haf : a = fieldId
    · rw [if_pos haf] at hgn
      injection hgn with he
      rw [← he] at hc
      have hc2 : c ∈ nodeM.childIds := by
        rw [hchM]
        exact hc
      have hedge : HasChild byIdM fieldId c := ⟨nodeM, hgM, hc2⟩
      have hdc : Desc byIdM fieldId c := Desc.child hedge
      rw [haf]
      rw [if_pos (show fieldId = fieldId ∨ Desc byIdM fieldId fieldId from Or.inl rfl), if_pos (show c = fieldId ∨ Desc byIdM fieldId c from Or.inr hdc)]
      have h1 := hrkM fieldId c hedge
      omega
    · rw [if_neg haf] at hgn
      have hnp : ¬ (p = fieldId ∨ Desc byIdM fieldId p) := by
        rintro (h2 | h2)
        · exact hpf h2
        · exact hnd h2
      by_cases hap : a = p
      · rw [if_pos hap] at hgn
        injection hgn with he
        rw [← he] at hc
        have hc2 : c ∈ insertAt parent2.childIds fieldId (some toIndex) := hc
        rcases mem_insertAt.mp hc2 with hce | hcm
        · rw [hap, hce]
          rw [if_neg hnp, if_pos (show fieldId = fieldId ∨ Desc byIdM fieldId fieldId from Or.inl rfl)]
          omega
        · have hedge : HasChild byIdM p c := ⟨parent2, hgp2, hcm⟩
          have h1 := hrkM p c hedge
          rw [hap]
          rw [if_neg hnp]
          by_cases hbc : c = fieldId ∨ Desc byIdM fieldId c
          · rw [if_pos hbc]
            omega
          · rw [if_neg hbc]
            omega
      · rw [if_neg hap] at hgn
        have hedge : HasChild byIdM a c := ⟨n, hgn, hc⟩
        have h1 := hrkM a c hedge
        by_cases hba : a = fieldId ∨ Desc byIdM fieldId a
        · have hbc : Desc byIdM fieldId c := by
            rcases hba with h2 | h2
            · exact Desc.child (h2 ▸ hedge)
            · exact Desc_snoc h2 hedge
          rw [if_pos hba, if_pos (show c = fieldId ∨ Desc byIdM fieldId c from Or.inr hbc)]
          omega
        · rw [if_neg hba]
          by_cases hbc : c = fieldId ∨ Desc byIdM fieldId c
          · rw [if_pos hbc]
            omega
          · rw [if_neg hbc]
            omega

theorem Desc_mono {A B : Obj FieldNode}
    (h : ∀ p c, HasChild A p c → HasChild B p c) :
    ∀ {k c}, Desc A k c → Desc B k c := by
  intro k c hd
  induction hd with
  | child h1 => exact Desc.child (h _ _ h1)
  | step h1 _ ih => exact Desc.step (h _ _ h1) ih

theorem hasChild_set_sub {byId : Obj FieldNode} {fp : String} {parent pm : FieldNode}
    (hgfp : Obj.get byId fp = some parent)
    (hsub : ∀ x ∈ pm.childIds, x ∈ parent.childIds)
    {a c : String} (h : HasChild (Obj.set byId fp pm) a c) : HasChild byId a c := by
  obtain ⟨n, hgn, hc⟩ := h
  rw [Obj.get_set] at hgn
  by_cases hafp : a = fp
  · rw [if_pos hafp] at hgn
    injection hgn with he
    rw [← he] at hc
    rw [hafp]
    exact ⟨parent, hgfp, hsub c hc⟩
  · rw [if_neg hafp] at hgn
    exact ⟨n, hgn, hc⟩

/-- `moveField` preserves the structural invariant. -/
theorem keysNE_reindex2 {B : Obj FieldNode} (h : "" ∉ Obj.keys B) (ids : List String) :
    "" ∉ Obj.keys (reindexChildren B ids) := by
  rw [keys_reindex]
  exact h

theorem truthyId_ne_empty {x : Option String} {p : String} (h : truthyId x = some p) :
    p ≠ "" := by
  cases x with
  | none => cases h
  | some q =>
      simp only [truthyId] at h
      by_cases hq : q = ""
      · rw [if_pos hq] at h
        cases h
      · rw [if_neg hq] at h
        injection h with h2
        rw [← h2]
        exact hq

theorem moveField_preserves (s : EngineState) (fieldId : String) (toIndex : Int)
    (toParentId : Option (Option String)) (inv : Inv s.normalized)
    (hke : KeysNE s.normalized) :
    Inv (moveField s fieldId toIndex toParentId).2.normalized ∧
      KeysNE (moveField s fieldId toIndex toParentId).2.normalized := by
  unfold moveField
  cases hg : Obj.get s.normalized.byId fieldId with
  | none => exact ⟨inv, hke⟩
  | some node =>
    dsimp only
    have hfne : fieldId ≠ "" := fun he => hke (he ▸ Obj.mem_keys_of_get_eq_some hg)
    cases toParentId with
    | none =>
      dsimp only
      rw [truthyId_parent inv hke hg]
      cases hpar : node.parentId with
      | none =>
        dsimp only
        rw [if_neg (by simp), if_neg (by simp), if_neg (by simp)]
        dsimp only
        refine ⟨Inv_move_insert_root _ _ _ _ toIndex
          (MidInv_detach_root s.normalized inv fieldId node hg hpar), ?_⟩
        show "" ∉ Obj.keys _
        exact keysNE_reindex2 (keysNE_set (keysNE_reindex2 hke _) hfne _) _
      | some fp =>
        dsimp only
        have hfpne : fp ≠ "" := Inv_parentId_ne_empty inv hke hg hpar
        by_cases hfpf : fp = fieldId
        · rw [if_pos (by rw [hfpf])]
          exact ⟨inv, hke⟩
        · rw [if_neg (fun h2 => hfpf (Option.some.inj h2))]
          have hpe := inv.parentsExist fieldId node fp hg hpar
          cases hgp : Obj.get s.normalized.byId fp with
          | none =>
            rw [hgp] at hpe
            simp at hpe
          | some parent =>
            rw [if_neg (by simp)]
            have hfieldInP : fieldId ∈ parent.childIds :=
              (inv.childrenOK fp parent hgp).2 fieldId node hg hpar
            have hedge : HasChild s.normalized.byId fp fieldId := ⟨parent, hgp, hfieldInP⟩
            obtain ⟨rk, hrk⟩ := inv.acyclic
            have hndorig : ¬ Desc s.normalized.byId fieldId fp := by
              intro hd
              exact absurd (Desc_rank hrk (Desc_snoc hd hedge)) (lt_irrefl _)
            have hnotm : fp ∉ collectDescendants s.normalized.byId fieldId := by
              intro hm
              exact hndorig ((Inv_mem_collect_iff inv).mp hm)
            rw [if_neg (by simpa using hnotm)]
            dsimp only
            cases hgpd : Obj.get (reindexChildren (Obj.set s.normalized.byId fp { parent with childIds := parent.childIds.filter (fun c => c ≠ fieldId) }) (parent.childIds.filter (fun c => c ≠ fieldId))) fp with
            | none =>
              exfalso
              have hs : (Obj.get (reindexChildren (Obj.set s.normalized.byId fp { parent with childIds := parent.childIds.filter (fun c => c ≠ fieldId) }) (parent.childIds.filter (fun c => c ≠ fieldId))) fp).isSome = true := by
                unfold reindexChildren
                rw [reindexFrom_isSome, Obj.get_set, if_pos rfl]
                rfl
              rw [hgpd] at hs
              simp at hs
            | some parentD =>
              dsimp only
              refine ⟨?_, ?_⟩
              · apply Inv_move_insert_parent _ _ _ _ toIndex
                  (MidInv_detach_parent s.normalized inv fieldId fp node parent hg hpar hgp)
                  fp parentD hgpd hfpf
                intro hd
                apply hndorig
                refine Desc_mono ?_ hd
                intro a c h2
                exact hasChild_set_sub hgp (fun x hx => List.mem_of_mem_filter hx)
                  (hasChild_reindexFrom h2)
              · show "" ∉ Obj.keys _
                exact keysNE_reindex2 (keysNE_set (keysNE_set (keysNE_reindex2
                  (keysNE_set hke hfpne _) _) hfpne _) hfne _) _
    | some t =>
      dsimp only
      rw [truthyId_parent inv hke hg]
      cases htr : truthyId t with
      | none =>
        have hg1 : ¬ (t = some fieldId) := by
          intro h2
          rw [h2, truthyId_some_of_ne hfne] at htr
          cases htr
        rw [if_neg hg1, if_neg (by simp), if_neg (by simp)]
        dsimp only
        cases hpar : node.parentId with
        | none =>
          dsimp only
          refine ⟨Inv_move_insert_root _ _ _ _ toIndex
            (MidInv_detach_root s.normalized inv fieldId node hg hpar), ?_⟩
          show "" ∉ Obj.keys _
          exact keysNE_reindex2 (keysNE_set (keysNE_reindex2 hke _) hfne _) _
        | some fp =>
          dsimp only
          have hfpne : fp ≠ "" := Inv_parentId_ne_empty inv hke hg hpar
          have hpe := inv.parentsExist fieldId node fp hg hpar
          cases hgp : Obj.get s.normalized.byId fp with
          | none =>
            rw [hgp] at hpe
            simp at hpe
          | some parent =>
            dsimp only
            refine ⟨Inv_move_insert_root _ _ _ _ toIndex
              (MidInv_detach_parent s.normalized inv fieldId fp node parent hg hpar hgp), ?_⟩
            show "" ∉ Obj.keys _
            exact keysNE_reindex2 (keysNE_set (keysNE_reindex2
              (keysNE_set hke hfpne _) _) hfne _) _
      | some p =>
        have ht : t = some p := truthyId_eq_some htr
        subst ht
        have hpne : p ≠ "" := truthyId_ne_empty htr
        dsimp only
        by_cases hpfld : p = fieldId
        · rw [if_pos (by rw [hpfld])]
          exact ⟨inv, hke⟩
        · rw [if_neg (fun h2 => hpfld (Option.some.inj h2))]
          cases hgp0 : Obj.get s.normalized.byId p with
          | none =>
            rw [if_pos (show (Option.isNone (none : Option FieldNode)) = true from rfl)]
            exact ⟨inv, hke⟩
          | some tparent =>
            rw [if_neg (by simp)]
            by_cases hmem : p ∈ collectDescendants s.normalized.byId fieldId
            · rw [if_pos (by simpa using hmem)]
              exact ⟨inv, hke⟩
            · rw [if_neg (by simpa using hmem)]
              cases hpar : node.parentId with
              | none =>
                dsimp only
                cases hgpd : Obj.get (reindexChildren s.normalized.byId (s.normalized.rootIds.filter (fun r => r ≠ fieldId))) p with
                | none =>
                  exfalso
                  have hs : (Obj.get (reindexChildren s.normalized.byId (s.normalized.rootIds.filter (fun r => r ≠ fieldId))) p).isSome = true := by
                    unfold reindexChildren
                    rw [reindexFrom_isSome, hgp0]
                    rfl
                  rw [hgpd] at hs
                  simp at hs
                | some parentD =>
                  dsimp only
                  refine ⟨?_, ?_⟩
                  · apply Inv_move_insert_parent _ _ _ _ toIndex
                      (MidInv_detach_root s.normalized inv fieldId node hg hpar)
                      p parentD hgpd hpfld
                    intro hd
                    apply hmem
                    apply (Inv_mem_collect_iff inv).mpr
                    exact Desc_mono (fun a c h2 => hasChild_reindexFrom h2) hd
                  · show "" ∉ Obj.keys _
                    exact keysNE_reindex2 (keysNE_set (keysNE_set
                      (keysNE_reindex2 hke _) hpne _) hfne _) _
              | some fp =>
                dsimp only
                have hfpne : fp ≠ "" := Inv_parentId_ne_empty inv hke hg hpar
                have hpe := inv.parentsExist fieldId node fp hg hpar
                cases hgp : Obj.get s.normalized.byId fp with
                | none =>
                  rw [hgp] at hpe
                  simp at hpe
                | some parent =>
                  dsimp only
                  cases hgpd : Obj.get (reindexChildren (Obj.set s.normalized.byId fp { parent with childIds := parent.childIds.filter (fun c => c ≠ fieldId) }) (parent.childIds.filter (fun c => c ≠ fieldId))) p with
                  | none =>
                    exfalso
                    have hs : (Obj.get (reindexChildren (Obj.set s.normalized.byId fp { parent with childIds := parent.childIds.filter (fun c => c ≠ fieldId) }) (parent.childIds.filter (fun c => c ≠ fieldId))) p).isSome = true := by
                      unfold reindexChildren
                      rw [reindexFrom_isSome, Obj.get_set]
                      by_cases hpfp : p = fp
                      · rw [if_pos hpfp]
                        rfl
                      · rw [if_neg hpfp, hgp0]
                        rfl
                    rw [hgpd] at hs
                    simp at hs
                  | some parentD =>
                    dsimp only
                    refine ⟨?_, ?_⟩
                    · apply Inv_move_insert_parent _ _ _ _ toIndex
                        (MidInv_detach_parent s.normalized inv fieldId fp node parent hg hpar hgp)
                        p parentD hgpd hpfld
                      intro hd
                      apply hmem
                      apply (Inv_mem_collect_iff inv).mpr
                      refine Desc_mono ?_ hd
                      intro a c h2
                      exact hasChild_set_sub hgp (fun x hx => List.mem_of_mem_filter hx)
                        (hasChild_reindexFrom h2)
                    · show "" ∉ Obj.keys _
                      exact keysNE_reindex2 (keysNE_set (keysNE_set (keysNE_reindex2
                        (keysNE_set hke hfpne _) _) hpne _) hfne _) _

/-- The only structural edit that can introduce an empty-string id is an
explicit rename to it (`patch.id = ""`); `addField` generates non-empty
ids and the other operations never add keys. -/
def opNoEmptyId : EditOp → Bool
  | .update _ patch => patch.id != some ""
  | _ => true

theorem applyEdit_preserves (s : EngineState) (op : EditOp)
    (hop : opNoEmptyId op = true) (inv : Inv s.normalized) (hke : KeysNE s.normalized) :
    Inv (applyEdit s op).normalized ∧ KeysNE (applyEdit s op).normalized := by
  cases op with
  | add fieldType parentId index patch =>
      exact addField_preserves s fieldType parentId index patch inv hke
  | update fieldId patch =>
      exact updateField_preserves s fieldId patch (by simpa [opNoEmptyId] using hop) inv hke
  | remove fieldId => exact removeField_preserves s fieldId inv hke
  | move fieldId toIndex toParentId =>
      exact moveField_preserves s fieldId toIndex toParentId inv hke

theorem applyEdits_preserves (ops : List EditOp) :
    ∀ (s : EngineState), (∀ op ∈ ops, opNoEmptyId op = true) →
      Inv s.normalized → KeysNE s.normalized →
      Inv (applyEdits s ops).normalized ∧ KeysNE (applyEdits s ops).normalized := by
  induction ops with
  | nil => intro s _ inv hke; exact ⟨inv, hke⟩
  | cons op rest ih =>
      intro s hops inv hke
      obtain ⟨inv2, hke2⟩ :=
        applyEdit_preserves s op (hops op (List.mem_cons_self _ _)) inv hke
      exact ih (applyEdit s op) (fun o ho => hops o (List.mem_cons_of_mem _ ho)) inv2 hke2

/-- The normalized index reached by loading a definition and applying a
sequence of structural edits. -/
def afterEdits (fields : List FieldDef) (ops : List EditOp) : NormalizedDefinition :=
  (applyEdits (loadDefinition fields) ops).normalized

theorem KeysNE_load {fields : List FieldDef} (hnd : (treeIdsF fields).Nodup)
    (hne : "" ∉ treeIdsF fields) : KeysNE (normalizeDefinition fields) := by
  rw [normalizeDefinition_eq_entries hnd]
  show "" ∉ Obj.keys (entriesOfF fields none 0)
  rw [keys_entriesOfF_any]
  exact hne

/-- The tree of the C7 counterexample: a section whose id is the empty
string, holding one child, next to a root question. -/
def w7bad : List FieldDef :=
  [FieldDef.mk { id := "", fieldType := "section" }
     (some [FieldDef.mk { id := "c", fieldType := "text" } none]),
   FieldDef.mk { id := "r", fieldType := "text" } none]

def w7badops : List EditOp := [EditOp.remove "c"]

/-- Counterexample to C7 as stated: the tree is well-formed, but after
removing the child of the empty-id section the claimed index laws fail -
JS treats the empty parent id as falsy, so `removeField` takes the root
branch and leaves the section's `childIds` referencing an id that is no
longer a key. -/
theorem reindex_claim_counterexample :
    WellFormed w7bad ∧
    ¬ ((∀ (i : Nat) (h : i < (afterEdits w7bad w7badops).rootIds.length), ∃ n,
        Obj.get (afterEdits w7bad w7badops).byId ((afterEdits w7bad w7badops).rootIds.get ⟨i, h⟩) =
          some n ∧ n.index = i) ∧
    (∀ p pn, Obj.get (afterEdits w7bad w7badops).byId p = some pn →
        ∀ (j : Nat) (h : j < pn.childIds.length), ∃ n,
        Obj.get (afterEdits w7bad w7badops).byId (pn.childIds.get ⟨j, h⟩) = some n ∧ n.index = j) ∧
    (Obj.keys (afterEdits w7bad w7badops).byId).Nodup ∧
    (∀ c, (c ∈ (afterEdits w7bad w7badops).rootIds ∨
        ∃ p pn, Obj.get (afterEdits w7bad w7badops).byId p = some pn ∧ c ∈ pn.childIds) →
      List.count c (Obj.keys (afterEdits w7bad w7badops).byId) = 1)) := by
  constructor
  · exact ⟨rfl, by rw [show treeIdsF w7bad = ["c", "", "r"] from rfl]; decide⟩
  · intro h
    have hgempty : Obj.get (afterEdits w7bad w7badops).byId "" =
        some ⟨{ id := "", fieldType := "section" }, none, ["c"], 0⟩ := by decide
    have hgc : Obj.get (afterEdits w7bad w7badops).byId "c" = none := by decide
    obtain ⟨n, hgn, _⟩ := h.2.1 "" _ hgempty 0 (by decide)
    have hgn2 : Obj.get (afterEdits w7bad w7badops).byId "c" = some n := hgn
    rw [hgc] at hgn2
    cases hgn2

/-- C7 (amended): starting from a loaded well-formed tree in which no
field id is the empty string, after every sequence of structural edits
that never renames a field to the empty id, the normalized index
satisfies: the root at array position i has index i, the child at array
position j of every node has index j, the flat index has no duplicate
keys, and every id referenced as a root or as a parent's child appears
exactly once as a key.  (Unamended, the claim fails: JS truthiness makes
an empty-string parent id falsy, so edits detach such children from the
root list instead, leaving the section's child list dangling.) -/
theorem reindex_invariant (fields : List FieldDef) (ops : List EditOp)
    (hwf : WellFormed fields) (hne : "" ∉ treeIdsF fields)
    (hops : ∀ op ∈ ops, opNoEmptyId op = true) :
    (∀ (i : Nat) (h : i < (afterEdits fields ops).rootIds.length), ∃ n,
        Obj.get (afterEdits fields ops).byId ((afterEdits fields ops).rootIds.get ⟨i, h⟩) =
          some n ∧ n.index = i) ∧
    (∀ p pn, Obj.get (afterEdits fields ops).byId p = some pn →
        ∀ (j : Nat) (h : j < pn.childIds.length), ∃ n,
        Obj.get (afterEdits fields ops).byId (pn.childIds.get ⟨j, h⟩) = some n ∧ n.index = j) ∧
    (Obj.keys (afterEdits fields ops).byId).Nodup ∧
    (∀ c, (c ∈ (afterEdits fields ops).rootIds ∨
        ∃ p pn, Obj.get (afterEdits fields ops).byId p = some pn ∧ c ∈ pn.childIds) →
      List.count c (Obj.keys (afterEdits fields ops).byId) = 1) := by
  obtain ⟨inv0, _⟩ := applyEdits_preserves ops (loadDefinition fields) hops
    (Inv_normalize hwf.2) (KeysNE_load hwf.2 hne)
  have inv : Inv (afterEdits fields ops) := inv0
  refine ⟨?_, ?_, inv.keysNodup, ?_⟩
  · intro i h
    obtain ⟨n, hgn, _, hidx⟩ := inv.rootsOK.1 i h
    exact ⟨n, hgn, hidx⟩
  · intro p pn hgp j h
    obtain ⟨n, hgn, _, hidx⟩ := (inv.childrenOK p pn hgp).1 j h
    exact ⟨n, hgn, hidx⟩
  · intro c hc
    have hmem : c ∈ Obj.keys (afterEdits fields ops).byId := by
      rcases hc with hr | ⟨p, pn, hgp, hcc⟩
      · obtain ⟨n, hgn, _⟩ := SibOK_mem inv.rootsOK hr
        exact Obj.mem_keys_of_get_eq_some hgn
      · exact Inv_child_mem_keys inv ⟨pn, hgp, hcc⟩
    exact List.count_eq_one_of_mem inv.keysNodup hmem

def w7fields : List FieldDef :=
  [FieldDef.mk { id := "q0", fieldType := "text" } none,
   FieldDef.mk { id := "s1", fieldType := "section" }
     (some [FieldDef.mk { id := "q1", fieldType := "text" } none])]

def w7ops : List EditOp :=
  [EditOp.remove "q0", EditOp.move "q1" 0 (some none)]

/-- Witness for amended C7: a concrete well-formed two-level tree with
non-empty ids, edited by a removal and a move to root level, satisfies
the index laws. -/
theorem reindex_invariant_witness :
    (WellFormed w7fields ∧ "" ∉ treeIdsF w7fields ∧
      (∀ op ∈ w7ops, opNoEmptyId op = true)) ∧
    ((∀ (i : Nat) (h : i < (afterEdits w7fields w7ops).rootIds.length), ∃ n,
        Obj.get (afterEdits w7fields w7ops).byId ((afterEdits w7fields w7ops).rootIds.get ⟨i, h⟩) =
          some n ∧ n.index = i) ∧
    (∀ p pn, Obj.get (afterEdits w7fields w7ops).byId p = some pn →
        ∀ (j : Nat) (h : j < pn.childIds.length), ∃ n,
        Obj.get (afterEdits w7fields w7ops).byId (pn.childIds.get ⟨j, h⟩) = some n ∧ n.index = j) ∧
    (Obj.keys (afterEdits w7fields w7ops).byId).Nodup ∧
    (∀ c, (c ∈ (afterEdits w7fields w7ops).rootIds ∨
        ∃ p pn, Obj.get (afterEdits w7fields w7ops).byId p = some pn ∧ c ∈ pn.childIds) →
      List.count c (Obj.keys (afterEdits w7fields w7ops).byId) = 1)) :=
  ⟨⟨⟨rfl, by rw [show treeIdsF w7fields = ["q0", "q1", "s1"] from rfl]; decide⟩,
    by rw [show treeIdsF w7fields = ["q0", "q1", "s1"] from rfl]; decide,
    by decide⟩,
   reindex_invariant w7fields w7ops
     ⟨rfl, by rw [show treeIdsF w7fields = ["q0", "q1", "s1"] from rfl]; decide⟩
     (by rw [show treeIdsF w7fields = ["q0", "q1", "s1"] from rfl]; decide)
     (by decide)⟩

theorem reindex_frame_back {B : Obj FieldNode} {ids : List String} {k : String} {n2 : FieldNode}
    (h : Obj.get (reindexChildren B ids) k = some n2) :
    ∃ n, Obj.get B k = some n ∧ n2.parentId = n.parentId ∧ n2.childIds = n.childIds := by
  have h2 : Obj.get (reindexFrom B ids 0) k = some n2 := h
  obtain ⟨n, hgn, hn⟩ := reindexFrom_get_some _ _ _ _ _ h2
  refine ⟨n, hgn, ?_, ?_⟩
  · have h3 := congrArg FieldNode.parentId hn
    exact h3
  · have h3 := congrArg FieldNode.childIds hn
    exact h3

theorem reindex_frame (B : Obj FieldNode) (ids : List String) {k : String} {v : FieldNode}
    (hsome : Obj.get B k = some v) :
    ∃ n2, Obj.get (reindexChildren B ids) k = some n2 ∧
      n2.parentId = v.parentId ∧ n2.childIds = v.childIds := by
  have hs : (Obj.get (reindexChildren B ids) k).isSome = true := by
    unfold reindexChildren
    rw [reindexFrom_isSome, hsome]
    rfl
  cases hgf : Obj.get (reindexChildren B ids) k with
  | none =>
      rw [hgf] at hs
      simp at hs
  | some n2 =>
      obtain ⟨n, hgn, hp2, hc2⟩ := reindex_frame_back hgf
      rw [hsome] at hgn
      injection hgn with he
      refine ⟨n2, rfl, ?_, ?_⟩
      · rw [hp2, ← he]
      · rw [hc2, ← he]

theorem roots_filter_id {nd : NormalizedDefinition} (inv : Inv nd) {fieldId fp : String}
    {node : FieldNode} (hg : Obj.get nd.byId fieldId = some node)
    (hpar : node.parentId = some fp) :
    nd.rootIds.filter (fun r => r ≠ fieldId) = nd.rootIds := by
  apply List.filter_eq_self.mpr
  intro a ha
  simp only [decide_eq_true_eq]
  intro he
  obtain ⟨n, hgr, hpn⟩ := SibOK_mem inv.rootsOK (he ▸ ha)
  rw [hg] at hgr
  injection hgr with he2
  rw [← he2, hpar] at hpn
  cases hpn

theorem childIds_filter_id {nd : NormalizedDefinition} (inv : Inv nd) {fieldId p : String}
    {node pn : FieldNode} (hg : Obj.get nd.byId fieldId = some node)
    (hgp : Obj.get nd.byId p = some pn) (hne : node.parentId ≠ some p) :
    pn.childIds.filter (fun c => c ≠ fieldId) = pn.childIds := by
  apply List.filter_eq_self.mpr
  intro a ha
  simp only [decide_eq_true_eq]
  intro he
  apply hne
  exact Inv_parent_unique inv hg ⟨pn, hgp, he ▸ ha⟩

theorem Inv_parent_ne_self {nd : NormalizedDefinition} (inv : Inv nd) {c : String}
    {cn : FieldNode} (hg : Obj.get nd.byId c = some cn) {q : String}
    (hp : cn.parentId = some q) : q ≠ c := by
  intro he
  rw [he] at hp
  obtain ⟨pn2, hgp2, hcp2⟩ := Inv_childComplete inv hg hp
  rw [hg] at hgp2
  injection hgp2 with he2
  rw [← he2] at hcp2
  exact Inv_not_self_child inv hg hcp2

def w8fields : List FieldDef :=
  [FieldDef.mk { id := "q0", fieldType := "text" } none,
   FieldDef.mk { id := "s1", fieldType := "section" }
     (some [FieldDef.mk { id := "q1", fieldType := "text" } none])]

def w8s : EngineState := loadDefinition w8fields

/-- Counterexample to C8 as stated: the empty string is not a key of the
state, yet `moveField` with target parent `""` returns `true` - JS treats
the empty-string target as falsy and moves the field to root level - while
the claim asserts `false` for an unknown target parent.  The field indeed
ends up in the root list. -/
theorem moveField_claim_counterexample :
    Obj.get w8s.normalized.byId "" = none ∧
    (moveField w8s "q1" 0 (some (some ""))).1 = true ∧
    "q1" ∈ (moveField w8s "q1" 0 (some (some ""))).2.normalized.rootIds := by
  refine ⟨by decide, by decide, by decide⟩

/-- C8 (amended): `moveField` resolves the target as JS does - an absent
`toParentId` keeps the current parent, and a `null` or empty-string
target is falsy and means root level.  It returns `false` with the state
entirely unchanged exactly when the field is unknown, the resolved raw
target equals the field's own id, or the truthy resolved target is
unknown or one of the field's descendants.  Otherwise it returns `true`,
rewrites the field's `parentId` to the truthy target (`null` at root),
splices the field into the target sibling list (the root list for a
falsy target) at the requested position - the new list is `insertAt` of
the old one minus the field - and detaches it from its previous sibling
list; afterwards every sibling list of the store, in particular the two
affected ones, is reindexed so each entry's `index` equals its array
position. -/
theorem moveField_contract (s : EngineState) (fieldId : String) (toIndex : Int)
    (toParentId : Option (Option String)) (inv : Inv s.normalized)
    (hke : KeysNE s.normalized) :
    (Obj.get s.normalized.byId fieldId = none →
      moveField s fieldId toIndex toParentId = (false, s)) ∧
    (∀ node, Obj.get s.normalized.byId fieldId = some node →
      ((((match toParentId with | none => node.parentId | some t => t) : Option String) = some fieldId ∨
        (∃ p, truthyId (match toParentId with | none => node.parentId | some t => t) = some p ∧
          Obj.get s.normalized.byId p = none) ∨
        (∃ p, truthyId (match toParentId with | none => node.parentId | some t => t) = some p ∧
          p ∈ collectDescendants s.normalized.byId fieldId)) →
        moveField s fieldId toIndex toParentId = (false, s)) ∧
      ((((match toParentId with | none => node.parentId | some t => t) : Option String) ≠ some fieldId) →
        (∀ p, truthyId (match toParentId with | none => node.parentId | some t => t) = some p →
          (Obj.get s.normalized.byId p).isSome = true ∧
          p ∉ collectDescendants s.normalized.byId fieldId) →
        (moveField s fieldId toIndex toParentId).1 = true ∧
        (∃ node2,
          Obj.get (moveField s fieldId toIndex toParentId).2.normalized.byId fieldId =
            some node2 ∧
          node2.parentId = truthyId (match toParentId with | none => node.parentId | some t => t)) ∧
        (truthyId (match toParentId with | none => node.parentId | some t => t) = none →
          (moveField s fieldId toIndex toParentId).2.normalized.rootIds =
            insertAt (s.normalized.rootIds.filter (fun r => r ≠ fieldId)) fieldId
              (some toIndex)) ∧
        (∀ p pn, truthyId (match toParentId with | none => node.parentId | some t => t) = some p →
          Obj.get s.normalized.byId p = some pn →
          ∃ pn2,
            Obj.get (moveField s fieldId toIndex toParentId).2.normalized.byId p =
              some pn2 ∧
            pn2.childIds =
              insertAt (pn.childIds.filter (fun c => c ≠ fieldId)) fieldId
                (some toIndex)) ∧
        (∀ fp fpn, truthyId node.parentId = some fp →
          truthyId (match toParentId with | none => node.parentId | some t => t) ≠ some fp →
          Obj.get s.normalized.byId fp = some fpn →
          ∃ fpn2,
            Obj.get (moveField s fieldId toIndex toParentId).2.normalized.byId fp =
              some fpn2 ∧
            fpn2.childIds = fpn.childIds.filter (fun c => c ≠ fieldId)) ∧
        (truthyId node.parentId = none →
          truthyId (match toParentId with | none => node.parentId | some t => t) ≠ none →
          (moveField s fieldId toIndex toParentId).2.normalized.rootIds =
            s.normalized.rootIds.filter (fun r => r ≠ fieldId)))) ∧
    (∀ (i : Nat) (h : i < (moveField s fieldId toIndex toParentId).2.normalized.rootIds.length),
      ∃ n, Obj.get (moveField s fieldId toIndex toParentId).2.normalized.byId
        ((moveField s fieldId toIndex toParentId).2.normalized.rootIds.get ⟨i, h⟩) =
          some n ∧ n.index = i) ∧
    (∀ q qn, Obj.get (moveField s fieldId toIndex toParentId).2.normalized.byId q = some qn →
      ∀ (j : Nat) (h : j < qn.childIds.length),
      ∃ n, Obj.get (moveField s fieldId toIndex toParentId).2.normalized.byId
        (qn.childIds.get ⟨j, h⟩) = some n ∧ n.index = j) := by
  obtain ⟨invM, _⟩ := moveField_preserves s fieldId toIndex toParentId inv hke
  refine ⟨?_, ?_, ?_, ?_⟩
  · intro hg
    unfold moveField
    rw [hg]
  · intro node0 hg0
    have hfne : fieldId ≠ "" := fun he => hke (he ▸ Obj.mem_keys_of_get_eq_some hg0)
    refine ⟨?_, ?_⟩
    · intro hfail
      unfold moveField
      rw [hg0]
      dsimp only
      cases toParentId with
      | none =>
          dsimp only
          dsimp only at hfail
          rw [truthyId_parent inv hke hg0]
          rw [truthyId_parent inv hke hg0] at hfail
          rcases hfail with h1 | ⟨p, htpp, hgp⟩ | ⟨p, htpp, hmem⟩
          · rw [if_pos h1]
          · rw [htpp]
            by_cases hp1 : p = fieldId
            · rw [if_pos (by rw [hp1])]
            · rw [if_neg (fun h2 => hp1 (Option.some.inj h2))]
              dsimp only
              rw [hgp]
              rw [if_pos (show Option.isNone (none : Option FieldNode) = true from rfl)]
          · rw [htpp]
            by_cases hp1 : p = fieldId
            · rw [if_pos (by rw [hp1])]
            · rw [if_neg (fun h2 => hp1 (Option.some.inj h2))]
              dsimp only
              cases hgp2 : Obj.get s.normalized.byId p with
              | none =>
                  rw [if_pos (show Option.isNone (none : Option FieldNode) = true from rfl)]
              | some pn0 =>
                  rw [if_neg (by simp), if_pos (by simpa using hmem)]
      | some t =>
          dsimp only
          dsimp only at hfail
          rcases hfail with h1 | ⟨p, htpp, hgp⟩ | ⟨p, htpp, hmem⟩
          · rw [if_pos h1]
          · have ht := truthyId_eq_some htpp
            subst ht
            rw [htpp]
            by_cases hp1 : p = fieldId
            · rw [if_pos (by rw [hp1])]
            · rw [if_neg (fun h2 => hp1 (Option.some.inj h2))]
              dsimp only
              rw [hgp]
              rw [if_pos (show Option.isNone (none : Option FieldNode) = true from rfl)]
          · have ht := truthyId_eq_some htpp
            subst ht
            rw [htpp]
            by_cases hp1 : p = fieldId
            · rw [if_pos (by rw [hp1])]
            · rw [if_neg (fun h2 => hp1 (Option.some.inj h2))]
              dsimp only
              cases hgp2 : Obj.get s.normalized.byId p with
              | none =>
                  rw [if_pos (show Option.isNone (none : Option FieldNode) = true from rfl)]
              | some pn0 =>
                  rw [if_neg (by simp), if_pos (by simpa using hmem)]
    · intro htne hok
      unfold moveField
      rw [hg0]
      dsimp only
      cases toParentId with
      | none =>
          dsimp only
          dsimp only at htne hok
          rw [truthyId_parent inv hke hg0]
          rw [truthyId_parent inv hke hg0] at hok
          cases hpar : node0.parentId with
          | none =>
              dsimp only
              rw [if_neg (by simp), if_neg (by simp), if_neg (by simp)]
              dsimp only
              refine ⟨rfl, ?_, ?_, ?_, ?_, ?_⟩
              · obtain ⟨node2, hgf, hp2, _⟩ := reindex_frame _
                  (insertAt (s.normalized.rootIds.filter (fun r => r ≠ fieldId)) fieldId
                    (some toIndex))
                  (show Obj.get (Obj.set (reindexChildren s.normalized.byId
                      (s.normalized.rootIds.filter (fun r => r ≠ fieldId))) fieldId
                      { node0 with parentId := none }) fieldId =
                      some { node0 with parentId := none } from
                    by rw [Obj.get_set, if_pos rfl])
                exact ⟨node2, hgf, hp2⟩
              · intro _
                rfl
              · intro q pn hq hgq
                cases hq
              · intro fp fpn h2 _ _
                cases h2
              · intro _ h2
                exact absurd rfl h2
          | some fp =>
              dsimp only
              obtain ⟨hps, hpdesc⟩ := hok fp hpar
              rw [if_neg (fun h2 => htne (by rw [hpar]; exact h2))]
              cases hgp : Obj.get s.normalized.byId fp with
              | none =>
                  rw [hgp] at hps
                  simp at hps
              | some parent =>
                  rw [if_neg (by simp), if_neg (by simpa using hpdesc)]
                  dsimp only
                  have hfpfld : ¬ fp = fieldId := Inv_parent_ne_self inv hg0 hpar
                  cases hgpd : Obj.get (reindexChildren (Obj.set s.normalized.byId fp
                      { parent with childIds := parent.childIds.filter (fun c => c ≠ fieldId) })
                      (parent.childIds.filter (fun c => c ≠ fieldId))) fp with
                  | none =>
                      exfalso
                      have hs2 : (Obj.get (reindexChildren (Obj.set s.normalized.byId fp
                          { parent with childIds := parent.childIds.filter (fun c => c ≠ fieldId) })
                          (parent.childIds.filter (fun c => c ≠ fieldId))) fp).isSome = true := by
                        unfold reindexChildren
                        rw [reindexFrom_isSome, Obj.get_set, if_pos rfl]
                        rfl
                      rw [hgpd] at hs2
                      simp at hs2
                  | some parentD =>
                      dsimp only
                      refine ⟨rfl, ?_, ?_, ?_, ?_, ?_⟩
                      · obtain ⟨node2, hgf, hp2, _⟩ := reindex_frame _
                          (insertAt parentD.childIds fieldId (some toIndex))
                          (show Obj.get (Obj.set (Obj.set (reindexChildren
                              (Obj.set s.normalized.byId fp { parent with childIds := parent.childIds.filter (fun c => c ≠ fieldId) })
                              (parent.childIds.filter (fun c => c ≠ fieldId))) fp
                              { parentD with childIds := insertAt parentD.childIds fieldId (some toIndex) }) fieldId
                              { node0 with parentId := some fp }) fieldId =
                              some { node0 with parentId := some fp } from
                            by rw [Obj.get_set, if_pos rfl])
                        exact ⟨node2, hgf, hp2⟩
                      · intro h2
                        cases h2
                      · intro q pn hq hgq
                        have hq2 := Option.some.inj hq
                        subst hq2
                        rw [hgp] at hgq
                        injection hgq with he1
                        obtain ⟨pn2, hgf2, _, hc2⟩ := reindex_frame _
                          (insertAt parentD.childIds fieldId (some toIndex))
                          (show Obj.get (Obj.set (Obj.set (reindexChildren
                              (Obj.set s.normalized.byId fp { parent with childIds := parent.childIds.filter (fun c => c ≠ fieldId) })
                              (parent.childIds.filter (fun c => c ≠ fieldId))) fp
                              { parentD with childIds := insertAt parentD.childIds fieldId (some toIndex) }) fieldId
                              { node0 with parentId := some fp }) fp =
                              some { parentD with childIds := insertAt parentD.childIds fieldId (some toIndex) } from
                            by rw [Obj.get_set, if_neg hfpfld, Obj.get_set, if_pos rfl])
                        have hc3 : pn2.childIds = insertAt parentD.childIds fieldId (some toIndex) := hc2
                        obtain ⟨q0, hgq0, _, hcq0⟩ := reindex_frame_back hgpd
                        rw [Obj.get_set, if_pos rfl] at hgq0
                        injection hgq0 with he0
                        have hpd : parentD.childIds = pn.childIds.filter (fun c => c ≠ fieldId) := by
                          rw [hcq0, ← he0]
                          show parent.childIds.filter (fun c => c ≠ fieldId) =
                            pn.childIds.filter (fun c => c ≠ fieldId)
                          rw [he1]
                        rw [hpd] at hc3
                        exact ⟨pn2, hgf2, hc3⟩
                      · intro fp2 fpn h2 h3 _
                        have h4 := Option.some.inj h2
                        exact absurd (show (some fp : Option String) = some fp2 from by rw [h4]) h3
                      · intro h2 _
                        cases h2
      | some t =>
          dsimp only
          dsimp only at htne hok
          rw [truthyId_parent inv hke hg0]
          cases htr : truthyId t with
          | none =>
              rw [htr] at hok
              have hg1 : ¬ (t = some fieldId) := by
                intro h2
                rw [h2, truthyId_some_of_ne hfne] at htr
                cases htr
              rw [if_neg hg1, if_neg (by simp), if_neg (by simp)]
              dsimp only
              cases hpar : node0.parentId with
              | none =>
                  dsimp only
                  refine ⟨rfl, ?_, ?_, ?_, ?_, ?_⟩
                  · obtain ⟨node2, hgf, hp2, _⟩ := reindex_frame _
                      (insertAt (s.normalized.rootIds.filter (fun r => r ≠ fieldId)) fieldId
                        (some toIndex))
                      (show Obj.get (Obj.set (reindexChildren s.normalized.byId
                          (s.normalized.rootIds.filter (fun r => r ≠ fieldId))) fieldId
                          { node0 with parentId := none }) fieldId =
                          some { node0 with parentId := none } from
                        by rw [Obj.get_set, if_pos rfl])
                    exact ⟨node2, hgf, hp2⟩
                  · intro _
                    rfl
                  · intro q pn hq hgq
                    cases hq
                  · intro fp fpn h2 _ _
                    cases h2
                  · intro _ h2
                    exact absurd rfl h2
              | some fp =>
                  dsimp only
                  have hpe := inv.parentsExist fieldId node0 fp hg0 hpar
                  cases hgp : Obj.get s.normalized.byId fp with
                  | none =>
                      rw [hgp] at hpe
                      simp at hpe
                  | some parent =>
                      dsimp only
                      have hfpfld : ¬ fp = fieldId := Inv_parent_ne_self inv hg0 hpar
                      refine ⟨rfl, ?_, ?_, ?_, ?_, ?_⟩
                      · obtain ⟨node2, hgf, hp2, _⟩ := reindex_frame _
                          (insertAt s.normalized.rootIds fieldId (some toIndex))
                          (show Obj.get (Obj.set (reindexChildren
                              (Obj.set s.normalized.byId fp { parent with childIds := parent.childIds.filter (fun c => c ≠ fieldId) })
                              (parent.childIds.filter (fun c => c ≠ fieldId))) fieldId
                              { node0 with parentId := none }) fieldId =
                              some { node0 with parentId := none } from
                            by rw [Obj.get_set, if_pos rfl])
                        exact ⟨node2, hgf, hp2⟩
                      · intro _
                        rw [roots_filter_id inv hg0 hpar]
                      · intro q pn hq hgq
                        cases hq
                      · intro fp2 fpn h2 _ hgq
                        have h4 := Option.some.inj h2
                        subst h4
                        rw [hgp] at hgq
                        injection hgq with he1
                        obtain ⟨fpn2, hgD, _, hcD⟩ := reindex_frame _
                          (parent.childIds.filter (fun c => c ≠ fieldId))
                          (show Obj.get (Obj.set s.normalized.byId fp
                              { parent with childIds := parent.childIds.filter (fun c => c ≠ fieldId) }) fp =
                              some { parent with childIds := parent.childIds.filter (fun c => c ≠ fieldId) } from
                            by rw [Obj.get_set, if_pos rfl])
                        obtain ⟨fpn3, hgF, _, hcF⟩ := reindex_frame _
                          (insertAt s.normalized.rootIds fieldId (some toIndex))
                          (show Obj.get (Obj.set (reindexChildren
                              (Obj.set s.normalized.byId fp { parent with childIds := parent.childIds.filter (fun c => c ≠ fieldId) })
                              (parent.childIds.filter (fun c => c ≠ fieldId))) fieldId
                              { node0 with parentId := none }) fp = some fpn2 from
                            by rw [Obj.get_set, if_neg hfpfld]; exact hgD)
                        refine ⟨fpn3, hgF, ?_⟩
                        rw [hcF, hcD]
                        show parent.childIds.filter (fun c => c ≠ fieldId) =
                          fpn.childIds.filter (fun c => c ≠ fieldId)
                        rw [he1]
                      · intro h2 _
                        cases h2
          | some p =>
              rw [htr] at hok
              have ht : t = some p := truthyId_eq_some htr
              subst ht
              have hpne : p ≠ "" := truthyId_ne_empty htr
              dsimp only
              obtain ⟨hps, hpdesc⟩ := hok p rfl
              rw [if_neg htne]
              have hpfld : ¬ p = fieldId := fun he => htne (by rw [he])
              cases hgp0 : Obj.get s.normalized.byId p with
              | none =>
                  rw [hgp0] at hps
                  simp at hps
              | some pn0 =>
                  rw [if_neg (by simp), if_neg (by simpa using hpdesc)]
                  cases hpar : node0.parentId with
                  | none =>
                      dsimp only
                      cases hgpd : Obj.get (reindexChildren s.normalized.byId
                          (s.normalized.rootIds.filter (fun r => r ≠ fieldId))) p with
                      | none =>
                          exfalso
                          have hs2 : (Obj.get (reindexChildren s.normalized.byId
                              (s.normalized.rootIds.filter (fun r => r ≠ fieldId))) p).isSome = true := by
                            unfold reindexChildren
                            rw [reindexFrom_isSome, hgp0]
                            rfl
                          rw [hgpd] at hs2
                          simp at hs2
                      | some parentD =>
                          dsimp only
                          refine ⟨rfl, ?_, ?_, ?_, ?_, ?_⟩
                          · obtain ⟨node2, hgf, hp2, _⟩ := reindex_frame _
                              (insertAt parentD.childIds fieldId (some toIndex))
                              (show Obj.get (Obj.set (Obj.set (reindexChildren s.normalized.byId
                                  (s.normalized.rootIds.filter (fun r => r ≠ fieldId))) p
                                  { parentD with childIds := insertAt parentD.childIds fieldId (some toIndex) }) fieldId
                                  { node0 with parentId := some p }) fieldId =
                                  some { node0 with parentId := some p } from
                                by rw [Obj.get_set, if_pos rfl])
                            exact ⟨node2, hgf, hp2⟩
                          · intro h2
                            cases h2
                          · intro q pn hq hgq
                            have hq2 := Option.some.inj hq
                            subst hq2
                            rw [hgp0] at hgq
                            injection hgq with he1
                            obtain ⟨pn2, hgf2, _, hc2⟩ := reindex_frame _
                              (insertAt parentD.childIds fieldId (some toIndex))
                              (show Obj.get (Obj.set (Obj.set (reindexChildren s.normalized.byId
                                  (s.normalized.rootIds.filter (fun r => r ≠ fieldId))) p
                                  { parentD with childIds := insertAt parentD.childIds fieldId (some toIndex) }) fieldId
                                  { node0 with parentId := some p }) p =
                                  some { parentD with childIds := insertAt parentD.childIds fieldId (some toIndex) } from
                                by rw [Obj.get_set, if_neg hpfld, Obj.get_set, if_pos rfl])
                            have hc3 : pn2.childIds = insertAt parentD.childIds fieldId (some toIndex) := hc2
                            obtain ⟨q0, hgq0, _, hcq0⟩ := reindex_frame_back hgpd
                            rw [hgp0] at hgq0
                            injection hgq0 with he0
                            have hfe : pn0.childIds.filter (fun c => c ≠ fieldId) = pn0.childIds :=
                              childIds_filter_id inv hg0 hgp0 (by rw [hpar]; intro h2; cases h2)
                            have hpd : parentD.childIds = pn.childIds.filter (fun c => c ≠ fieldId) := by
                              rw [hcq0, ← he0, ← he1, hfe, he1]
                            rw [hpd] at hc3
                            exact ⟨pn2, hgf2, hc3⟩
                          · intro fp fpn h2 _ _
                            cases h2
                          · intro _ _
                            rfl
                  | some fp =>
                      dsimp only
                      have hpe := inv.parentsExist fieldId node0 fp hg0 hpar
                      cases hgp : Obj.get s.normalized.byId fp with
                      | none =>
                          rw [hgp] at hpe
                          simp at hpe
                      | some parent =>
                          dsimp only
                          have hfpfld : ¬ fp = fieldId := Inv_parent_ne_self inv hg0 hpar
                          cases hgpd : Obj.get (reindexChildren (Obj.set s.normalized.byId fp
                              { parent with childIds := parent.childIds.filter (fun c => c ≠ fieldId) })
                              (parent.childIds.filter (fun c => c ≠ fieldId))) p with
                          | none =>
                              exfalso
                              have hs2 : (Obj.get (reindexChildren (Obj.set s.normalized.byId fp
                                  { parent with childIds := parent.childIds.filter (fun c => c ≠ fieldId) })
                                  (parent.childIds.filter (fun c => c ≠ fieldId))) p).isSome = true := by
                                unfold reindexChildren
                                rw [reindexFrom_isSome, Obj.get_set]
                                by_cases hpfp : p = fp
                                · rw [if_pos hpfp]
                                  rfl
                                · rw [if_neg hpfp, hgp0]
                                  rfl
                              rw [hgpd] at hs2
                              simp at hs2
                          | some parentD =>
                              dsimp only
                              refine ⟨rfl, ?_, ?_, ?_, ?_, ?_⟩
                              · obtain ⟨node2, hgf, hp2, _⟩ := reindex_frame _
                                  (insertAt parentD.childIds fieldId (some toIndex))
                                  (show Obj.get (Obj.set (Obj.set (reindexChildren
                                      (Obj.set s.normalized.byId fp { parent with childIds := parent.childIds.filter (fun c => c ≠ fieldId) })
                                      (parent.childIds.filter (fun c => c ≠ fieldId))) p
                                      { parentD with childIds := insertAt parentD.childIds fieldId (some toIndex) }) fieldId
                                      { node0 with parentId := some p }) fieldId =
                                      some { node0 with parentId := some p } from
                                    by rw [Obj.get_set, if_pos rfl])
                                exact ⟨node2, hgf, hp2⟩
                              · intro h2
                                cases h2
                              · intro q pn hq hgq
                                have hq2 := Option.some.inj hq
                                subst hq2
                                rw [hgp0] at hgq
                                injection hgq with he1
                                obtain ⟨pn2, hgf2, _, hc2⟩ := reindex_frame _
                                  (insertAt parentD.childIds fieldId (some toIndex))
                                  (show Obj.get (Obj.set (Obj.set (reindexChildren
                                      (Obj.set s.normalized.byId fp { parent with childIds := parent.childIds.filter (fun c => c ≠ fieldId) })
                                      (parent.childIds.filter (fun c => c ≠ fieldId))) p
                                      { parentD with childIds := insertAt parentD.childIds fieldId (some toIndex) }) fieldId
                                      { node0 with parentId := some p }) p =
                                      some { parentD with childIds := insertAt parentD.childIds fieldId (some toIndex) } from
                                    by rw [Obj.get_set, if_neg hpfld, Obj.get_set, if_pos rfl])
                                have hc3 : pn2.childIds = insertAt parentD.childIds fieldId (some toIndex) := hc2
                                obtain ⟨q0, hgq0, _, hcq0⟩ := reindex_frame_back hgpd
                                rw [Obj.get_set] at hgq0
                                by_cases hpfp : p = fp
                                · rw [if_pos hpfp] at hgq0
                                  injection hgq0 with he0
                                  have he2 : parent = pn := by
                                    rw [hpfp] at hgp0
                                    rw [hgp] at hgp0
                                    injection hgp0 with he3
                                    rw [← he1, he3]
                                  have hpd : parentD.childIds = pn.childIds.filter (fun c => c ≠ fieldId) := by
                                    rw [hcq0, ← he0]
                                    show parent.childIds.filter (fun c => c ≠ fieldId) =
                                      pn.childIds.filter (fun c => c ≠ fieldId)
                                    rw [he2]
                                  rw [hpd] at hc3
                                  exact ⟨pn2, hgf2, hc3⟩
                                · rw [if_neg hpfp] at hgq0
                                  rw [hgp0] at hgq0
                                  injection hgq0 with he0
                                  have hfe : pn0.childIds.filter (fun c => c ≠ fieldId) = pn0.childIds :=
                                    childIds_filter_id inv hg0 hgp0 (by
                                      rw [hpar]
                                      intro h2
                                      exact hpfp (Option.some.inj h2).symm)
                                  have hpd : parentD.childIds = pn.childIds.filter (fun c => c ≠ fieldId) := by
                                    rw [hcq0, ← he0, ← he1, hfe, he1]
                                  rw [hpd] at hc3
                                  exact ⟨pn2, hgf2, hc3⟩
                              · intro fp2 fpn h2 h3 hgq
                                have h4 := Option.some.inj h2
                                subst h4
                                have hpfp2 : ¬ p = fp := fun he =>
                                  h3 (show (some p : Option String) = some fp from by rw [he])
                                rw [hgp] at hgq
                                injection hgq with he1
                                obtain ⟨fpn2, hgD, _, hcD⟩ := reindex_frame _
                                  (parent.childIds.filter (fun c => c ≠ fieldId))
                                  (show Obj.get (Obj.set s.normalized.byId fp
                                      { parent with childIds := parent.childIds.filter (fun c => c ≠ fieldId) }) fp =
                                      some { parent with childIds := parent.childIds.filter (fun c => c ≠ fieldId) } from
                                    by rw [Obj.get_set, if_pos rfl])
                                obtain ⟨fpn3, hgF, _, hcF⟩ := reindex_frame _
                                  (insertAt parentD.childIds fieldId (some toIndex))
                                  (show Obj.get (Obj.set (Obj.set (reindexChildren
                                      (Obj.set s.normalized.byId fp { parent with childIds := parent.childIds.filter (fun c => c ≠ fieldId) })
                                      (parent.childIds.filter (fun c => c ≠ fieldId))) p
                                      { parentD with childIds := insertAt parentD.childIds fieldId (some toIndex) }) fieldId
                                      { node0 with parentId := some p }) fp = some fpn2 from
                                    by rw [Obj.get_set, if_neg hfpfld, Obj.get_set, if_neg (fun he : fp = p => hpfp2 he.symm)]; exact hgD)
                                refine ⟨fpn3, hgF, ?_⟩
                                rw [hcF, hcD]
                                show parent.childIds.filter (fun c => c ≠ fieldId) =
                                  fpn.childIds.filter (fun c => c ≠ fieldId)
                                rw [he1]
                              · intro h2 _
                                cases h2
  · intro i h
    obtain ⟨n, hgn, _, hidx⟩ := invM.rootsOK.1 i h
    exact ⟨n, hgn, hidx⟩
  · intro q qn hgq j h
    obtain ⟨n, hgn, _, hidx⟩ := (invM.childrenOK q qn hgq).1 j h
    exact ⟨n, hgn, hidx⟩

/-- Witness for amended C8: on a concrete loaded two-level tree, moving the
nested question to root level satisfies the move contract. -/
theorem moveField_contract_witness :
    (Inv w8s.normalized ∧ KeysNE w8s.normalized) ∧
    ((Obj.get w8s.normalized.byId "q1" = none →
      moveField w8s "q1" 0 (some none) = (false, w8s)) ∧
    (∀ node, Obj.get w8s.normalized.byId "q1" = some node →
      ((((match (some none : Option (Option String)) with | none => node.parentId | some t => t) : Option String) = some "q1" ∨
        (∃ p, truthyId (match (some none : Option (Option String)) with | none => node.parentId | some t => t) = some p ∧
          Obj.get w8s.normalized.byId p = none) ∨
        (∃ p, truthyId (match (some none : Option (Option String)) with | none => node.parentId | some t => t) = some p ∧
          p ∈ collectDescendants w8s.normalized.byId "q1")) →
        moveField w8s "q1" 0 (some none) = (false, w8s)) ∧
      ((((match (some none : Option (Option String)) with | none => node.parentId | some t => t) : Option String) ≠ some "q1") →
        (∀ p, truthyId (match (some none : Option (Option String)) with | none => node.parentId | some t => t) = some p →
          (Obj.get w8s.normalized.byId p).isSome = true ∧
          p ∉ collectDescendants w8s.normalized.byId "q1") →
        (moveField w8s "q1" 0 (some none)).1 = true ∧
        (∃ node2,
          Obj.get (moveField w8s "q1" 0 (some none)).2.normalized.byId "q1" =
            some node2 ∧
          node2.parentId = truthyId (match (some none : Option (Option String)) with | none => node.parentId | some t => t)) ∧
        (truthyId (match (some none : Option (Option String)) with | none => node.parentId | some t => t) = none →
          (moveField w8s "q1" 0 (some none)).2.normalized.rootIds =
            insertAt (w8s.normalized.rootIds.filter (fun r => r ≠ "q1")) "q1"
              (some 0)) ∧
        (∀ p pn, truthyId (match (some none : Option (Option String)) with | none => node.parentId | some t => t) = some p →
          Obj.get w8s.normalized.byId p = some pn →
          ∃ pn2,
            Obj.get (moveField w8s "q1" 0 (some none)).2.normalized.byId p =
              some pn2 ∧
            pn2.childIds =
              insertAt (pn.childIds.filter (fun c => c ≠ "q1")) "q1"
                (some 0)) ∧
        (∀ fp fpn, truthyId node.parentId = some fp →
          truthyId (match (some none : Option (Option String)) with | none => node.parentId | some t => t) ≠ some fp →
          Obj.get w8s.normalized.byId fp = some fpn →
          ∃ fpn2,
            Obj.get (moveField w8s "q1" 0 (some none)).2.normalized.byId fp =
              some fpn2 ∧
            fpn2.childIds = fpn.childIds.filter (fun c => c ≠ "q1")) ∧
        (truthyId node.parentId = none →
          truthyId (match (some none : Option (Option String)) with | none => node.parentId | some t => t) ≠ none →
          (moveField w8s "q1" 0 (some none)).2.normalized.rootIds =
            w8s.normalized.rootIds.filter (fun r => r ≠ "q1")))) ∧
    (∀ (i : Nat) (h : i < (moveField w8s "q1" 0 (some none)).2.normalized.rootIds.length),
      ∃ n, Obj.get (moveField w8s "q1" 0 (some none)).2.normalized.byId
        ((moveField w8s "q1" 0 (some none)).2.normalized.rootIds.get ⟨i, h⟩) =
          some n ∧ n.index = i) ∧
    (∀ q qn, Obj.get (moveField w8s "q1" 0 (some none)).2.normalized.byId q = some qn →
      ∀ (j : Nat) (h : j < qn.childIds.length),
      ∃ n, Obj.get (moveField w8s "q1" 0 (some none)).2.normalized.byId
        (qn.childIds.get ⟨j, h⟩) = some n ∧ n.index = j)) :=
  ⟨⟨Inv_normalize (show (treeIdsF w8fields).Nodup from
      by rw [show treeIdsF w8fields = ["q0", "q1", "s1"] from rfl]; decide),
    show "" ∉ Obj.keys w8s.normalized.byId from by decide⟩,
   moveField_contract w8s "q1" 0 (some none)
     (Inv_normalize (show (treeIdsF w8fields).Nodup from
        by rw [show treeIdsF w8fields = ["q0", "q1", "s1"] from rfl]; decide))
     (show "" ∉ Obj.keys w8s.normalized.byId from by decide)⟩

end MSheet
